import Mathlib

/-!
Verification of the QuantumSolver repository (gate-sequence synthesis).

Shallow embedding conventions:
* Python floats are modelled as exact real numbers (ℝ); Python `complex`
  as Mathlib's ℂ.  `math.sqrt` is `Real.sqrt`, `abs(z)` is `Complex.abs`.
* Python ints are modelled as ℤ where sign matters (constraint layer
  indices, quantisation decimals) and as ℕ for qubit indices and counts.
  The code rejects negative qubit targets with the guard
  `q < 0 or q >= num_qubits`; with ℕ indices the first disjunct is
  identically false and only `num_qubits ≤ q` remains.
* Python `round` (banker's rounding, half to even) is `pyRound`;
  `math.isclose` is `pyIsClose`.
* Fallible code returns `Except PyErr`; each `raise` site of the source
  is mapped to a distinct constructor following the error names of the
  specification.
* Python dicts keep insertion order; they are modelled as association
  lists (`List (key × value)`) with first-match lookup.  The solver's
  `while frontier:` loop is modelled with an explicit fuel parameter;
  all theorems quantify over the fuel, so they cover every terminating
  execution of the source loop.
-/

namespace QSolver

/-- Python `round(x)`: round half to even (banker's rounding).
Used by `GateSequenceSolver._state_key` (solver.py line 154). -/
noncomputable def pyRound (x : ℝ) : ℤ :=
  if Int.fract x = 1/2 then (if Even ⌊x⌋ then ⌊x⌋ else ⌊x⌋ + 1) else round x

/-- Python `math.isclose(a, b, rel_tol, abs_tol)`:
`abs(a-b) <= max(rel_tol * max(abs(a), abs(b)), abs_tol)`. -/
noncomputable def pyIsClose (a b relTol absTol : ℝ) : Prop :=
  |a - b| ≤ max (relTol * max |a| |b|) absTol

noncomputable instance (a b relTol absTol : ℝ) :
    Decidable (pyIsClose a b relTol absTol) := by
  unfold pyIsClose; infer_instance

/-- Error kinds raised by the library (spec §7); every `raise` of the
source maps to one of these. -/
inductive PyErr where
  | invalidGate
  | unsupportedGate
  | unsupportedArity
  | invalidTarget
  | dimensionMismatch
  | zeroVector
  | qubitMismatch
  | constraintConflict
  | outOfRangeLayer
  | valueError
  | indexError
  deriving DecidableEq, Repr

/-! ## Gate library (gates.py) -/

/-- A gate: name, dense matrix (list of rows), arity.
Mirrors the `Gate` dataclass (gates.py lines 37-54); the `__post_init__`
validation is the predicate `Gate.WF` below. -/
structure Gate where
  name : String
  matrix : List (List ℂ)
  num_qubits : ℕ

/-- `_is_unitary` (gates.py lines 14-34): square shape and
`U · U* ≈ I` entrywise within `tolerance = 1e-9`, checked with
`math.isclose` on real and imaginary parts separately. -/
noncomputable def isUnitaryApprox (matrix : List (List ℂ)) : Prop :=
  let size := matrix.length
  (∀ row ∈ matrix, row.length = size) ∧
  (∀ i < size, ∀ j < size,
    let total : ℂ :=
      ((List.range size).map (fun k =>
        ((matrix.getD i []).getD k 0) * (starRingEnd ℂ ((matrix.getD j []).getD k 0)))).sum
    if i = j then
      pyIsClose total.re 1 (1e-9) (1e-9) ∧ pyIsClose total.im 0 0 (1e-9)
    else
      pyIsClose total.re 0 0 (1e-9) ∧ pyIsClose total.im 0 0 (1e-9))

/-- `Gate.__post_init__` (gates.py lines 45-54): `2^num_qubits` rows,
square rows, unitary within tolerance.  Gates can only be constructed
through this validation, so every `Gate` value reaching the solver
satisfies `WF`. -/
noncomputable def Gate.WF (g : Gate) : Prop :=
  g.matrix.length = 2 ^ g.num_qubits ∧
  (∀ row ∈ g.matrix, row.length = 2 ^ g.num_qubits) ∧
  isUnitaryApprox g.matrix

/-- A concrete placement of a gate on qubits; mirrors the
`GateOperation` dataclass (gates.py lines 57-71). -/
structure GateOperation where
  gate : Gate
  targets : List ℕ

/-- `GateOperation.__post_init__` (gates.py lines 64-71): the target
tuple has length equal to the gate arity and no duplicates. -/
def GateOperation.WF (op : GateOperation) : Prop :=
  op.targets.length = op.gate.num_qubits ∧ op.targets.Nodup

/-! ## State-vector kernel (gates.py `apply_gate_matrix`) -/

/-- Inner loop of `apply_gate_matrix` (gates.py lines 118-121): starting
from `base`, OR in `1 << qubit` for every reversed-target position whose
`pattern` bit is set (offset `o` of the enumeration is bit `o` of
`pattern`). -/
def spreadIdx (base : ℕ) (rts : List ℕ) (pattern : ℕ) : ℕ :=
  match rts with
  | [] => base
  | q :: rest =>
      spreadIdx (if pattern.testBit 0 then base ||| (1 <<< q) else base) rest (pattern >>> 1)

/-- `target_mask` accumulation (gates.py lines 106-108). -/
def maskOf (targets : List ℕ) : ℕ :=
  targets.foldl (fun m q => m ||| (1 <<< q)) 0

/-- The running total `total += coefficient * amplitude` over
`zip(row, vector)` (gates.py lines 126-130). -/
def dotRow (row v : List ℂ) : ℂ :=
  (row.zip v).foldl (fun t p => t + p.1 * p.2) 0

/-- `transformed = [dot(row, vector) for row in gate_matrix]`
(gates.py lines 125-130). -/
def matVec (M : List (List ℂ)) (v : List ℂ) : List ℂ :=
  M.map (fun row => dotRow row v)

/-- The body of the base-index loop of `apply_gate_matrix`
(gates.py lines 113-133): skip base indices meeting the target mask;
otherwise gather the sub-vector, multiply by the matrix, and scatter
the result.  Out-of-range reads (which raise IndexError in Python,
possible only when `len(state) ≠ 2^n`, a case the callers exclude) are
modelled by `getD _ 0`. -/
def kernelWrite (state : List ℂ) (M : List (List ℂ)) (targets : List ℕ)
    (result : List ℂ) (base : ℕ) : List ℂ :=
  if base &&& maskOf targets ≠ 0 then result
  else
    let indices := (List.range (2 ^ targets.length)).map (spreadIdx base targets.reverse)
    let vector := indices.map (fun idx => state.getD idx 0)
    let transformed := matVec M vector
    (indices.zip transformed).foldl (fun r p => r.set p.1 p.2) result

/-- `apply_gate_matrix` (gates.py lines 95-135): validate the targets,
then run the base-index loop over an initially-zero output vector of
dimension `2^n`. -/
def applyGateMatrix (state : List ℂ) (M : List (List ℂ)) (targets : List ℕ)
    (n : ℕ) : Except PyErr (List ℂ) :=
  if targets.any (fun q => n ≤ q) then .error .invalidTarget
  else
    .ok ((List.range (2 ^ n)).foldl (kernelWrite state M targets)
      (List.replicate (2 ^ n) 0))

/-- `GateOperation.apply` (gates.py lines 73-81): dimension check then
kernel call. -/
def GateOperation.apply (op : GateOperation) (state : List ℂ) (numQubits : ℕ) :
    Except PyErr (List ℂ) :=
  if state.length ≠ 2 ^ numQubits then .error .dimensionMismatch
  else applyGateMatrix state op.gate.matrix op.targets numQubits

/-! ## Concrete gate library (gates.py lines 148-219) -/

noncomputable def SQRT_HALF : ℝ := 1 / Real.sqrt 2

def X_GATE : Gate := ⟨"X", [[0, 1], [1, 0]], 1⟩

def Y_GATE : Gate := ⟨"Y", [[0, -Complex.I], [Complex.I, 0]], 1⟩

def Z_GATE : Gate := ⟨"Z", [[1, 0], [0, -1]], 1⟩

noncomputable def H_GATE : Gate :=
  ⟨"H", [[(SQRT_HALF : ℂ), (SQRT_HALF : ℂ)], [(SQRT_HALF : ℂ), -(SQRT_HALF : ℂ)]], 1⟩

def S_GATE : Gate := ⟨"S", [[1, 0], [0, Complex.I]], 1⟩

/-- `T` uses `cmath.exp(1j * pi / 4)`. -/
noncomputable def T_GATE : Gate :=
  ⟨"T", [[1, 0], [0, Complex.exp (Complex.I * (Real.pi / 4 : ℝ))]], 1⟩

def ID_GATE : Gate := ⟨"I", [[1, 0], [0, 1]], 1⟩

def CNOT_GATE : Gate :=
  ⟨"CNOT", [[1, 0, 0, 0], [0, 1, 0, 0], [0, 0, 0, 1], [0, 0, 1, 0]], 2⟩

/-- `SUPPORTED_GATES`: insertion-ordered name→gate table
(gates.py lines 216-219). -/
noncomputable def supportedGates : List Gate :=
  [X_GATE, Y_GATE, Z_GATE, H_GATE, S_GATE, T_GATE, ID_GATE, CNOT_GATE]

/-- `SUPPORTED_GATES[symbol]` lookup (first match; dict keys are the
distinct gate names). -/
noncomputable def lookupSupported (symbol : String) : Option Gate :=
  supportedGates.find? (fun g => g.name = symbol)

/-! ## State wrapper (state.py) -/

/-- `_validate_dimension` (state.py lines 15-23): zero length is
rejected, `num_qubits = int(log2(length))` (exact for the in-range
values the code handles, so `Nat.log2`), and `2^num_qubits` must give
back the length. -/
def validateDimension (length : ℕ) : Except PyErr ℕ :=
  if length = 0 then .error .dimensionMismatch
  else
    let numQubits := Nat.log2 length
    if 2 ^ numQubits ≠ length then .error .dimensionMismatch
    else .ok numQubits

/-- `Σ abs(value)**2` as in `_normalise` (state.py line 27). -/
noncomputable def normSquaredOf (amplitudes : List ℂ) : ℝ :=
  (amplitudes.map (fun value => Complex.abs value ^ 2)).sum

/-- `_normalise` (state.py lines 26-33): return unchanged when the norm
square is `isclose` to 1 (rel 1e-9, abs 1e-12); fail on (close to) the
zero vector; otherwise divide by `sqrt(norm_squared)`. -/
noncomputable def pyNormalise (amplitudes : List ℂ) : Except PyErr (List ℂ) :=
  if pyIsClose (normSquaredOf amplitudes) 1 (1e-9) (1e-12) then .ok amplitudes
  else if pyIsClose (normSquaredOf amplitudes) 0 (1e-9) (1e-12) then
    .error .zeroVector
  else
    .ok (amplitudes.map (fun value =>
      value / ((Real.sqrt (normSquaredOf amplitudes) : ℝ) : ℂ)))

/-- Immutable n-qubit state (state.py lines 50-55); like the Python
dataclass the structure itself carries no invariant. -/
structure QuantumState where
  amplitudes : List ℂ
  num_qubits : ℕ

/-- `QuantumState.from_amplitudes` (state.py lines 57-65). -/
noncomputable def QuantumState.from_amplitudes (amplitudes : List ℂ)
    (normalise : Bool) : Except PyErr QuantumState := do
  let numQubits ← validateDimension amplitudes.length
  if normalise then
    let vector ← pyNormalise amplitudes
    .ok ⟨vector, numQubits⟩
  else
    .ok ⟨amplitudes, numQubits⟩

/-- `QuantumState.distance` (state.py lines 74-78): L2 norm of the
componentwise difference.  Python indexes `other.amplitudes[i]` for
`i < len(self.amplitudes)` and would raise IndexError on a shorter
`other`; that is the `indexError` branch. -/
noncomputable def QuantumState.distance (self other : QuantumState) :
    Except PyErr ℝ :=
  if self.num_qubits ≠ other.num_qubits then .error .qubitMismatch
  else if other.amplitudes.length < self.amplitudes.length then .error .indexError
  else
    let diff := (List.range self.amplitudes.length).map
      (fun i => self.amplitudes.getD i 0 - other.amplitudes.getD i 0)
    .ok (Real.sqrt ((diff.map (fun value => Complex.abs value ^ 2)).sum))

/-- `QuantumState.apply` (state.py lines 80-82). -/
def QuantumState.apply (self : QuantumState) (operation : GateOperation) :
    Except PyErr QuantumState := do
  let newState ← operation.apply self.amplitudes self.num_qubits
  .ok ⟨newState, self.num_qubits⟩

/-- `QuantumState.copy` (state.py lines 87-88). -/
def QuantumState.copy (self : QuantumState) : QuantumState :=
  ⟨self.amplitudes, self.num_qubits⟩

/-! ## Solver data model (solver.py) -/

noncomputable instance : DecidableEq ℂ := Classical.decEq ℂ

noncomputable instance : DecidableEq Gate :=
  fun _ _ => Classical.propDecidable _

noncomputable instance : DecidableEq GateOperation :=
  fun _ _ => Classical.propDecidable _

/-- `SolverResult` dataclass (solver.py lines 16-23). -/
structure SolverResult where
  success : Bool
  sequence : List GateOperation
  layers_used : ℕ
  final_state : QuantumState
  distance : ℝ
  states : List QuantumState

/-- The keyword parameters of `GateSequenceSolver.__init__`
(solver.py lines 32-42).  Dicts are insertion-ordered association
lists; in a run coming from Python their keys are pairwise distinct. -/
structure SolverConfig where
  num_qubits : ℕ
  allowed_gates : Option (List String)
  tolerance : ℝ
  quantisation_decimals : ℤ
  fixed_operations : Option (List (ℤ × GateOperation))
  layer_gate_allowlists : Option (List (ℤ × List String))
  default_layer_gate_allowlist : Option (List String)

/-- The constructed solver: the attributes `__init__` stores
(solver.py lines 45-128). -/
structure GateSequenceSolver where
  num_qubits : ℕ
  tolerance : ℝ
  quantisation_decimals : ℤ
  quantisation_scale : ℝ
  gates : List Gate
  operations : List GateOperation
  operations_by_gate : List (String × List GateOperation)
  identity_operation : Option GateOperation
  fixed_operations : List (ℤ × GateOperation)
  fixed_layers : List ℤ
  layer_specific_operations : List (ℤ × List GateOperation)
  default_layer_operations : Option (List GateOperation)

/-- Resolution of `allowed_gates` symbols against `SUPPORTED_GATES`
(solver.py lines 50-55); an unknown symbol raises. -/
noncomputable def resolveGateSymbols : List String → Except PyErr (List Gate)
  | [] => .ok []
  | symbol :: rest =>
      match lookupSupported symbol with
      | none => .error .unsupportedGate
      | some g => (g :: ·) <$> resolveGateSymbols rest

/-- `_build_operations` (solver.py lines 130-148): per gate, arity-1
targets in ascending order; arity-2 ordered pairs with the control in
the outer loop (skipped entirely when `num_qubits < 2`); any other
arity raises. -/
def buildOperations (n : ℕ) : List Gate → Except PyErr (List GateOperation)
  | [] => .ok []
  | gate :: rest =>
      if gate.num_qubits = 1 then
        (((List.range n).map (fun target => GateOperation.mk gate [target])) ++ ·) <$>
          buildOperations n rest
      else if gate.num_qubits = 2 then
        if n < 2 then buildOperations n rest
        else
          (((List.range n).flatMap (fun control =>
              ((List.range n).filter (fun target => target ≠ control)).map
                (fun target => GateOperation.mk gate [control, target]))) ++ ·) <$>
            buildOperations n rest
      else .error .unsupportedArity

/-- One step of the `_operations_by_gate` dict construction
(solver.py lines 58-60): `setdefault(name, []).append(op)` keeps
insertion order of keys and appends at the end of the bucket. -/
def dictAppendOp : List (String × List GateOperation) → String → GateOperation →
    List (String × List GateOperation)
  | [], key, op => [(key, [op])]
  | (k, ops) :: rest, key, op =>
      if k = key then (k, ops ++ [op]) :: rest
      else (k, ops) :: dictAppendOp rest key op

/-- The `_operations_by_gate` dict (solver.py lines 58-60). -/
def buildOpsByGate (operations : List GateOperation) :
    List (String × List GateOperation) :=
  operations.foldl (fun d op => dictAppendOp d op.gate.name op) []

/-- Insertion of an element into a sorted list (used to model Python's
`sorted` on the fixed-layer keys, solver.py line 77). -/
def insertSorted (x : ℤ) : List ℤ → List ℤ
  | [] => [x]
  | y :: rest => if x ≤ y then x :: y :: rest else y :: insertSorted x rest

/-- `sorted(self.fixed_operations.keys())` (solver.py line 77):
insertion sort, ascending. -/
def sortInts (l : List ℤ) : List ℤ := l.foldr insertSorted []

theorem mem_insertSorted (x y : ℤ) (l : List ℤ) :
    y ∈ insertSorted x l ↔ y = x ∨ y ∈ l := by
  induction l with
  | nil => simp [insertSorted]
  | cons z rest ih =>
      unfold insertSorted
      by_cases h : x ≤ z
      · rw [if_pos h]
        simp [or_assoc]
      · rw [if_neg h]
        simp [ih]
        tauto

theorem mem_sortInts (y : ℤ) (l : List ℤ) : y ∈ sortInts l ↔ y ∈ l := by
  induction l with
  | nil => simp [sortInts]
  | cons z rest ih =>
      unfold sortInts at *
      simp [List.foldr_cons, mem_insertSorted, ih]

/-- Validation loop over `fixed_operations` (solver.py lines 68-76):
negative layers and out-of-range targets raise `ValueError`. -/
def checkFixedOperations (n : ℕ) : List (ℤ × GateOperation) → Except PyErr Unit
  | [] => .ok ()
  | (layer, operation) :: rest =>
      if layer < 0 then .error .valueError
      else if operation.targets.any (fun target => n ≤ target) then .error .valueError
      else checkFixedOperations n rest

/-- `tuple(dict.fromkeys(allowed))` (solver.py lines 84 and 104):
de-duplication keeping the first occurrence of each name in order.
(Each name is kept where it first appears and all its later
occurrences are dropped, which is exactly the `dict.fromkeys`
insertion-order semantics.) -/
def dedupKeepFirst : List String → List String
  | [] => []
  | name :: rest => name :: (dedupKeepFirst rest).filter (fun x => x ≠ name)

/-- The per-name operation accumulation shared by the per-layer and
default allowlist handling (solver.py lines 92-100 and 112-120):
`_operations_by_gate.get(name)` must yield a non-empty list, and the
buckets are concatenated in allowlist order. -/
def resolveAllowlistNames (opsByGate : List (String × List GateOperation)) :
    List String → Except PyErr (List GateOperation)
  | [] => .ok []
  | name :: rest =>
      match opsByGate.lookup name with
      | some ops =>
          if ops.isEmpty then .error .valueError
          else (ops ++ ·) <$> resolveAllowlistNames opsByGate rest
      | none => .error .valueError

/-- Validation and resolution of one allowlist (the shared body of
solver.py lines 84-100 and 104-121): de-duplicate, reject empty lists
and names outside the solver alphabet, then resolve to operations. -/
def buildAllowlistOps (gateNames : List String)
    (opsByGate : List (String × List GateOperation)) (allowed : List String) :
    Except PyErr (List GateOperation) :=
  let allowedNames := dedupKeepFirst allowed
  if allowedNames = [] then .error .valueError
  else if allowedNames.any (fun name => name ∉ gateNames) then .error .valueError
  else resolveAllowlistNames opsByGate allowedNames

/-- The `_layer_specific_operations` dict (solver.py lines 79-101). -/
def buildLayerSpecific (gateNames : List String)
    (opsByGate : List (String × List GateOperation)) :
    List (ℤ × List String) → Except PyErr (List (ℤ × List GateOperation))
  | [] => .ok []
  | (layer, allowed) :: rest =>
      if layer < 0 then .error .valueError
      else do
        let ops ← buildAllowlistOps gateNames opsByGate allowed
        ((layer, ops) :: ·) <$> buildLayerSpecific gateNames opsByGate rest

/-- Fixed-versus-allowlist conflict check (solver.py lines 122-128). -/
noncomputable def checkConflicts
    (layerSpecific : List (ℤ × List GateOperation)) :
    List (ℤ × GateOperation) → Except PyErr Unit
  | [] => .ok ()
  | (layer, operation) :: rest =>
      match layerSpecific.lookup layer with
      | some allowed =>
          if operation ∈ allowed then checkConflicts layerSpecific rest
          else .error .constraintConflict
      | none => checkConflicts layerSpecific rest

/-- `GateSequenceSolver.__init__` (solver.py lines 32-128). -/
noncomputable def mkGateSequenceSolver (cfg : SolverConfig) :
    Except PyErr GateSequenceSolver :=
  if cfg.num_qubits = 0 then .error .valueError
  else do
    let gateSymbols := cfg.allowed_gates.getD (supportedGates.map Gate.name)
    let gates ← resolveGateSymbols gateSymbols
    let operations ← buildOperations cfg.num_qubits gates
    let operationsByGate := buildOpsByGate operations
    let identityOperation :=
      match operationsByGate.lookup "I" with
      | some (op :: _) => some op
      | _ => none
    let fixedOperations := cfg.fixed_operations.getD []
    checkFixedOperations cfg.num_qubits fixedOperations
    let fixedLayers := sortInts (fixedOperations.map Prod.fst)
    let gateNames := gates.map Gate.name
    let layerSpecific ←
      buildLayerSpecific gateNames operationsByGate (cfg.layer_gate_allowlists.getD [])
    let defaultOps ←
      match cfg.default_layer_gate_allowlist with
      | none => pure (none : Option (List GateOperation))
      | some allowed => some <$> buildAllowlistOps gateNames operationsByGate allowed
    checkConflicts layerSpecific fixedOperations
    .ok ⟨cfg.num_qubits, cfg.tolerance, cfg.quantisation_decimals,
      (10 : ℝ) ^ cfg.quantisation_decimals, gates, operations, operationsByGate,
      identityOperation, fixedOperations, fixedLayers, layerSpecific, defaultOps⟩

namespace GateSequenceSolver

/-- `_state_key` (solver.py lines 150-156): per amplitude, append the
rounded scaled real part then the rounded scaled imaginary part. -/
noncomputable def state_key (s : GateSequenceSolver) (amplitudes : List ℂ) :
    List ℤ :=
  amplitudes.flatMap (fun amplitude =>
    [pyRound (amplitude.re * s.quantisation_scale),
     pyRound (amplitude.im * s.quantisation_scale)])

/-- `_operations_for_depth` (solver.py lines 158-167): fixed pin, else
per-layer allowlist, else default allowlist, else full table. -/
def operations_for_depth (s : GateSequenceSolver) (depth : ℕ) :
    List GateOperation :=
  match s.fixed_operations.lookup (depth : ℤ) with
  | some fixedOperation => [fixedOperation]
  | none =>
      match s.layer_specific_operations.lookup (depth : ℤ) with
      | some constrained => constrained
      | none =>
          match s.default_layer_operations with
          | some defaultOps => defaultOps
          | none => s.operations

/-- `_select_identity_for_layer` (solver.py lines 169-188).  Note the
default-allowlist branch has no early `return None`: when the default
allowlist holds no `I` operation the code falls through to
`_identity_operation` and then to a scan of the full table. -/
def select_identity_for_layer (s : GateSequenceSolver) (depth : ℕ) :
    Option GateOperation :=
  match s.fixed_operations.lookup (depth : ℤ) with
  | some fixedOperation => some fixedOperation
  | none =>
      match s.layer_specific_operations.lookup (depth : ℤ) with
      | some constrained => constrained.find? (fun op => op.gate.name = "I")
      | none =>
          let fromDefault :=
            match s.default_layer_operations with
            | some defaultOps => defaultOps.find? (fun op => op.gate.name = "I")
            | none => none
          match fromDefault with
          | some op => some op
          | none =>
              match s.identity_operation with
              | some op => some op
              | none => s.operations.find? (fun op => op.gate.name = "I")

/-- The padding loop of `_pad_sequence_to_layers` (solver.py lines
196-200), iterating `depth` upward and stopping at the first layer with
no identity-like operation; `remaining` counts the layers still to
fill. -/
def padLoop (s : GateSequenceSolver) : List GateOperation → ℕ → ℕ →
    List GateOperation
  | padded, _, 0 => padded
  | padded, depth, Nat.succ remaining =>
      match s.select_identity_for_layer depth with
      | none => padded
      | some identityOp => padLoop s (padded ++ [identityOp]) (depth + 1) remaining

/-- `_pad_sequence_to_layers` (solver.py lines 190-201). -/
def pad_sequence_to_layers (s : GateSequenceSolver)
    (sequence : List GateOperation) (maxLayers : ℕ) : List GateOperation :=
  if maxLayers ≤ sequence.length then sequence
  else padLoop s sequence sequence.length (maxLayers - sequence.length)

/-- `_fixed_layers_satisfied` (solver.py lines 203-210): every fixed
layer index must be at most `sequence_length - 1` (computed in ℤ, as in
Python). -/
def fixed_layers_satisfied (s : GateSequenceSolver) (sequenceLength : ℕ) :
    Bool :=
  if s.fixed_layers.isEmpty then true
  else
    let lastAppliedIndex : ℤ := (sequenceLength : ℤ) - 1
    s.fixed_layers.all (fun layer => ¬ (lastAppliedIndex < layer))

/-- `_evolve_states` (solver.py lines 212-220): intermediate states of
applying the sequence, one per operation. -/
def evolve_states (current : QuantumState) :
    List GateOperation → Except PyErr (List QuantumState)
  | [] => .ok []
  | operation :: rest => do
      let next ← current.apply operation
      let states ← evolve_states next rest
      .ok (next :: states)

/-- The best-approximation-so-far triple tracked by `solve`
(solver.py lines 254-256). -/
structure BestSoFar where
  distance : ℝ
  sequence : List GateOperation
  state : QuantumState

/-- A frontier entry: `(state_vector, sequence)` (solver.py line 252). -/
abbrev FrontierEntry := List ℂ × List GateOperation

/-- The failure return (solver.py lines 295-305): re-evolve the best
sequence and report `success=False`. -/
noncomputable def finishFailure (start : QuantumState) (best : BestSoFar) :
    Except PyErr SolverResult := do
  let states ← evolve_states start best.sequence
  let finalState := states.getLastD best.state
  .ok ⟨false, best.sequence, best.sequence.length, finalState, best.distance, states⟩

/-- Python `max` over a non-empty list (used on `_fixed_layers` and the
allowlist keys, solver.py lines 232 and 236). -/
def listMax (l : List ℤ) : ℤ := l.foldl max (l.headD 0)

/-- The `for operation in self._operations_for_depth(depth)` body
(solver.py lines 264-293).  Returns either the early success result or
the updated visited map, best-so-far and frontier. -/
noncomputable def processOps (s : GateSequenceSolver) (target start : QuantumState)
    (maxLayers : ℕ) (stateVector : List ℂ) (sequence : List GateOperation)
    (visited : ℕ → List (List ℤ)) (best : BestSoFar)
    (frontier : List FrontierEntry) :
    List GateOperation →
    Except PyErr (SolverResult ⊕ ((ℕ → List (List ℤ)) × BestSoFar × List FrontierEntry))
  | [] => .ok (.inr (visited, best, frontier))
  | operation :: restOps => do
      let newVector ← operation.apply stateVector s.num_qubits
      let newState ← QuantumState.from_amplitudes newVector true
      let newDistance ← newState.distance target
      let newSequence := sequence ++ [operation]
      let best' :=
        if newDistance < best.distance - s.tolerance * 0.1 then
          BestSoFar.mk newDistance newSequence newState
        else best
      if newDistance ≤ s.tolerance ∧ s.fixed_layers_satisfied newSequence.length then
        let finalSequence := s.pad_sequence_to_layers newSequence maxLayers
        let states ← evolve_states start finalSequence
        let finalState := states.getLastD start.copy
        let finalDistance ← finalState.distance target
        .ok (.inl ⟨true, finalSequence, newSequence.length, finalState, finalDistance, states⟩)
      else
        let key := s.state_key newState.amplitudes
        let nextDepth := newSequence.length
        if key ∈ visited nextDepth then
          processOps s target start maxLayers stateVector sequence visited best'
            frontier restOps
        else
          processOps s target start maxLayers stateVector sequence
            (fun d => if d = nextDepth then key :: visited d else visited d) best'
            (frontier ++ [(newState.amplitudes, newSequence)]) restOps

/-- The `while frontier:` loop (solver.py lines 258-305), with an
explicit fuel bound on the number of dequeue steps.  Running out of
fuel returns the same failure result as frontier exhaustion; every
theorem below quantifies over the fuel, covering each terminating
execution of the source loop. -/
noncomputable def solveLoop (s : GateSequenceSolver) (target start : QuantumState)
    (maxLayers : ℕ) : List FrontierEntry → (ℕ → List (List ℤ)) → BestSoFar →
    ℕ → Except PyErr SolverResult
  | [], _, best, _ => finishFailure start best
  | _ :: _, _, best, 0 => finishFailure start best
  | (stateVector, sequence) :: rest, visited, best, Nat.succ fuel => do
      let depth := sequence.length
      if maxLayers ≤ depth then
        solveLoop s target start maxLayers rest visited best fuel
      else
        match ← processOps s target start maxLayers stateVector sequence visited
            best rest (s.operations_for_depth depth) with
        | .inl result => .ok result
        | .inr (visited', best', frontier') =>
            solveLoop s target start maxLayers frontier' visited' best' fuel

/-- `GateSequenceSolver.solve` (solver.py lines 222-305). -/
noncomputable def solve (s : GateSequenceSolver) (start target : QuantumState)
    (maxLayers : ℕ) (fuel : ℕ) : Except PyErr SolverResult :=
  if start.num_qubits ≠ s.num_qubits ∨ target.num_qubits ≠ s.num_qubits then
    .error .qubitMismatch
  else if ¬ s.fixed_layers.isEmpty ∧ (maxLayers : ℤ) ≤ listMax s.fixed_layers then
    .error .outOfRangeLayer
  else if ¬ s.layer_specific_operations.isEmpty ∧
      (maxLayers : ℤ) ≤ listMax (s.layer_specific_operations.map Prod.fst) then
    .error .outOfRangeLayer
  else do
    let initialDistance ← start.distance target
    if initialDistance ≤ s.tolerance ∧ s.fixed_layers.isEmpty then
      .ok ⟨true, [], 0, start.copy, initialDistance, []⟩
    else
      solveLoop s target start maxLayers [(start.amplitudes, [])]
        (fun d => if d = 0 then [s.state_key start.amplitudes] else [])
        ⟨initialDistance, [], start.copy⟩ fuel

end GateSequenceSolver

/-! ## Kernel theory: bit-level semantics of `apply_gate_matrix` -/

/-- The bits contributed by `pattern` alone in the index construction of
gates.py lines 116-122 (so that `spreadIdx base rts p = base ||| spreadBits rts p`). -/
def spreadBits : List ℕ → ℕ → ℕ
  | [], _ => 0
  | q :: rest, p => (if p.testBit 0 then 1 <<< q else 0) ||| spreadBits rest (p >>> 1)

/-- The pattern encoded at positions `rts` of an index `i`: bit `o` of
the result is bit `rts[o]` of `i`. -/
def patAux : List ℕ → ℕ → ℕ
  | [], _ => 0
  | q :: rest, i => Nat.bit (i.testBit q) (patAux rest i)

/-- The bits of `i` lying outside the target mask. -/
def clearOf (targets : List ℕ) (i : ℕ) : ℕ :=
  i ^^^ (i &&& maskOf targets)

theorem spreadIdx_eq (rts : List ℕ) (base p : ℕ) :
    spreadIdx base rts p = base ||| spreadBits rts p := by
  induction rts generalizing base p with
  | nil => simp [spreadIdx, spreadBits]
  | cons q rest ih =>
      simp only [spreadIdx, spreadBits, ih]
      apply Nat.eq_of_testBit_eq
      intro j
      by_cases h : p.testBit 0 <;>
        simp [h, Nat.testBit_or, Bool.or_assoc]

theorem testBit_one_shiftLeft (q j : ℕ) :
    (1 <<< q : ℕ).testBit j = decide (q = j) := by
  rw [Nat.shiftLeft_eq, one_mul]; exact Nat.testBit_two_pow

theorem testBit_maskOf_aux (targets : List ℕ) (m0 j : ℕ) :
    (targets.foldl (fun m q => m ||| (1 <<< q)) m0).testBit j =
      (m0.testBit j || decide (j ∈ targets)) := by
  induction targets generalizing m0 with
  | nil => simp
  | cons q rest ih =>
      simp only [List.foldl_cons, ih, Nat.testBit_or, List.mem_cons,
        testBit_one_shiftLeft]
      by_cases h : j = q <;> simp [h, eq_comm, Bool.or_comm, Bool.or_assoc]

theorem testBit_maskOf (targets : List ℕ) (j : ℕ) :
    (maskOf targets).testBit j = decide (j ∈ targets) := by
  have := testBit_maskOf_aux targets 0 j
  simpa [maskOf] using this

theorem testBit_spreadBits (rts : List ℕ) (p j : ℕ) :
    (spreadBits rts p).testBit j = true ↔
      ∃ o, rts[o]? = some j ∧ p.testBit o = true := by
  induction rts generalizing p with
  | nil => simp [spreadBits]
  | cons q rest ih =>
      simp only [spreadBits, Nat.testBit_or, Bool.or_eq_true]
      constructor
      · rintro (h | h)
        · by_cases hp : p.testBit 0
          · rw [if_pos hp, testBit_one_shiftLeft, decide_eq_true_eq] at h
            exact ⟨0, by simp [h], hp⟩
          · rw [if_neg hp] at h
            simp at h
        · obtain ⟨o, ho, hbit⟩ := (ih _).mp h
          refine ⟨o + 1, by simpa using ho, ?_⟩
          simpa [Nat.testBit_shiftRight, Nat.add_comm] using hbit
      · rintro ⟨o, ho, hbit⟩
        match o with
        | 0 =>
            left
            simp only [List.getElem?_cons_zero, Option.some_inj] at ho
            rw [hbit, if_pos rfl, testBit_one_shiftLeft]
            simp [ho]
        | o + 1 =>
            right
            refine (ih _).mpr ⟨o, by simpa using ho, ?_⟩
            simpa [Nat.testBit_shiftRight, Nat.add_comm] using hbit

theorem patAux_testBit (rts : List ℕ) (i o : ℕ) :
    (patAux rts i).testBit o =
      match rts[o]? with
      | some q => i.testBit q
      | none => false := by
  induction rts generalizing o with
  | nil => simp [patAux]
  | cons q rest ih =>
      match o with
      | 0 => simp [patAux, Nat.testBit_bit_zero]
      | o + 1 => simp [patAux, Nat.testBit_bit_succ, ih]

theorem patAux_lt (rts : List ℕ) (i : ℕ) :
    patAux rts i < 2 ^ rts.length := by
  apply Nat.lt_pow_two_of_testBit
  intro o ho
  rw [patAux_testBit]
  have : rts[o]? = none := by
    rw [List.getElem?_eq_none_iff]; exact ho
  simp [this]

theorem testBit_spreadBits_false_of_not_mem (rts : List ℕ) (p j : ℕ)
    (h : j ∉ rts) : (spreadBits rts p).testBit j = false := by
  by_contra hb
  rw [Bool.not_eq_false] at hb
  obtain ⟨o, ho, _⟩ := (testBit_spreadBits rts p j).mp hb
  exact h (List.getElem?_mem ho)

theorem or_spreadBits_lt (rts : List ℕ) (b p n : ℕ) (hb : b < 2 ^ n)
    (hall : ∀ q ∈ rts, q < n) : b ||| spreadBits rts p < 2 ^ n := by
  apply Nat.lt_pow_two_of_testBit
  intro j hj
  rw [Nat.testBit_or]
  have h1 : b.testBit j = false := Nat.testBit_lt_two_pow (by
    calc b < 2 ^ n := hb
    _ ≤ 2 ^ j := Nat.pow_le_pow_right (by norm_num) hj)
  have h2 : (spreadBits rts p).testBit j = false := by
    apply testBit_spreadBits_false_of_not_mem
    intro hmem
    exact absurd (hall j hmem) (by omega)
  simp [h1, h2]

theorem testBit_clearOf (targets : List ℕ) (i j : ℕ) :
    (clearOf targets i).testBit j =
      (i.testBit j && !((maskOf targets).testBit j)) := by
  simp only [clearOf, Nat.testBit_xor, Nat.testBit_and]
  cases i.testBit j <;> cases (maskOf targets).testBit j <;> rfl

theorem clearOf_and_mask (targets : List ℕ) (i : ℕ) :
    clearOf targets i &&& maskOf targets = 0 := by
  apply Nat.eq_of_testBit_eq
  intro j
  rw [Nat.testBit_and, testBit_clearOf, Nat.zero_testBit]
  cases i.testBit j <;> cases (maskOf targets).testBit j <;> rfl

theorem clearOf_lt (targets : List ℕ) (i n : ℕ) (hi : i < 2 ^ n) :
    clearOf targets i < 2 ^ n := by
  apply Nat.lt_pow_two_of_testBit
  intro j hj
  rw [testBit_clearOf]
  have : i.testBit j = false := Nat.testBit_lt_two_pow (by
    calc i < 2 ^ n := hi
    _ ≤ 2 ^ j := Nat.pow_le_pow_right (by norm_num) hj)
  simp [this]

/-- Bits of `b` disjoint from the mask, stated per target. -/
theorem testBit_false_of_and_mask_eq_zero (targets : List ℕ) (b : ℕ)
    (hb : b &&& maskOf targets = 0) (q : ℕ) (hq : q ∈ targets) :
    b.testBit q = false := by
  have := congrArg (fun x => Nat.testBit x q) hb
  simp only [Nat.testBit_and, Nat.zero_testBit, testBit_maskOf] at this
  simpa [hq] using this

/-- Round trip A: the pattern of a composite index recovers the
pattern (distinct targets). -/
theorem patAux_or_spreadBits (rts : List ℕ) (hnd : rts.Nodup) (b p : ℕ)
    (hb : ∀ q ∈ rts, b.testBit q = false) (hp : p < 2 ^ rts.length) :
    patAux rts (b ||| spreadBits rts p) = p := by
  apply Nat.eq_of_testBit_eq
  intro o
  rw [patAux_testBit]
  match ho : rts[o]? with
  | some q =>
      have hoLt : o < rts.length := by
        by_contra h
        rw [List.getElem?_eq_none_iff.mpr (by omega)] at ho
        exact Option.noConfusion ho
      have hqmem : q ∈ rts := List.getElem?_mem ho
      simp only [Nat.testBit_or, hb q hqmem, Bool.false_or]
      rcases hbit : p.testBit o with _ | _
      · -- bit o of p is false: no position o' with p-bit set can map to q
        by_contra hcon
        rw [Bool.not_eq_false] at hcon
        obtain ⟨o', ho', hbit'⟩ := (testBit_spreadBits rts p q).mp hcon
        have : o' = o := by
          have h1 : rts[o']? = some q := ho'
          rw [List.getElem?_eq_some_iff] at h1 ho
          obtain ⟨hlt', he'⟩ := h1
          obtain ⟨hlt, he⟩ := ho
          exact List.Nodup.getElem_inj_iff hnd |>.mp (he'.trans he.symm)
        rw [this] at hbit'
        rw [hbit] at hbit'
        exact Bool.noConfusion hbit'
      · exact (testBit_spreadBits rts p q).mpr ⟨o, ho, hbit⟩
  | none =>
      have hoGe : rts.length ≤ o := by
        by_contra h
        rw [List.getElem?_eq_none_iff] at ho
        omega
      have : p.testBit o = false := Nat.testBit_lt_two_pow (by
        calc p < 2 ^ rts.length := hp
        _ ≤ 2 ^ o := Nat.pow_le_pow_right (by norm_num) hoGe)
      simp [this]

/-- Round trip B: clearing a composite index recovers the base. -/
theorem clearOf_or_spreadBits (targets : List ℕ) (b p : ℕ)
    (hb : b &&& maskOf targets = 0) :
    clearOf targets (b ||| spreadBits targets.reverse p) = b := by
  apply Nat.eq_of_testBit_eq
  intro j
  rw [testBit_clearOf, Nat.testBit_or]
  by_cases hm : (maskOf targets).testBit j
  · have hbj : b.testBit j = false := by
      have := congrArg (fun x => Nat.testBit x j) hb
      simp only [Nat.testBit_and, Nat.zero_testBit] at this
      simpa [hm] using this
    simp [hm, hbj]
  · have hs : (spreadBits targets.reverse p).testBit j = false := by
      apply testBit_spreadBits_false_of_not_mem
      intro hmem
      rw [List.mem_reverse] at hmem
      rw [testBit_maskOf] at hm
      simp [hmem] at hm
    simp [hm, hs]

/-- Round trip C: every index decomposes as its clear part OR the
spread of its pattern. -/
theorem clearOf_or_spreadBits_patAux (targets : List ℕ) (i : ℕ) :
    clearOf targets i |||
      spreadBits targets.reverse (patAux targets.reverse i) = i := by
  apply Nat.eq_of_testBit_eq
  intro j
  rw [Nat.testBit_or, testBit_clearOf]
  by_cases hm : (maskOf targets).testBit j
  · rw [testBit_maskOf, decide_eq_true_eq] at hm
    have hmem : j ∈ targets.reverse := List.mem_reverse.mpr hm
    obtain ⟨o, hoLt, ho⟩ := List.getElem_of_mem hmem
    have hspread : (spreadBits targets.reverse (patAux targets.reverse i)).testBit j =
        i.testBit j := by
      rcases hbit : i.testBit j with _ | _
      · by_contra hcon
        rw [Bool.not_eq_false] at hcon
        obtain ⟨o', ho', hbit'⟩ :=
          (testBit_spreadBits targets.reverse (patAux targets.reverse i) j).mp hcon
        rw [patAux_testBit, ho'] at hbit'
        simp only [] at hbit'
        rw [hbit] at hbit'
        exact Bool.noConfusion hbit'
      · apply (testBit_spreadBits _ _ _).mpr
        refine ⟨o, by rw [List.getElem?_eq_some_iff]; exact ⟨hoLt, ho⟩, ?_⟩
        rw [patAux_testBit, List.getElem?_eq_some_iff.mpr ⟨hoLt, ho⟩]
        exact hbit
    rw [hspread]
    cases i.testBit j <;> simp
  · have hs : (spreadBits targets.reverse (patAux targets.reverse i)).testBit j = false := by
      apply testBit_spreadBits_false_of_not_mem
      intro hmem
      rw [List.mem_reverse] at hmem
      rw [testBit_maskOf] at hm
      simp [hmem] at hm
    simp [hm, hs]

/-! ### The scatter fold -/

theorem foldl_set_length (pairs : List (ℕ × ℂ)) (r : List ℂ) :
    (pairs.foldl (fun r p => r.set p.1 p.2) r).length = r.length := by
  induction pairs generalizing r with
  | nil => rfl
  | cons p rest ih => simp [List.foldl_cons, ih]

theorem foldl_set_getD_of_not_mem (pairs : List (ℕ × ℂ)) (r : List ℂ) (i : ℕ)
    (h : ∀ p ∈ pairs, p.1 ≠ i) :
    (pairs.foldl (fun r p => r.set p.1 p.2) r).getD i 0 = r.getD i 0 := by
  induction pairs generalizing r with
  | nil => rfl
  | cons p rest ih =>
      rw [List.foldl_cons, ih _ (fun q hq => h q (List.mem_cons_of_mem _ hq))]
      have hne : p.1 ≠ i := h p (List.mem_cons_self _ _)
      simp [List.getD_eq_getElem?_getD, List.getElem?_set_ne hne]

theorem foldl_set_getD_of_mem (pairs : List (ℕ × ℂ)) (r : List ℂ) (i : ℕ) (v : ℂ)
    (hnd : (pairs.map Prod.fst).Nodup) (hmem : (i, v) ∈ pairs)
    (hlen : i < r.length) :
    (pairs.foldl (fun r p => r.set p.1 p.2) r).getD i 0 = v := by
  induction pairs generalizing r with
  | nil => exact absurd hmem (List.not_mem_nil _)
  | cons p rest ih =>
      rw [List.map_cons, List.nodup_cons] at hnd
      rcases List.mem_cons.mp hmem with heq | hmem'
      · subst heq
        rw [List.foldl_cons]
        rw [foldl_set_getD_of_not_mem]
        · simp [List.getD_eq_getElem?_getD, List.getElem?_set_self, hlen]
        · intro q hq hq1
          exact hnd.1 (List.mem_map.mpr ⟨q, hq, hq1⟩)
      · rw [List.foldl_cons]
        exact ih _ hnd.2 hmem' (by simpa using hlen)

/-! ### Sum forms for the inner products -/

theorem dotRow_foldl_add (l : List (ℂ × ℂ)) (a : ℂ) :
    l.foldl (fun t p => t + p.1 * p.2) a = a + (l.map (fun p => p.1 * p.2)).sum := by
  induction l generalizing a with
  | nil => simp
  | cons p rest ih => rw [List.foldl_cons, ih]; simp [List.map_cons]; ring

theorem dotRow_eq_sum (row v : List ℂ) (h : row.length = v.length) :
    dotRow row v = ∑ j ∈ Finset.range row.length, row.getD j 0 * v.getD j 0 := by
  rw [dotRow, dotRow_foldl_add, zero_add]
  induction row generalizing v with
  | nil => simp
  | cons c rest ih =>
      match v with
      | [] => simp at h
      | a :: vrest =>
          simp only [List.zip_cons_cons, List.map_cons, List.sum_cons,
            List.length_cons]
          rw [Finset.sum_range_succ']
          simp only [List.getD_cons_succ, List.getD_cons_zero]
          rw [ih vrest (by simpa using h)]
          ring

/-- The per-index value written by the kernel (characterisation of the
output of `apply_gate_matrix`): at index `i`, the row selected by the
pattern of `i` is dotted with the gathered sub-vector of `i`'s block. -/
noncomputable def kernelEntry (state : List ℂ) (M : List (List ℂ))
    (targets : List ℕ) (i : ℕ) : ℂ :=
  ∑ p ∈ Finset.range (2 ^ targets.length),
    (M.getD (patAux targets.reverse i) []).getD p 0 *
      state.getD (clearOf targets i ||| spreadBits targets.reverse p) 0

theorem getD_map_range (m j : ℕ) (f : ℕ → ℂ) (h : j < m) :
    ((List.range m).map f).getD j 0 = f j := by
  simp [List.getD_eq_getElem?_getD, List.getElem?_map, List.getElem?_range h]

theorem kernelWrite_length (state : List ℂ) (M : List (List ℂ))
    (targets : List ℕ) (r : List ℂ) (b : ℕ) :
    (kernelWrite state M targets r b).length = r.length := by
  unfold kernelWrite
  split
  · rfl
  · exact foldl_set_length _ _

theorem kernelWrite_getD (state : List ℂ) (M : List (List ℂ)) (targets : List ℕ)
    (n : ℕ) (hnd : targets.Nodup)
    (hM : M.length = 2 ^ targets.length)
    (hrows : ∀ row ∈ M, row.length = 2 ^ targets.length)
    (r : List ℂ) (hr : r.length = 2 ^ n) (b i : ℕ) (hi : i < 2 ^ n) :
    (kernelWrite state M targets r b).getD i 0 =
      if b &&& maskOf targets = 0 ∧ clearOf targets i = b
      then kernelEntry state M targets i else r.getD i 0 := by
  have hrtsnd : targets.reverse.Nodup := List.nodup_reverse.mpr hnd
  have hlenrts : targets.reverse.length = targets.length := List.length_reverse _
  unfold kernelWrite
  by_cases hb : b &&& maskOf targets = 0
  · rw [if_neg (by simpa using hb)]
    have hbbit : ∀ q ∈ targets.reverse, b.testBit q = false := by
      intro q hq
      exact testBit_false_of_and_mask_eq_zero targets b hb q (List.mem_reverse.mp hq)
    -- normalise the index list
    have hidx : (List.range (2 ^ targets.length)).map (spreadIdx b targets.reverse) =
        (List.range (2 ^ targets.length)).map
          (fun p => b ||| spreadBits targets.reverse p) := by
      apply List.map_congr_left
      intro p _
      exact spreadIdx_eq targets.reverse b p
    rw [hidx]
    set indices := (List.range (2 ^ targets.length)).map
      (fun p => b ||| spreadBits targets.reverse p) with hindices
    set vector := indices.map (fun idx => state.getD idx 0) with hvector
    set transformed := matVec M vector with htransformed
    have hlenIdx : indices.length = 2 ^ targets.length := by
      rw [hindices]; simp
    have hlenTr : transformed.length = 2 ^ targets.length := by
      rw [htransformed, matVec, List.length_map, hM]
    have hInj : ∀ p p', p < 2 ^ targets.length → p' < 2 ^ targets.length →
        b ||| spreadBits targets.reverse p = b ||| spreadBits targets.reverse p' →
        p = p' := by
      intro p p' hp hp' he
      have e1 := patAux_or_spreadBits targets.reverse hrtsnd b p hbbit (by rwa [hlenrts])
      have e2 := patAux_or_spreadBits targets.reverse hrtsnd b p' hbbit (by rwa [hlenrts])
      rw [← e1, ← e2, he]
    have hndIdx : indices.Nodup := by
      rw [hindices]
      apply List.Nodup.map_on
      · intro p hp p' hp' he
        exact hInj p p' (List.mem_range.mp hp) (List.mem_range.mp hp') he
      · exact List.nodup_range _
    have hfst : (indices.zip transformed).map Prod.fst = indices :=
      List.map_fst_zip _ _ (by omega)
    by_cases hc : clearOf targets i = b
    · rw [if_pos ⟨hb, hc⟩]
      have hpatlt : patAux targets.reverse i < 2 ^ targets.length := by
        have := patAux_lt targets.reverse i
        rwa [hlenrts] at this
      have hb1 : patAux targets.reverse i < indices.length := by omega
      have hb2 : patAux targets.reverse i < transformed.length := by omega
      have hb3 : patAux targets.reverse i < (indices.zip transformed).length := by
        rw [List.length_zip]; omega
      have hcomp : b ||| spreadBits targets.reverse (patAux targets.reverse i) = i := by
        rw [← hc]
        exact clearOf_or_spreadBits_patAux targets i
      have hzipget : (indices.zip transformed)[patAux targets.reverse i] =
          (indices[patAux targets.reverse i], transformed[patAux targets.reverse i]) :=
        List.getElem_zip
      have hidxget : indices[patAux targets.reverse i] = i := by
        simp only [hindices, List.getElem_map, List.getElem_range]
        exact hcomp
      have hpairMem : (i, transformed[patAux targets.reverse i]) ∈
          indices.zip transformed := by
        have hmem := List.getElem_mem hb3
        rw [hzipget, hidxget] at hmem
        exact hmem
      rw [foldl_set_getD_of_mem _ _ _ _ (by rw [hfst]; exact hndIdx) hpairMem (by omega)]
      -- compute the written value
      have hTrGet : transformed[patAux targets.reverse i] =
          dotRow (M.getD (patAux targets.reverse i) []) vector := by
        simp only [htransformed, matVec, List.getElem_map]
        congr 1
        rw [List.getD_eq_getElem?_getD, List.getElem?_eq_getElem (by omega : patAux targets.reverse i < M.length)]
        rfl
      rw [hTrGet]
      have hrowmem : M.getD (patAux targets.reverse i) [] ∈ M := by
        rw [List.getD_eq_getElem?_getD,
          List.getElem?_eq_getElem (by omega : patAux targets.reverse i < M.length)]
        exact List.getElem_mem _
      have hrowlen : (M.getD (patAux targets.reverse i) []).length =
          2 ^ targets.length := hrows _ hrowmem
      have hveceq : vector = (List.range (2 ^ targets.length)).map
          (fun p => state.getD (b ||| spreadBits targets.reverse p) 0) := by
        rw [hvector, hindices, List.map_map]
        rfl
      have hveclen : vector.length = 2 ^ targets.length := by
        rw [hveceq]; simp
      rw [dotRow_eq_sum _ _ (by rw [hrowlen, hveclen]), hrowlen, kernelEntry]
      apply Finset.sum_congr rfl
      intro p hp
      rw [Finset.mem_range] at hp
      rw [hveceq, getD_map_range _ _ _ hp, hc]
    · rw [if_neg (by simp [hc])]
      apply foldl_set_getD_of_not_mem
      intro p hp
      have hpfst : p.1 ∈ indices := by
        rw [← hfst]
        exact List.mem_map_of_mem Prod.fst hp
      rw [hindices] at hpfst
      obtain ⟨q, hq, hqe⟩ := List.mem_map.mp hpfst
      intro hpi
      apply hc
      rw [← hpi, ← hqe]
      exact clearOf_or_spreadBits targets b q hb
  · rw [if_pos (by simpa using hb)]
    rw [if_neg (by simp [hb])]
theorem kernelFold_invariant (state : List ℂ) (M : List (List ℂ))
    (targets : List ℕ) (n : ℕ) (hnd : targets.Nodup)
    (hM : M.length = 2 ^ targets.length)
    (hrows : ∀ row ∈ M, row.length = 2 ^ targets.length) :
    ∀ (bases : List ℕ) (B : List ℕ) (r : List ℂ),
      r.length = 2 ^ n →
      (∀ i < 2 ^ n, r.getD i 0 =
        if clearOf targets i ∈ B then kernelEntry state M targets i else 0) →
      (bases.foldl (kernelWrite state M targets) r).length = 2 ^ n ∧
      ∀ i < 2 ^ n, (bases.foldl (kernelWrite state M targets) r).getD i 0 =
        if clearOf targets i ∈ B ++ bases then kernelEntry state M targets i
        else 0 := by
  intro bases
  induction bases with
  | nil =>
      intro B r hr hP
      refine ⟨hr, ?_⟩
      simpa using hP
  | cons b rest ih =>
      intro B r hr hP
      rw [List.foldl_cons]
      have hstep_len : (kernelWrite state M targets r b).length = 2 ^ n := by
        rw [kernelWrite_length, hr]
      have hstep : ∀ i < 2 ^ n, (kernelWrite state M targets r b).getD i 0 =
          if clearOf targets i ∈ B ++ [b] then kernelEntry state M targets i
          else 0 := by
        intro i hi
        rw [kernelWrite_getD state M targets n hnd hM hrows r hr b i hi]
        by_cases hcb : clearOf targets i = b
        · have hbm : b &&& maskOf targets = 0 := by
            rw [← hcb]; exact clearOf_and_mask targets i
          rw [if_pos ⟨hbm, hcb⟩, if_pos (by simp [hcb])]
        · rw [if_neg (by tauto), hP i hi]
          have : (clearOf targets i ∈ B ++ [b]) ↔ (clearOf targets i ∈ B) := by
            simp [hcb]
          by_cases hmem : clearOf targets i ∈ B
          · rw [if_pos hmem, if_pos (this.mpr hmem)]
          · rw [if_neg hmem, if_neg (fun hx => hmem (this.mp hx))]
      have := ih (B ++ [b]) (kernelWrite state M targets r b) hstep_len hstep
      refine ⟨this.1, ?_⟩
      intro i hi
      rw [this.2 i hi]
      simp only [List.append_assoc, List.cons_append, List.nil_append]

/-- Full characterisation of `apply_gate_matrix` for a well-shaped
matrix and distinct, in-range targets: the output is the dimension-2^n
vector whose entry at `i` is `kernelEntry`. -/
theorem applyGateMatrix_char (state : List ℂ) (M : List (List ℂ))
    (targets : List ℕ) (n : ℕ) (hnd : targets.Nodup)
    (hlt : ∀ q ∈ targets, q < n)
    (hM : M.length = 2 ^ targets.length)
    (hrows : ∀ row ∈ M, row.length = 2 ^ targets.length) :
    applyGateMatrix state M targets n =
      .ok ((List.range (2 ^ n)).map (kernelEntry state M targets)) := by
  unfold applyGateMatrix
  rw [if_neg]
  · congr 1
    have hrep : ∀ i < 2 ^ n, (List.replicate (2 ^ n) (0 : ℂ)).getD i 0 =
        if clearOf targets i ∈ ([] : List ℕ) then kernelEntry state M targets i
        else 0 := by
      intro i hi
      rw [List.getD_eq_getElem?_getD]
      rcases h : (List.replicate (2 ^ n) (0:ℂ))[i]? with _ | x
      · simp
      · have hx := List.getElem?_mem h
        rw [List.eq_of_mem_replicate hx]
        simp
    obtain ⟨hlen, hval⟩ := kernelFold_invariant state M targets n hnd hM hrows
      (List.range (2 ^ n)) [] (List.replicate (2 ^ n) 0)
      (by simp) hrep
    apply List.ext_getElem
    · rw [hlen]; simp
    · intro i h1 h2
      have hi : i < 2 ^ n := by rwa [hlen] at h1
      have := hval i hi
      rw [if_pos (by simp [List.mem_range]; exact clearOf_lt targets i n hi)] at this
      rw [List.getD_eq_getElem?_getD, List.getElem?_eq_getElem h1] at this
      simp only [Option.getD_some] at this
      rw [this]
      simp
  · simp only [List.any_eq_true, not_exists, not_and, Bool.not_eq_true]
    intro q hq
    simp [Nat.not_le.mpr (hlt q hq)]

/-- `kernelEntry` at a composite index `b ||| spread p`: the pattern is
`p` and the clear part is `b`. -/
theorem kernelEntry_composite (state : List ℂ) (M : List (List ℂ))
    (targets : List ℕ) (hnd : targets.Nodup) (b p : ℕ)
    (hb : b &&& maskOf targets = 0) (hp : p < 2 ^ targets.length) :
    kernelEntry state M targets (b ||| spreadBits targets.reverse p) =
      ∑ q ∈ Finset.range (2 ^ targets.length),
        (M.getD p []).getD q 0 *
          state.getD (b ||| spreadBits targets.reverse q) 0 := by
  have hrtsnd : targets.reverse.Nodup := List.nodup_reverse.mpr hnd
  have hlenrts : targets.reverse.length = targets.length := List.length_reverse _
  have hbbit : ∀ q ∈ targets.reverse, b.testBit q = false := fun q hq =>
    testBit_false_of_and_mask_eq_zero targets b hb q (List.mem_reverse.mp hq)
  have hpat : patAux targets.reverse (b ||| spreadBits targets.reverse p) = p :=
    patAux_or_spreadBits targets.reverse hrtsnd b p hbbit (by rwa [hlenrts])
  have hclear : clearOf targets (b ||| spreadBits targets.reverse p) = b :=
    clearOf_or_spreadBits targets b p hb
  rw [kernelEntry, hpat, hclear]

theorem sum_map_getD_real (l : List ℂ) (f : ℂ → ℝ) :
    (l.map f).sum = ∑ i ∈ Finset.range l.length, f (l.getD i 0) := by
  induction l with
  | nil => simp
  | cons a rest ih =>
      simp only [List.map_cons, List.sum_cons, List.length_cons]
      rw [Finset.sum_range_succ']
      simp only [List.getD_cons_succ, List.getD_cons_zero]
      rw [ih]
      ring

/-- Applying a matrix twice is the identity whenever `M·M = I`
entrywise (stated as sums over the row lists).  This is the engine
behind the self-inverse gate property. -/
theorem applyGateMatrix_twice (state : List ℂ) (M : List (List ℂ))
    (targets : List ℕ) (n : ℕ) (hnd : targets.Nodup)
    (hlt : ∀ q ∈ targets, q < n)
    (hM : M.length = 2 ^ targets.length)
    (hrows : ∀ row ∈ M, row.length = 2 ^ targets.length)
    (hlen : state.length = 2 ^ n)
    (hsq : ∀ a b, a < 2 ^ targets.length → b < 2 ^ targets.length →
      (∑ p ∈ Finset.range (2 ^ targets.length),
        (M.getD a []).getD p 0 * (M.getD p []).getD b 0) =
        if a = b then 1 else 0) :
    (applyGateMatrix state M targets n).bind
      (fun s1 => applyGateMatrix s1 M targets n) = .ok state := by
  have hrtsnd : targets.reverse.Nodup := List.nodup_reverse.mpr hnd
  have hlenrts : targets.reverse.length = targets.length := List.length_reverse _
  have hltr : ∀ q ∈ targets.reverse, q < n := fun q hq =>
    hlt q (List.mem_reverse.mp hq)
  rw [applyGateMatrix_char state M targets n hnd hlt hM hrows]
  rw [Except.bind]
  rw [applyGateMatrix_char _ M targets n hnd hlt hM hrows]
  congr 1
  set out := (List.range (2 ^ n)).map (kernelEntry state M targets) with hout
  apply List.ext_getElem
  · simp [hlen]
  · intro i h1 h2
    have hi : i < 2 ^ n := by simpa using h1
    simp only [List.getElem_map, List.getElem_range]
    have hpatlt : patAux targets.reverse i < 2 ^ targets.length := by
      have := patAux_lt targets.reverse i
      rwa [hlenrts] at this
    have hclm : clearOf targets i &&& maskOf targets = 0 := clearOf_and_mask targets i
    have hstep : ∀ p, p < 2 ^ targets.length →
        out.getD (clearOf targets i ||| spreadBits targets.reverse p) 0 =
          ∑ q ∈ Finset.range (2 ^ targets.length),
            (M.getD p []).getD q 0 *
              state.getD (clearOf targets i ||| spreadBits targets.reverse q) 0 := by
      intro p hp
      have hidxlt : clearOf targets i ||| spreadBits targets.reverse p < 2 ^ n :=
        or_spreadBits_lt targets.reverse (clearOf targets i) p n
          (clearOf_lt targets i n hi) hltr
      rw [hout, getD_map_range _ _ _ hidxlt]
      exact kernelEntry_composite state M targets hnd _ p hclm hp
    rw [kernelEntry]
    have hsum1 : ∑ p ∈ Finset.range (2 ^ targets.length),
        (M.getD (patAux targets.reverse i) []).getD p 0 *
          out.getD (clearOf targets i ||| spreadBits targets.reverse p) 0 =
        ∑ p ∈ Finset.range (2 ^ targets.length),
          ∑ q ∈ Finset.range (2 ^ targets.length),
            ((M.getD (patAux targets.reverse i) []).getD p 0 *
              (M.getD p []).getD q 0) *
              state.getD (clearOf targets i ||| spreadBits targets.reverse q) 0 := by
      apply Finset.sum_congr rfl
      intro p hp
      rw [Finset.mem_range] at hp
      rw [hstep p hp, Finset.mul_sum]
      apply Finset.sum_congr rfl
      intro q _
      ring
    rw [hsum1, Finset.sum_comm]
    have hsum2 : ∀ q ∈ Finset.range (2 ^ targets.length),
        ∑ p ∈ Finset.range (2 ^ targets.length),
          ((M.getD (patAux targets.reverse i) []).getD p 0 *
            (M.getD p []).getD q 0) *
            state.getD (clearOf targets i ||| spreadBits targets.reverse q) 0 =
        (if patAux targets.reverse i = q then (1 : ℂ) else 0) *
          state.getD (clearOf targets i ||| spreadBits targets.reverse q) 0 := by
      intro q hq
      rw [Finset.mem_range] at hq
      rw [← Finset.sum_mul]
      rw [hsq (patAux targets.reverse i) q hpatlt hq]
    rw [Finset.sum_congr rfl hsum2]
    have hcollapse : ∑ q ∈ Finset.range (2 ^ targets.length),
        (if patAux targets.reverse i = q then (1 : ℂ) else 0) *
          state.getD (clearOf targets i ||| spreadBits targets.reverse q) 0 =
        state.getD (clearOf targets i |||
          spreadBits targets.reverse (patAux targets.reverse i)) 0 := by
      rw [Finset.sum_eq_single (patAux targets.reverse i)]
      · simp
      · intro q _ hne
        rw [if_neg (fun h => hne h.symm), zero_mul]
      · intro habs
        exact absurd (Finset.mem_range.mpr hpatlt) habs
    rw [hcollapse, clearOf_or_spreadBits_patAux targets i]
    rw [List.getD_eq_getElem?_getD, List.getElem?_eq_getElem h2]
    rfl

/-- Applying a matrix whose entries are the identity matrix returns the
state unchanged (this is how identity padding acts on the state). -/
theorem applyGateMatrix_identity (state : List ℂ) (M : List (List ℂ))
    (targets : List ℕ) (n : ℕ) (hnd : targets.Nodup)
    (hlt : ∀ q ∈ targets, q < n)
    (hM : M.length = 2 ^ targets.length)
    (hrows : ∀ row ∈ M, row.length = 2 ^ targets.length)
    (hlen : state.length = 2 ^ n)
    (hid : ∀ a b, a < 2 ^ targets.length → b < 2 ^ targets.length →
      (M.getD a []).getD b 0 = if a = b then (1 : ℂ) else 0) :
    applyGateMatrix state M targets n = .ok state := by
  have hlenrts : targets.reverse.length = targets.length := List.length_reverse _
  rw [applyGateMatrix_char state M targets n hnd hlt hM hrows]
  congr 1
  apply List.ext_getElem
  · simp [hlen]
  · intro i h1 h2
    have hi : i < 2 ^ n := by simpa using h1
    simp only [List.getElem_map, List.getElem_range]
    have hpatlt : patAux targets.reverse i < 2 ^ targets.length := by
      have := patAux_lt targets.reverse i
      rwa [hlenrts] at this
    rw [kernelEntry]
    have hterm : ∀ p ∈ Finset.range (2 ^ targets.length),
        (M.getD (patAux targets.reverse i) []).getD p 0 *
          state.getD (clearOf targets i ||| spreadBits targets.reverse p) 0 =
        (if patAux targets.reverse i = p then (1 : ℂ) else 0) *
          state.getD (clearOf targets i ||| spreadBits targets.reverse p) 0 := by
      intro p hp
      rw [Finset.mem_range] at hp
      rw [hid _ _ hpatlt hp]
    rw [Finset.sum_congr rfl hterm]
    rw [Finset.sum_eq_single (patAux targets.reverse i)]
    · rw [if_pos rfl, one_mul, clearOf_or_spreadBits_patAux targets i]
      rw [List.getD_eq_getElem?_getD, List.getElem?_eq_getElem h2]
      rfl
    · intro q _ hne
      rw [if_neg (fun h => hne h.symm), zero_mul]
    · intro habs
      exact absurd (Finset.mem_range.mpr hpatlt) habs

/-- Block decomposition of sums over all `2^n` indices: sum over clear
parts (base indices) and patterns. -/
theorem sum_range_blocks (targets : List ℕ) (n : ℕ) (hnd : targets.Nodup)
    (hlt : ∀ q ∈ targets, q < n) (F : ℕ → ℝ) :
    ∑ i ∈ Finset.range (2 ^ n), F i =
      ∑ b ∈ (Finset.range (2 ^ n)).filter (fun b => b &&& maskOf targets = 0),
        ∑ p ∈ Finset.range (2 ^ targets.length),
          F (b ||| spreadBits targets.reverse p) := by
  have hrtsnd : targets.reverse.Nodup := List.nodup_reverse.mpr hnd
  have hlenrts : targets.reverse.length = targets.length := List.length_reverse _
  have hltr : ∀ q ∈ targets.reverse, q < n := fun q hq =>
    hlt q (List.mem_reverse.mp hq)
  rw [← Finset.sum_product']
  apply Finset.sum_nbij'
    (fun i => (clearOf targets i, patAux targets.reverse i))
    (fun bp => bp.1 ||| spreadBits targets.reverse bp.2)
  · intro a ha
    rw [Finset.mem_range] at ha
    rw [Finset.mem_product, Finset.mem_filter, Finset.mem_range, Finset.mem_range]
    refine ⟨⟨clearOf_lt targets a n ha, by simp [clearOf_and_mask]⟩, ?_⟩
    have := patAux_lt targets.reverse a
    rwa [hlenrts] at this
  · intro bp hbp
    rw [Finset.mem_product, Finset.mem_filter, Finset.mem_range] at hbp
    rw [Finset.mem_range]
    exact or_spreadBits_lt targets.reverse bp.1 bp.2 n hbp.1.1 hltr
  · intro a _
    exact clearOf_or_spreadBits_patAux targets a
  · intro bp hbp
    rw [Finset.mem_product, Finset.mem_filter, Finset.mem_range,
      Finset.mem_range] at hbp
    have hmask : bp.1 &&& maskOf targets = 0 := by
      have := hbp.1.2
      simpa using this
    have h1 := clearOf_or_spreadBits targets bp.1 bp.2 hmask
    have hbbit : ∀ q ∈ targets.reverse, bp.1.testBit q = false := fun q hq =>
      testBit_false_of_and_mask_eq_zero targets bp.1 hmask q (List.mem_reverse.mp hq)
    have h2 := patAux_or_spreadBits targets.reverse hrtsnd bp.1 bp.2 hbbit
      (by rw [hlenrts]; exact hbp.2)
    exact Prod.ext h1 h2
  · intro a _
    rw [clearOf_or_spreadBits_patAux targets a]

theorem unitary_rows_normSq_mulVec (m : ℕ) (A : Matrix (Fin m) (Fin m) ℂ)
    (hA : A * A.conjTranspose = 1) (v : Fin m → ℂ) :
    ∑ p, Complex.normSq (∑ q, A p q * v q) = ∑ q, Complex.normSq (v q) := by
  have hA' : A.conjTranspose * A = 1 := Matrix.mul_eq_one_comm.mp hA
  have key : ∑ p, ((∑ q, A p q * v q) * (starRingEnd ℂ) (∑ q, A p q * v q)) =
      ∑ q, (v q * (starRingEnd ℂ) (v q)) := by
    have expand : ∀ p : Fin m,
        ((∑ q, A p q * v q) * (starRingEnd ℂ) (∑ q, A p q * v q)) =
        ∑ q, ∑ l, (A p q * v q) * ((starRingEnd ℂ) (A p l) * (starRingEnd ℂ) (v l)) := by
      intro p
      rw [map_sum, Finset.sum_mul_sum]
      apply Finset.sum_congr rfl
      intro q _
      apply Finset.sum_congr rfl
      intro l _
      rw [map_mul]
    rw [Finset.sum_congr rfl (fun p _ => expand p)]
    rw [Finset.sum_comm]
    have inner : ∀ q : Fin m,
        (∑ p, ∑ l, (A p q * v q) * ((starRingEnd ℂ) (A p l) * (starRingEnd ℂ) (v l))) =
        ∑ l, (v q * (starRingEnd ℂ) (v l)) * ((A.conjTranspose * A) l q) := by
      intro q
      rw [Finset.sum_comm]
      apply Finset.sum_congr rfl
      intro l _
      rw [Matrix.mul_apply]
      rw [Finset.mul_sum]
      apply Finset.sum_congr rfl
      intro p _
      rw [Matrix.conjTranspose_apply]
      simp only [starRingEnd_apply]
      ring
    rw [Finset.sum_congr rfl (fun q _ => inner q)]
    apply Finset.sum_congr rfl
    intro q _
    rw [hA']
    rw [Finset.sum_eq_single q]
    · rw [Matrix.one_apply_eq, mul_one]
    · intro l _ hne
      rw [Matrix.one_apply_ne hne, mul_zero]
    · intro h
      exact absurd (Finset.mem_univ q) h
  have cast1 : ∀ z : ℂ, z * (starRingEnd ℂ) z = (Complex.normSq z : ℂ) := by
    intro z
    exact Complex.mul_conj z
  rw [Finset.sum_congr rfl (fun p _ => cast1 _),
      Finset.sum_congr rfl (fun q _ => cast1 _)] at key
  rw [← Complex.ofReal_sum, ← Complex.ofReal_sum] at key
  exact_mod_cast key

/-- Norm-square preservation of the kernel for a matrix with exactly
orthonormal rows (`U·U* = I`, the exact version of `_is_unitary`). -/
theorem normSquaredOf_applyGateMatrix (state : List ℂ) (M : List (List ℂ))
    (targets : List ℕ) (n : ℕ) (hnd : targets.Nodup)
    (hlt : ∀ q ∈ targets, q < n)
    (hM : M.length = 2 ^ targets.length)
    (hrows : ∀ row ∈ M, row.length = 2 ^ targets.length)
    (hlen : state.length = 2 ^ n)
    (hU : ∀ a b, a < 2 ^ targets.length → b < 2 ^ targets.length →
      (∑ c ∈ Finset.range (2 ^ targets.length),
        (M.getD a []).getD c 0 * (starRingEnd ℂ) ((M.getD b []).getD c 0)) =
        if a = b then 1 else 0)
    (out : List ℂ)
    (hout : applyGateMatrix state M targets n = .ok out) :
    normSquaredOf out = normSquaredOf state := by
  rw [applyGateMatrix_char state M targets n hnd hlt hM hrows] at hout
  have hout' : out = (List.range (2 ^ n)).map (kernelEntry state M targets) :=
    (Except.ok.injEq _ _).mp hout.symm
  subst hout'
  -- both sides as Finset sums
  have hlhs : normSquaredOf ((List.range (2 ^ n)).map (kernelEntry state M targets)) =
      ∑ i ∈ Finset.range (2 ^ n),
        Complex.abs (kernelEntry state M targets i) ^ 2 := by
    rw [normSquaredOf, List.map_map]
    rfl
  have hrhs : normSquaredOf state =
      ∑ i ∈ Finset.range (2 ^ n), Complex.abs (state.getD i 0) ^ 2 := by
    rw [normSquaredOf, sum_map_getD_real, hlen]
  rw [hlhs, hrhs]
  rw [sum_range_blocks targets n hnd hlt
    (fun i => Complex.abs (kernelEntry state M targets i) ^ 2)]
  rw [sum_range_blocks targets n hnd hlt
    (fun i => Complex.abs (state.getD i 0) ^ 2)]
  apply Finset.sum_congr rfl
  intro b hb
  rw [Finset.mem_filter, Finset.mem_range] at hb
  have hmask : b &&& maskOf targets = 0 := by simpa using hb.2
  -- rewrite each summand through the composite characterisation
  have hcomp : ∀ p ∈ Finset.range (2 ^ targets.length),
      Complex.abs (kernelEntry state M targets
        (b ||| spreadBits targets.reverse p)) ^ 2 =
      Complex.normSq (∑ q ∈ Finset.range (2 ^ targets.length),
        (M.getD p []).getD q 0 *
          state.getD (b ||| spreadBits targets.reverse q) 0) := by
    intro p hp
    rw [Finset.mem_range] at hp
    rw [kernelEntry_composite state M targets hnd b p hmask hp, Complex.sq_abs]
  rw [Finset.sum_congr rfl hcomp]
  have habs : ∀ q ∈ Finset.range (2 ^ targets.length),
      Complex.abs (state.getD (b ||| spreadBits targets.reverse q) 0) ^ 2 =
      Complex.normSq (state.getD (b ||| spreadBits targets.reverse q) 0) := by
    intro q _
    rw [Complex.sq_abs]
  rw [Finset.sum_congr rfl habs]
  -- switch to Fin-indexed sums and apply the matrix lemma
  have hA : ∀ p : Fin (2 ^ targets.length),
      (∑ q ∈ Finset.range (2 ^ targets.length),
        (M.getD p.val []).getD q 0 *
          state.getD (b ||| spreadBits targets.reverse q) 0) =
      ∑ q : Fin (2 ^ targets.length),
        (Matrix.of fun a c : Fin (2 ^ targets.length) =>
          (M.getD a.val []).getD c.val 0) p q *
          state.getD (b ||| spreadBits targets.reverse q.val) 0 := by
    intro p
    rw [Finset.sum_range]
    rfl
  rw [Finset.sum_range (fun p => Complex.normSq
    (∑ q ∈ Finset.range (2 ^ targets.length),
      (M.getD p []).getD q 0 * state.getD (b ||| spreadBits targets.reverse q) 0))]
  rw [Finset.sum_range (fun q => Complex.normSq
    (state.getD (b ||| spreadBits targets.reverse q) 0))]
  rw [Finset.sum_congr rfl (fun p _ => congrArg Complex.normSq (hA p))]
  apply unitary_rows_normSq_mulVec
  ext a c
  rw [Matrix.mul_apply, Matrix.one_apply]
  have : ∀ x : Fin (2 ^ targets.length),
      (Matrix.of fun a c : Fin (2 ^ targets.length) =>
        (M.getD a.val []).getD c.val 0) a x *
      (Matrix.of fun a c : Fin (2 ^ targets.length) =>
        (M.getD a.val []).getD c.val 0).conjTranspose x c =
      (M.getD a.val []).getD x.val 0 *
        (starRingEnd ℂ) ((M.getD c.val []).getD x.val 0) := by
    intro x
    rw [Matrix.conjTranspose_apply, Matrix.of_apply, Matrix.of_apply,
      starRingEnd_apply]
  rw [Finset.sum_congr rfl (fun x _ => this x)]
  rw [← Finset.sum_range (fun x =>
    (M.getD a.val []).getD x 0 * (starRingEnd ℂ) ((M.getD c.val []).getD x 0))]
  rw [hU a.val c.val a.isLt c.isLt]
  rcases eq_or_ne a c with he | hne
  · rw [if_pos he, if_pos (by rw [he])]
  · rw [if_neg hne, if_neg (fun h => hne (Fin.ext h))]

/-! ### Exact algebra of the concrete gate matrices -/

theorem sqrt_half_mul_self : (SQRT_HALF : ℂ) * (SQRT_HALF : ℂ) = (1/2 : ℂ) := by
  rw [SQRT_HALF]
  have h2 : Real.sqrt 2 * Real.sqrt 2 = 2 := Real.mul_self_sqrt (by norm_num)
  push_cast
  rw [div_mul_div_comm, one_mul]
  rw [show ((Real.sqrt 2 : ℝ) : ℂ) * ((Real.sqrt 2 : ℝ) : ℂ) = ((2:ℝ) : ℂ) by
    rw [← Complex.ofReal_mul, h2]]
  norm_num

theorem xGate_sq : ∀ a b, a < 2 → b < 2 →
    (∑ p ∈ Finset.range 2,
      (X_GATE.matrix.getD a []).getD p 0 * (X_GATE.matrix.getD p []).getD b 0) =
    if a = b then 1 else 0 := by
  intro a b ha hb
  interval_cases a <;> interval_cases b <;>
    simp [X_GATE, Finset.sum_range_succ]

theorem yGate_sq : ∀ a b, a < 2 → b < 2 →
    (∑ p ∈ Finset.range 2,
      (Y_GATE.matrix.getD a []).getD p 0 * (Y_GATE.matrix.getD p []).getD b 0) =
    if a = b then 1 else 0 := by
  intro a b ha hb
  interval_cases a <;> interval_cases b <;>
    simp [Y_GATE, Finset.sum_range_succ, Complex.I_mul_I]

theorem zGate_sq : ∀ a b, a < 2 → b < 2 →
    (∑ p ∈ Finset.range 2,
      (Z_GATE.matrix.getD a []).getD p 0 * (Z_GATE.matrix.getD p []).getD b 0) =
    if a = b then 1 else 0 := by
  intro a b ha hb
  interval_cases a <;> interval_cases b <;>
    simp [Z_GATE, Finset.sum_range_succ]

theorem hGate_sq : ∀ a b, a < 2 → b < 2 →
    (∑ p ∈ Finset.range 2,
      (H_GATE.matrix.getD a []).getD p 0 * (H_GATE.matrix.getD p []).getD b 0) =
    if a = b then 1 else 0 := by
  intro a b ha hb
  interval_cases a <;> interval_cases b <;>
    simp [H_GATE, Finset.sum_range_succ] <;>
    rw [sqrt_half_mul_self] <;> norm_num

theorem cnotGate_sq : ∀ a b, a < 4 → b < 4 →
    (∑ p ∈ Finset.range 4,
      (CNOT_GATE.matrix.getD a []).getD p 0 * (CNOT_GATE.matrix.getD p []).getD b 0) =
    if a = b then 1 else 0 := by
  intro a b ha hb
  interval_cases a <;> interval_cases b <;>
    simp [CNOT_GATE, Finset.sum_range_succ]

theorem idGate_entries : ∀ a b, a < 2 → b < 2 →
    (ID_GATE.matrix.getD a []).getD b 0 = if a = b then (1 : ℂ) else 0 := by
  intro a b ha hb
  interval_cases a <;> interval_cases b <;> simp [ID_GATE]

theorem xGate_unitary : ∀ a b, a < 2 → b < 2 →
    (∑ c ∈ Finset.range 2, (X_GATE.matrix.getD a []).getD c 0 *
      (starRingEnd ℂ) ((X_GATE.matrix.getD b []).getD c 0)) =
    if a = b then 1 else 0 := by
  intro a b ha hb
  interval_cases a <;> interval_cases b <;>
    simp [X_GATE, Finset.sum_range_succ]

theorem yGate_unitary : ∀ a b, a < 2 → b < 2 →
    (∑ c ∈ Finset.range 2, (Y_GATE.matrix.getD a []).getD c 0 *
      (starRingEnd ℂ) ((Y_GATE.matrix.getD b []).getD c 0)) =
    if a = b then 1 else 0 := by
  intro a b ha hb
  interval_cases a <;> interval_cases b <;>
    simp [Y_GATE, Finset.sum_range_succ]

theorem zGate_unitary : ∀ a b, a < 2 → b < 2 →
    (∑ c ∈ Finset.range 2, (Z_GATE.matrix.getD a []).getD c 0 *
      (starRingEnd ℂ) ((Z_GATE.matrix.getD b []).getD c 0)) =
    if a = b then 1 else 0 := by
  intro a b ha hb
  interval_cases a <;> interval_cases b <;>
    simp [Z_GATE, Finset.sum_range_succ]

theorem hGate_unitary : ∀ a b, a < 2 → b < 2 →
    (∑ c ∈ Finset.range 2, (H_GATE.matrix.getD a []).getD c 0 *
      (starRingEnd ℂ) ((H_GATE.matrix.getD b []).getD c 0)) =
    if a = b then 1 else 0 := by
  intro a b ha hb
  interval_cases a <;> interval_cases b <;>
    simp [H_GATE, Finset.sum_range_succ, Complex.conj_ofReal] <;>
    rw [sqrt_half_mul_self] <;> norm_num

theorem sGate_unitary : ∀ a b, a < 2 → b < 2 →
    (∑ c ∈ Finset.range 2, (S_GATE.matrix.getD a []).getD c 0 *
      (starRingEnd ℂ) ((S_GATE.matrix.getD b []).getD c 0)) =
    if a = b then 1 else 0 := by
  intro a b ha hb
  interval_cases a <;> interval_cases b <;>
    simp [S_GATE, Finset.sum_range_succ]

theorem tGate_unitary : ∀ a b, a < 2 → b < 2 →
    (∑ c ∈ Finset.range 2, (T_GATE.matrix.getD a []).getD c 0 *
      (starRingEnd ℂ) ((T_GATE.matrix.getD b []).getD c 0)) =
    if a = b then 1 else 0 := by
  have hT : ∀ z : ℂ, z.re = 0 → Complex.exp z * (starRingEnd ℂ) (Complex.exp z) = 1 := by
    intro z hz
    rw [← Complex.exp_conj, ← Complex.exp_add]
    rw [show z + (starRingEnd ℂ) z = 2 * z.re by
      rw [Complex.ext_iff]; simp [Complex.add_re, Complex.conj_re, Complex.conj_im]; ring]
    rw [hz]
    simp [Complex.exp_zero]
  intro a b ha hb
  interval_cases a <;> interval_cases b
  · simp [T_GATE, Finset.sum_range_succ]
  · simp [T_GATE, Finset.sum_range_succ]
  · simp [T_GATE, Finset.sum_range_succ]
  · simp [T_GATE, Finset.sum_range_succ]
    exact hT _ (by simp)

theorem idGate_unitary : ∀ a b, a < 2 → b < 2 →
    (∑ c ∈ Finset.range 2, (ID_GATE.matrix.getD a []).getD c 0 *
      (starRingEnd ℂ) ((ID_GATE.matrix.getD b []).getD c 0)) =
    if a = b then 1 else 0 := by
  intro a b ha hb
  interval_cases a <;> interval_cases b <;>
    simp [ID_GATE, Finset.sum_range_succ]

theorem cnotGate_unitary : ∀ a b, a < 4 → b < 4 →
    (∑ c ∈ Finset.range 4, (CNOT_GATE.matrix.getD a []).getD c 0 *
      (starRingEnd ℂ) ((CNOT_GATE.matrix.getD b []).getD c 0)) =
    if a = b then 1 else 0 := by
  intro a b ha hb
  interval_cases a <;> interval_cases b <;>
    simp [CNOT_GATE, Finset.sum_range_succ]

/-! ### Claim C7 -/

/-- C7: for each gate g in {X, Y, Z, H, CNOT}, every state vector of
the correct dimension and every valid (in-range, distinct) target
tuple, applying g twice through the state-vector kernel returns the
state within 1e-9 componentwise (in the exact-real model the result is
the input itself, so the bound holds with slack). -/
theorem c7_self_inverse :
    (∀ g ∈ [X_GATE, Y_GATE, Z_GATE, H_GATE], ∀ n t (state : List ℂ),
      t < n → state.length = 2 ^ n →
      ∃ out, (applyGateMatrix state g.matrix [t] n).bind
          (fun s1 => applyGateMatrix s1 g.matrix [t] n) = .ok out ∧
        out.length = state.length ∧
        ∀ i < state.length,
          Complex.abs (out.getD i 0 - state.getD i 0) ≤ 1e-9) ∧
    (∀ n c t (state : List ℂ), c < n → t < n → c ≠ t →
      state.length = 2 ^ n →
      ∃ out, (applyGateMatrix state CNOT_GATE.matrix [c, t] n).bind
          (fun s1 => applyGateMatrix s1 CNOT_GATE.matrix [c, t] n) = .ok out ∧
        out.length = state.length ∧
        ∀ i < state.length,
          Complex.abs (out.getD i 0 - state.getD i 0) ≤ 1e-9) := by
  constructor
  · intro g hg n t state ht hlen
    refine ⟨state, ?_, rfl, ?_⟩
    · have hnd : ([t] : List ℕ).Nodup := by simp
      have hlt : ∀ q ∈ ([t] : List ℕ), q < n := by simpa using ht
      simp only [List.mem_cons, List.not_mem_nil, or_false] at hg
      rcases hg with hg | hg | hg | hg
      · subst hg
        exact applyGateMatrix_twice state X_GATE.matrix [t] n hnd hlt
          (by simp [X_GATE]) (by intro row hr; fin_cases hr <;> simp [X_GATE])
          hlen (by simpa using xGate_sq)
      · subst hg
        exact applyGateMatrix_twice state Y_GATE.matrix [t] n hnd hlt
          (by simp [Y_GATE]) (by intro row hr; fin_cases hr <;> simp [Y_GATE])
          hlen (by simpa using yGate_sq)
      · subst hg
        exact applyGateMatrix_twice state Z_GATE.matrix [t] n hnd hlt
          (by simp [Z_GATE]) (by intro row hr; fin_cases hr <;> simp [Z_GATE])
          hlen (by simpa using zGate_sq)
      · subst hg
        exact applyGateMatrix_twice state H_GATE.matrix [t] n hnd hlt
          (by simp [H_GATE]) (by intro row hr; fin_cases hr <;> simp [H_GATE])
          hlen (by simpa using hGate_sq)
    · intro i _
      simp
      norm_num
  · intro n c t state hc ht hne hlen
    refine ⟨state, ?_, rfl, ?_⟩
    · have hnd : ([c, t] : List ℕ).Nodup := by simp [hne]
      have hlt : ∀ q ∈ ([c, t] : List ℕ), q < n := by
        intro q hq
        rcases List.mem_cons.mp hq with h | h
        · exact h ▸ hc
        · simp at h
          exact h ▸ ht
      exact applyGateMatrix_twice state CNOT_GATE.matrix [c, t] n hnd hlt
        (by simp [CNOT_GATE]) (by intro row hr; fin_cases hr <;> simp [CNOT_GATE])
        hlen (by simpa using cnotGate_sq)
    · intro i _
      simp
      norm_num

/-- Witness for C7: the X gate applied twice to the one-qubit state
`[1, 0]` returns it exactly. -/
theorem c7_self_inverse_witness : ∃ out,
    (applyGateMatrix [1, 0] X_GATE.matrix [0] 1).bind
      (fun s1 => applyGateMatrix s1 X_GATE.matrix [0] 1) = .ok out ∧
    out.length = ([(1:ℂ), 0] : List ℂ).length ∧
    ∀ i < ([(1:ℂ), 0] : List ℂ).length,
      Complex.abs (out.getD i 0 - ([(1:ℂ), 0] : List ℂ).getD i 0) ≤ 1e-9 :=
  c7_self_inverse.1 X_GATE (List.mem_cons_self _ _) 1 0 [1, 0]
    (by norm_num) (by norm_num)

/-! ### Reduction helpers for the Except monad -/

@[simp]
theorem exceptBind_ok {e a b : Type} (x : a) (f : a → Except e b) :
    (Except.ok (ε := e) x >>= f) = f x := rfl

@[simp]
theorem exceptBind_error {e a b : Type} (err : e) (f : a → Except e b) :
    ((Except.error err : Except e a) >>= f) = Except.error err := rfl

/-! ### Claim C9 -/

theorem validateDimension_ok (L k : ℕ) (h : validateDimension L = .ok k) :
    L = 2 ^ k := by
  unfold validateDimension at h
  by_cases h0 : L = 0
  · rw [if_pos h0] at h
    exact absurd h (by simp)
  · rw [if_neg h0] at h
    by_cases h2 : 2 ^ Nat.log2 L ≠ L
    · rw [if_pos h2] at h
      exact absurd h (by simp)
    · rw [if_neg h2] at h
      rw [not_ne_iff] at h2
      have : k = Nat.log2 L := by
        have := (Except.ok.injEq _ _).mp h.symm
        exact this
      rw [this, h2]

theorem validateDimension_not_pow (L : ℕ) (h : ¬ ∃ k, L = 2 ^ k) :
    validateDimension L = .error .dimensionMismatch := by
  unfold validateDimension
  by_cases h0 : L = 0
  · rw [if_pos h0]
  · rw [if_neg h0]
    rw [if_pos]
    intro h2
    exact h ⟨Nat.log2 L, h2.symm⟩

theorem pyNormalise_length (l v : List ℂ) (h : pyNormalise l = .ok v) :
    v.length = l.length := by
  unfold pyNormalise at h
  split at h
  · injection h with h
    rw [← h]
  · split at h
    · exact absurd h (by simp)
    · injection h with h
      rw [← h]
      exact List.length_map _ _

theorem pyNormalise_of_normSq_one (l : List ℂ) (h : normSquaredOf l = 1) :
    pyNormalise l = .ok l := by
  unfold pyNormalise
  rw [if_pos]
  rw [h, pyIsClose]
  norm_num

/-- C9 (amended): construction from an amplitude iterable succeeds only
when the length is a power of two, every constructed state satisfies
`len(amplitudes) = 2^num_qubits`, and any other length fails with the
dimension error.  (The original claim also asserted `num_qubits ≥ 1`;
the length-1 input `[1]` is accepted with `num_qubits = 0`, see the
counterexample, so that conjunct is dropped.) -/
theorem c9_construction_invariants (amplitudes : List ℂ) (normalise : Bool) :
    (∀ st, QuantumState.from_amplitudes amplitudes normalise = .ok st →
      (∃ k, amplitudes.length = 2 ^ k) ∧
      st.amplitudes.length = 2 ^ st.num_qubits) ∧
    ((¬ ∃ k, amplitudes.length = 2 ^ k) →
      QuantumState.from_amplitudes amplitudes normalise =
        .error .dimensionMismatch) := by
  constructor
  · intro st hst
    unfold QuantumState.from_amplitudes at hst
    rcases hv : validateDimension amplitudes.length with e | nq
    · rw [hv] at hst
      exact Except.noConfusion hst
    · rw [hv] at hst
      have hpow := validateDimension_ok _ _ hv
      refine ⟨⟨nq, hpow⟩, ?_⟩
      rw [exceptBind_ok] at hst
      cases normalise with
      | false =>
          rw [if_neg (by simp)] at hst
          have := (Except.ok.injEq _ _).mp hst.symm
          rw [this]
          exact hpow
      | true =>
          rw [if_pos rfl] at hst
          rcases hn : pyNormalise amplitudes with e | v
          · rw [hn] at hst
            exact Except.noConfusion hst
          · rw [hn] at hst
            rw [exceptBind_ok] at hst
            have := (Except.ok.injEq _ _).mp hst.symm
            rw [this]
            show v.length = 2 ^ nq
            rw [pyNormalise_length _ _ hn]
            exact hpow
  · intro h
    unfold QuantumState.from_amplitudes
    rw [validateDimension_not_pow _ h]
    rfl

/-- Counterexample to C9 as stated: the singleton amplitude list `[1]`
(length `1 = 2^0`, a nonzero power of two) is accepted and yields a
state with `num_qubits = 0`, contradicting the claimed invariant
`num_qubits ≥ 1`. -/
theorem c9_counterexample :
    QuantumState.from_amplitudes [1] true = .ok ⟨[1], 0⟩ ∧
    ¬ (1 ≤ (QuantumState.mk [1] 0).num_qubits) := by
  constructor
  · unfold QuantumState.from_amplitudes validateDimension pyNormalise normSquaredOf
    norm_num [Except.bind, pyIsClose]
    rw [show Nat.log2 1 = 0 by simp [Nat.log2]]
    rfl
  · simp

/-- Witness for the amended C9 at the concrete input `[1, 0]`. -/
theorem c9_construction_invariants_witness :
    (∃ k, ([(1:ℂ), 0] : List ℂ).length = 2 ^ k) ∧
    (QuantumState.mk [1, 0] 1).amplitudes.length =
      2 ^ (QuantumState.mk ([1, 0] : List ℂ) 1).num_qubits :=
  (c9_construction_invariants [1, 0] true).1 ⟨[1, 0], 1⟩ (by
    unfold QuantumState.from_amplitudes validateDimension pyNormalise normSquaredOf
    norm_num [pyIsClose]
    rw [show Nat.log2 2 = 1 by simp [Nat.log2]]
    rfl)

/-! ### Claim C8 -/

theorem abs_pyRound_sub (x : ℝ) : |(pyRound x : ℝ) - x| ≤ 1/2 := by
  unfold pyRound
  by_cases hf : Int.fract x = 1/2
  · rw [if_pos hf]
    rw [Int.fract] at hf
    by_cases he : Even ⌊x⌋
    · rw [if_pos he]
      rw [abs_le]
      constructor <;> nlinarith [hf]
    · rw [if_neg he]
      push_cast
      rw [abs_le]
      constructor <;> nlinarith [hf]
  · rw [if_neg hf]
    rw [abs_sub_comm]
    exact abs_sub_round x

theorem pyRound_diff_le_one (x y : ℝ) (h : |x - y| < 1) :
    |pyRound x - pyRound y| ≤ 1 := by
  have h1 := abs_pyRound_sub x
  have h2 := abs_pyRound_sub y
  have hr : |((pyRound x - pyRound y : ℤ) : ℝ)| < 2 := by
    push_cast
    have : (pyRound x : ℝ) - pyRound y =
        ((pyRound x : ℝ) - x) + (x - y) + (y - (pyRound y : ℝ)) := by ring
    rw [this]
    calc |((pyRound x : ℝ) - x) + (x - y) + (y - (pyRound y : ℝ))|
        ≤ |((pyRound x : ℝ) - x) + (x - y)| + |y - (pyRound y : ℝ)| := abs_add _ _
      _ ≤ |(pyRound x : ℝ) - x| + |x - y| + |y - (pyRound y : ℝ)| := by
          have := abs_add ((pyRound x : ℝ) - x) (x - y)
          linarith
      _ < 2 := by
          rw [abs_sub_comm ((pyRound y : ℝ)) y] at h2
          linarith
  have : |pyRound x - pyRound y| < 2 := by exact_mod_cast hr
  omega

/-- C8 (amended): for every quantisation decimal count q and every pair
of equal-length amplitude vectors whose real and imaginary components
differ elementwise by less than `10^(−q−1)`, the two AmplitudeKeys
agree componentwise up to 1 (they need not be equal: a pair straddling
a rounding boundary gets adjacent integers, see the counterexample). -/
theorem c8_quantisation_keys (s : GateSequenceSolver) (q : ℤ)
    (hscale : s.quantisation_scale = (10:ℝ) ^ q)
    (u v : List ℂ) (hlen : u.length = v.length)
    (hclose : ∀ i < u.length,
      |(u.getD i 0).re - (v.getD i 0).re| < (10:ℝ) ^ (-q - 1) ∧
      |(u.getD i 0).im - (v.getD i 0).im| < (10:ℝ) ^ (-q - 1)) :
    (s.state_key u).length = (s.state_key v).length ∧
    ∀ j < (s.state_key u).length,
      |(s.state_key u).getD j 0 - (s.state_key v).getD j 0| ≤ 1 := by
  have hkey : ∀ x y : ℝ, |x - y| < (10:ℝ) ^ (-q - 1) →
      |pyRound (x * s.quantisation_scale) - pyRound (y * s.quantisation_scale)| ≤ 1 := by
    intro x y hxy
    apply pyRound_diff_le_one
    rw [hscale, ← sub_mul, abs_mul]
    have hpos : (0:ℝ) < (10:ℝ) ^ q := zpow_pos (by norm_num) q
    rw [abs_of_pos hpos]
    calc |x - y| * (10:ℝ) ^ q < (10:ℝ) ^ (-q - 1) * (10:ℝ) ^ q := by
          exact mul_lt_mul_of_pos_right hxy hpos
      _ = (10:ℝ) ^ (-(1:ℤ)) := by
          rw [← zpow_add₀ (by norm_num : (10:ℝ) ≠ 0)]
          ring_nf
      _ < 1 := by norm_num
  induction u generalizing v with
  | nil =>
      match v with
      | [] => simp [GateSequenceSolver.state_key]
      | _ :: _ => simp at hlen
  | cons a u' ih =>
      match v with
      | [] => simp at hlen
      | b :: v' =>
          have hab := hclose 0 (by simp)
          simp only [List.getD_cons_zero] at hab
          have hclose' : ∀ i < u'.length,
              |(u'.getD i 0).re - (v'.getD i 0).re| < (10:ℝ) ^ (-q - 1) ∧
              |(u'.getD i 0).im - (v'.getD i 0).im| < (10:ℝ) ^ (-q - 1) := by
            intro i hi
            have := hclose (i + 1) (by simp; omega)
            simpa using this
          obtain ⟨ihlen, ihval⟩ := ih v' (by simpa using hlen) hclose'
          constructor
          · simp only [GateSequenceSolver.state_key, List.flatMap_cons] at *
            simp [ihlen]
          · intro j hj
            simp only [GateSequenceSolver.state_key, List.flatMap_cons,
              List.cons_append, List.nil_append]
            match j with
            | 0 =>
                simp only [List.getD_cons_zero]
                exact hkey _ _ hab.1
            | 1 =>
                simp only [List.getD_cons_succ, List.getD_cons_zero]
                exact hkey _ _ hab.2
            | Nat.succ (Nat.succ j') =>
                simp only [List.getD_cons_succ]
                apply ihval
                simp only [GateSequenceSolver.state_key, List.flatMap_cons,
                  List.cons_append, List.nil_append, List.length_cons] at hj ⊢
                omega

/-- A concrete solver with `quantisation_decimals = 0` (scale `10^0`),
built over one qubit with the X alphabet. -/
noncomputable def q0Cfg : SolverConfig :=
  ⟨1, some ["X"], 1e-6, 0, none, none, none⟩

noncomputable def q0Solver : GateSequenceSolver :=
  ⟨1, 1e-6, 0, (10:ℝ) ^ (0:ℤ), [X_GATE], [⟨X_GATE, [0]⟩],
   [("X", [⟨X_GATE, [0]⟩])], none, [], [], [], none⟩

theorem q0Solver_mk : mkGateSequenceSolver q0Cfg = .ok q0Solver := rfl

theorem pyRound_046 : pyRound 0.46 = 0 := by
  unfold pyRound
  rw [if_neg (by rw [Int.fract]; norm_num)]
  rw [round_eq]
  norm_num

theorem pyRound_054 : pyRound 0.54 = 1 := by
  unfold pyRound
  rw [if_neg (by rw [Int.fract]; norm_num)]
  rw [round_eq]
  norm_num

theorem pyRound_zero : pyRound 0 = 0 := by
  unfold pyRound
  rw [if_neg (by rw [Int.fract]; norm_num)]
  simp

/-- Counterexample to C8 as stated: with q = 0 the vectors `[0.46]` and
`[0.54]` differ componentwise by `0.08 < 10^(−q−1) = 0.1`, yet their
AmplitudeKeys are `[0, 0]` and `[1, 0]` — not equal.  (The same
straddling occurs at every q by scaling.) -/
theorem c8_counterexample :
    mkGateSequenceSolver q0Cfg = .ok q0Solver ∧
    q0Solver.quantisation_decimals = 0 ∧
    |(((0.46:ℝ):ℂ)).re - (((0.54:ℝ):ℂ)).re| < (10:ℝ) ^ (-(0:ℤ) - 1) ∧
    |(((0.46:ℝ):ℂ)).im - (((0.54:ℝ):ℂ)).im| < (10:ℝ) ^ (-(0:ℤ) - 1) ∧
    q0Solver.state_key [((0.46:ℝ):ℂ)] = [0, 0] ∧
    q0Solver.state_key [((0.54:ℝ):ℂ)] = [1, 0] ∧
    ([0, 0] : List ℤ) ≠ [1, 0] := by
  refine ⟨q0Solver_mk, rfl, ?_, ?_, ?_, ?_, by simp⟩
  · simp only [Complex.ofReal_re]
    rw [abs_sub_lt_iff]
    constructor <;> norm_num
  · simp only [Complex.ofReal_im]
    norm_num
  · simp only [GateSequenceSolver.state_key, List.flatMap_cons, List.flatMap_nil,
      Complex.ofReal_re, Complex.ofReal_im, q0Solver]
    rw [show ((10:ℝ) ^ (0:ℤ)) = 1 by norm_num]
    rw [mul_one, zero_mul, pyRound_046, pyRound_zero]
    rfl
  · simp only [GateSequenceSolver.state_key, List.flatMap_cons, List.flatMap_nil,
      Complex.ofReal_re, Complex.ofReal_im, q0Solver]
    rw [show ((10:ℝ) ^ (0:ℤ)) = 1 by norm_num]
    rw [mul_one, zero_mul, pyRound_054, pyRound_zero]
    rfl

theorem pyRound_02 : pyRound 0.2 = 0 := by
  unfold pyRound
  rw [if_neg (by rw [Int.fract]; norm_num)]
  rw [round_eq]
  norm_num

theorem pyRound_021 : pyRound 0.21 = 0 := by
  unfold pyRound
  rw [if_neg (by rw [Int.fract]; norm_num)]
  rw [round_eq]
  norm_num

/-- Witness for the amended C8: the vectors `[0.2]` and `[0.21]`
(componentwise difference `0.01 < 0.1`) get keys agreeing up to 1 in
every component. -/
theorem c8_quantisation_keys_witness :
    (q0Solver.state_key [((0.2:ℝ):ℂ)]).length =
      (q0Solver.state_key [((0.21:ℝ):ℂ)]).length ∧
    ∀ j < (q0Solver.state_key [((0.2:ℝ):ℂ)]).length,
      |(q0Solver.state_key [((0.2:ℝ):ℂ)]).getD j 0 -
        (q0Solver.state_key [((0.21:ℝ):ℂ)]).getD j 0| ≤ 1 :=
  c8_quantisation_keys q0Solver 0 rfl _ _ rfl (by
    intro i hi
    have hi0 : i = 0 := by
      simp only [List.length_cons, List.length_nil] at hi
      omega
    subst hi0
    constructor <;>
      simp only [List.getD_cons_zero, Complex.ofReal_re, Complex.ofReal_im] <;>
      rw [abs_sub_lt_iff] <;> constructor <;> norm_num)

/-! ### Claim C6 -/

/-- C6: per gate in alphabet order the operation table holds, for an
arity-1 gate, n operations with ascending targets; for an arity-2 gate,
one operation per ordered (control, target) pair with control ≠ target,
control in the outer loop (n·(n−1) of them); and any gate of other
arity (in particular arity ≥ 3) makes the build fail. -/
theorem c6_operation_table (n : ℕ) (hn : 1 ≤ n) (gates : List Gate) :
    ((∀ g ∈ gates, g.num_qubits = 1 ∨ g.num_qubits = 2) →
      (buildOperations n gates = .ok (gates.flatMap (fun g =>
        if g.num_qubits = 1 then
          (List.range n).map (fun t => GateOperation.mk g [t])
        else
          (List.range n).flatMap (fun c =>
            ((List.range n).filter (fun t => t ≠ c)).map
              (fun t => GateOperation.mk g [c, t])))) ∧
      (∀ g ∈ gates,
        (g.num_qubits = 1 →
          ((List.range n).map (fun t => GateOperation.mk g [t])).length = n) ∧
        (g.num_qubits = 2 →
          ((List.range n).flatMap (fun c =>
            ((List.range n).filter (fun t => t ≠ c)).map
              (fun t => GateOperation.mk g [c, t]))).length = n * (n - 1))))) ∧
    ((∃ g ∈ gates, 3 ≤ g.num_qubits) →
      buildOperations n gates = .error .unsupportedArity) := by
  have hfilter : ∀ c, c < n →
      ((List.range n).filter (fun t => t ≠ c)).length = n - 1 := by
    intro c hc
    have hmem : c ∈ List.range n := List.mem_range.mpr hc
    have hnd : (List.range n).Nodup := List.nodup_range _
    have herase : (List.range n).erase c = (List.range n).filter (fun t => t ≠ c) := by
      rw [List.Nodup.erase_eq_filter hnd]
      apply List.filter_congr
      intro x _
      by_cases h : x = c <;> simp [h]
    rw [← herase, List.length_erase_of_mem hmem, List.length_range]
  have hcount2 : ∀ g : Gate,
      ((List.range n).flatMap (fun c =>
        ((List.range n).filter (fun t => t ≠ c)).map
          (fun t => GateOperation.mk g [c, t]))).length = n * (n - 1) := by
    intro g
    rw [List.length_flatMap]
    have hmapeq : (List.range n).map (List.length ∘ fun c =>
        ((List.range n).filter (fun t => t ≠ c)).map
          (fun t => GateOperation.mk g [c, t])) =
        (List.range n).map (fun _ => n - 1) := by
      apply List.map_congr_left
      intro c hc
      show (((List.range n).filter (fun t => t ≠ c)).map
        (fun t => GateOperation.mk g [c, t])).length = n - 1
      rw [List.length_map]
      exact hfilter c (List.mem_range.mp hc)
    rw [hmapeq]
    rw [show (List.range n).map (fun _ => n - 1) = List.replicate n (n - 1) by
      rw [List.map_const' (List.range n) (n - 1)]
      rw [List.length_range]]
    rw [List.sum_replicate, smul_eq_mul]
  constructor
  · intro harity
    constructor
    · induction gates with
      | nil => rfl
      | cons g rest ih =>
          have hg := harity g (List.mem_cons_self _ _)
          have hrest : ∀ g ∈ rest, g.num_qubits = 1 ∨ g.num_qubits = 2 :=
            fun g hgm => harity g (List.mem_cons_of_mem _ hgm)
          rcases hg with h1 | h2
          · unfold buildOperations
            rw [if_pos h1, ih hrest]
            simp only [List.flatMap_cons, if_pos h1, Except.map_ok]
          · unfold buildOperations
            rw [if_neg (by rw [h2]; norm_num), if_pos h2]
            by_cases hn2 : n < 2
            · have hn1 : n = 1 := by omega
              rw [if_pos hn2, ih hrest]
              subst hn1
              simp only [List.flatMap_cons]
              rw [if_neg (by rw [h2]; norm_num)]
              congr 1
            · rw [if_neg hn2, ih hrest]
              simp only [List.flatMap_cons]
              rw [if_neg (by rw [h2]; norm_num)]
              rfl
    · intro g hg
      refine ⟨fun _ => by simp, fun _ => hcount2 g⟩
  · intro hbig
    induction gates with
    | nil =>
        obtain ⟨g, hg, _⟩ := hbig
        exact absurd hg (List.not_mem_nil _)
    | cons g rest ih =>
        unfold buildOperations
        by_cases h1 : g.num_qubits = 1
        · rw [if_pos h1]
          have : ∃ g ∈ rest, 3 ≤ g.num_qubits := by
            obtain ⟨g', hg', h3⟩ := hbig
            rcases List.mem_cons.mp hg' with he | hm
            · rw [← he] at h1
              omega
            · exact ⟨g', hm, h3⟩
          rw [ih this]
          rfl
        · by_cases h2 : g.num_qubits = 2
          · rw [if_neg h1, if_pos h2]
            have : ∃ g ∈ rest, 3 ≤ g.num_qubits := by
              obtain ⟨g', hg', h3⟩ := hbig
              rcases List.mem_cons.mp hg' with he | hm
              · rw [← he] at h2
                omega
              · exact ⟨g', hm, h3⟩
            by_cases hn2 : n < 2
            · rw [if_pos hn2]
              exact ih this
            · rw [if_neg hn2, ih this]
              rfl
          · rw [if_neg h1, if_neg h2]

/-- Witness for C6: the full table for alphabet [X, CNOT] over two
qubits, in enumeration order. -/
theorem c6_operation_table_witness :
    buildOperations 2 [X_GATE, CNOT_GATE] =
      .ok [⟨X_GATE, [0]⟩, ⟨X_GATE, [1]⟩,
           ⟨CNOT_GATE, [0, 1]⟩, ⟨CNOT_GATE, [1, 0]⟩] := by
  have h := (c6_operation_table 2 (by norm_num) [X_GATE, CNOT_GATE]).1 (by
    intro g hg
    rcases List.mem_cons.mp hg with he | hg'
    · left
      rw [he, X_GATE]
    · rcases List.mem_cons.mp hg' with he | hg''
      · right
        rw [he, CNOT_GATE]
      · exact absurd hg'' (List.not_mem_nil _))
  rw [h.1]
  rfl


/-! ### Construction-time dictionaries -/

theorem lookup_cons_eq {a b : Type} [BEq a] [LawfulBEq a] [DecidableEq a]
    (nm k : a) (v : b) (rest : List (a × b)) :
    List.lookup nm ((k, v) :: rest) =
      if nm = k then some v else List.lookup nm rest := by
  rw [List.lookup_cons]
  by_cases h : nm = k
  · rw [if_pos h, show (nm == k) = true by simp [h]]
  · rw [if_neg h, show (nm == k) = false by simp [h]]

theorem lookup_dictAppendOp (d : List (String × List GateOperation))
    (key nm : String) (op : GateOperation) :
    (dictAppendOp d key op).lookup nm =
      if nm = key then some ((d.lookup key).getD [] ++ [op])
      else d.lookup nm := by
  induction d with
  | nil =>
      unfold dictAppendOp
      rw [lookup_cons_eq]
      by_cases h : nm = key
      · rw [if_pos h, if_pos h]
        simp [List.lookup]
      · rw [if_neg h, if_neg h]
  | cons e rest ih =>
      match e with
      | (k0, v0) =>
          unfold dictAppendOp
          by_cases h : k0 = key
          · rw [if_pos h]
            subst h
            by_cases h2 : nm = k0
            · subst h2
              simp [lookup_cons_eq]
            · simp [lookup_cons_eq, h2]
          · rw [if_neg h]
            by_cases h2 : nm = k0
            · subst h2
              simp [lookup_cons_eq, h]
            · simp [lookup_cons_eq, h2, ih, Ne.symm h]

theorem lookup_buildOpsByGate_aux (ops : List GateOperation)
    (d : List (String × List GateOperation)) (nm : String) :
    ((ops.foldl (fun d op => dictAppendOp d op.gate.name op) d).lookup nm) =
      match d.lookup nm with
      | some l => some (l ++ ops.filter (fun op => op.gate.name = nm))
      | none =>
          if (ops.filter (fun op => op.gate.name = nm)).isEmpty then none
          else some (ops.filter (fun op => op.gate.name = nm)) := by
  induction ops generalizing d with
  | nil =>
      simp only [List.foldl_nil, List.filter_nil]
      match h : d.lookup nm with
      | some l => simp
      | none => simp
  | cons op rest ih =>
      rw [List.foldl_cons, ih]
      rw [lookup_dictAppendOp]
      by_cases h : nm = op.gate.name
      · rw [if_pos h]
        have hf : (op :: rest).filter (fun o => o.gate.name = nm) =
            op :: rest.filter (fun o => o.gate.name = nm) := by
          rw [List.filter_cons, if_pos (by simp [h])]
        rw [hf]
        rw [show op.gate.name = nm from h.symm]
        match hd : d.lookup nm with
        | some l => simp
        | none => simp
      · rw [if_neg h]
        have hf : (op :: rest).filter (fun o => o.gate.name = nm) =
            rest.filter (fun o => o.gate.name = nm) := by
          rw [List.filter_cons]
          rw [if_neg (by simp; intro hc; exact h hc.symm)]
        rw [hf]

theorem lookup_buildOpsByGate (operations : List GateOperation) (nm : String) :
    (buildOpsByGate operations).lookup nm =
      if (operations.filter (fun op => op.gate.name = nm)).isEmpty then none
      else some (operations.filter (fun op => op.gate.name = nm)) := by
  unfold buildOpsByGate
  rw [lookup_buildOpsByGate_aux]
  simp [List.lookup]

theorem find?_eq_head?_filter (p : GateOperation → Bool) (l : List GateOperation) :
    l.find? p = (l.filter p).head? := by
  induction l with
  | nil => rfl
  | cons a rest ih =>
      by_cases h : p a
      · rw [List.find?_cons_of_pos _ h, List.filter_cons_of_pos h]
        rfl
      · rw [List.find?_cons_of_neg _ (by simpa using h),
          List.filter_cons_of_neg (by simpa using h), ih]

theorem resolveGateSymbols_mem (syms : List String) (gates : List Gate)
    (h : resolveGateSymbols syms = .ok gates) :
    ∀ g ∈ gates, g ∈ supportedGates := by
  induction syms generalizing gates with
  | nil =>
      unfold resolveGateSymbols at h
      injection h with h
      rw [← h]
      intro g hg
      exact absurd hg (List.not_mem_nil _)
  | cons sym rest ih =>
      unfold resolveGateSymbols at h
      match hl : lookupSupported sym with
      | none =>
          rw [hl] at h
          exact Except.noConfusion h
      | some g0 =>
          rw [hl] at h
          match hr : resolveGateSymbols rest with
          | .error e =>
              rw [hr] at h
              exact Except.noConfusion h
          | .ok grest =>
              rw [hr] at h
              simp only [Except.map_ok] at h
              injection h with h
              rw [← h]
              intro g hg
              rcases List.mem_cons.mp hg with he | hm
              · rw [he]
                exact List.mem_of_find?_eq_some hl
              · exact ih grest hr g hm

theorem resolveAllowlistNames_ok (operations : List GateOperation)
    (names : List String) (l : List GateOperation)
    (h : resolveAllowlistNames (buildOpsByGate operations) names = .ok l) :
    l = names.flatMap
      (fun nm => operations.filter (fun op => op.gate.name = nm)) := by
  induction names generalizing l with
  | nil =>
      unfold resolveAllowlistNames at h
      injection h with h
      rw [← h]
      rfl
  | cons nm rest ih =>
      unfold resolveAllowlistNames at h
      match hl : (buildOpsByGate operations).lookup nm with
      | none =>
          rw [hl] at h
          exact Except.noConfusion h
      | some ops =>
          rw [hl] at h
          simp only [] at h
          by_cases he : ops.isEmpty
          · rw [if_pos he] at h
            exact Except.noConfusion h
          · rw [if_neg he] at h
            match hr : resolveAllowlistNames (buildOpsByGate operations) rest with
            | .error e =>
                rw [hr] at h
                exact Except.noConfusion h
            | .ok lrest =>
                rw [hr] at h
                simp only [Except.map_ok] at h
                injection h with h
                rw [← h, List.flatMap_cons, ih lrest hr]
                congr 1
                rw [lookup_buildOpsByGate] at hl
                by_cases hf : (operations.filter (fun op => op.gate.name = nm)).isEmpty
                · rw [if_pos hf] at hl
                  exact Option.noConfusion hl
                · rw [if_neg hf] at hl
                  injection hl with hl
                  exact hl.symm

theorem buildAllowlistOps_ok (operations : List GateOperation)
    (gateNames : List String) (allowed : List String) (l : List GateOperation)
    (h : buildAllowlistOps gateNames (buildOpsByGate operations) allowed = .ok l) :
    l = (dedupKeepFirst allowed).flatMap
      (fun nm => operations.filter (fun op => op.gate.name = nm)) := by
  unfold buildAllowlistOps at h
  by_cases h1 : dedupKeepFirst allowed = []
  · rw [if_pos h1] at h
    exact Except.noConfusion h
  · rw [if_neg h1] at h
    by_cases h2 : (dedupKeepFirst allowed).any (fun name => name ∉ gateNames)
    · rw [if_pos h2] at h
      exact Except.noConfusion h
    · rw [if_neg h2] at h
      exact resolveAllowlistNames_ok operations _ l h

theorem buildLayerSpecific_lookup (operations : List GateOperation)
    (gateNames : List String) (entries : List (ℤ × List String))
    (out : List (ℤ × List GateOperation))
    (h : buildLayerSpecific gateNames (buildOpsByGate operations) entries = .ok out)
    (key : ℤ) :
    out.lookup key = (entries.lookup key).map
      (fun allowed => (dedupKeepFirst allowed).flatMap
        (fun nm => operations.filter (fun op => op.gate.name = nm))) := by
  induction entries generalizing out with
  | nil =>
      unfold buildLayerSpecific at h
      injection h with h
      rw [← h]
      rfl
  | cons e rest ih =>
      match e with
      | (layer, allowed) =>
          unfold buildLayerSpecific at h
          by_cases hneg : layer < 0
          · rw [if_pos hneg] at h
            exact Except.noConfusion h
          · rw [if_neg hneg] at h
            match hb : buildAllowlistOps gateNames (buildOpsByGate operations) allowed with
            | .error e =>
                rw [hb] at h
                exact Except.noConfusion h
            | .ok ops =>
                rw [hb] at h
                rw [exceptBind_ok] at h
                match hr : buildLayerSpecific gateNames (buildOpsByGate operations) rest with
                | .error e =>
                    rw [hr] at h
                    exact Except.noConfusion h
                | .ok orest =>
                    rw [hr] at h
                    simp only [Except.map_ok] at h
                    injection h with h
                    rw [← h]
                    rw [lookup_cons_eq, lookup_cons_eq]
                    by_cases hk : key = layer
                    · rw [if_pos hk, if_pos hk]
                      simp only [Option.map_some']
                      rw [buildAllowlistOps_ok operations gateNames allowed ops hb]
                    · rw [if_neg hk, if_neg hk]
                      exact ih orest hr

/-- Structure of every operation in the built table: its gate is in the
alphabet, and its targets are a valid singleton (arity 1) or a valid
distinct pair (arity 2). -/
theorem buildOperations_mem (n : ℕ) (gates : List Gate)
    (operations : List GateOperation)
    (h : buildOperations n gates = .ok operations) :
    ∀ op ∈ operations, op.gate ∈ gates ∧
      ((op.gate.num_qubits = 1 ∧ ∃ t, t < n ∧ op.targets = [t]) ∨
       (op.gate.num_qubits = 2 ∧
        ∃ c t, c < n ∧ t < n ∧ c ≠ t ∧ op.targets = [c, t])) := by
  induction gates generalizing operations with
  | nil =>
      unfold buildOperations at h
      injection h with h
      rw [← h]
      intro op hop
      exact absurd hop (List.not_mem_nil _)
  | cons g rest ih =>
      unfold buildOperations at h
      by_cases h1 : g.num_qubits = 1
      · rw [if_pos h1] at h
        match hr : buildOperations n rest with
        | .error e =>
            rw [hr] at h
            exact Except.noConfusion h
        | .ok orest =>
            rw [hr] at h
            simp only [Except.map_ok] at h
            injection h with h
            intro op hop
            rw [← h] at hop
            rcases List.mem_append.mp hop with hm | hm
            · obtain ⟨t, ht, hte⟩ := List.mem_map.mp hm
              refine ⟨by rw [← hte]; exact List.mem_cons_self _ _, Or.inl ?_⟩
              rw [← hte]
              exact ⟨h1, t, List.mem_range.mp ht, rfl⟩
            · obtain ⟨hg, hrest⟩ := ih orest hr op hm
              exact ⟨List.mem_cons_of_mem _ hg, hrest⟩
      · rw [if_neg h1] at h
        by_cases h2 : g.num_qubits = 2
        · rw [if_pos h2] at h
          by_cases hn2 : n < 2
          · rw [if_pos hn2] at h
            intro op hop
            obtain ⟨hg, hrest⟩ := ih operations h op hop
            exact ⟨List.mem_cons_of_mem _ hg, hrest⟩
          · rw [if_neg hn2] at h
            match hr : buildOperations n rest with
            | .error e =>
                rw [hr] at h
                exact Except.noConfusion h
            | .ok orest =>
                rw [hr] at h
                simp only [Except.map_ok] at h
                injection h with h
                intro op hop
                rw [← h] at hop
                rcases List.mem_append.mp hop with hm | hm
                · obtain ⟨c, hc, hce⟩ := List.mem_flatMap.mp hm
                  obtain ⟨t, ht, hte⟩ := List.mem_map.mp hce
                  have hc' : c < n := List.mem_range.mp hc
                  have htf := List.mem_filter.mp ht
                  have ht' : t < n := List.mem_range.mp htf.1
                  have htc : t ≠ c := by simpa using htf.2
                  refine ⟨by rw [← hte]; exact List.mem_cons_self _ _, Or.inr ?_⟩
                  rw [← hte]
                  exact ⟨h2, c, t, hc', ht', fun hce' => htc hce'.symm, rfl⟩
                · obtain ⟨hg, hrest⟩ := ih orest hr op hm
                  exact ⟨List.mem_cons_of_mem _ hg, hrest⟩
        · rw [if_neg h2] at h
          exact Except.noConfusion h

/-- Inversion of `GateSequenceSolver.__init__`: every field of a
successfully constructed solver in terms of the configuration. -/
theorem mkGateSequenceSolver_inv (cfg : SolverConfig) (s : GateSequenceSolver)
    (h : mkGateSequenceSolver cfg = .ok s) :
    cfg.num_qubits ≠ 0 ∧
    s.num_qubits = cfg.num_qubits ∧
    s.tolerance = cfg.tolerance ∧
    s.quantisation_decimals = cfg.quantisation_decimals ∧
    s.quantisation_scale = (10:ℝ) ^ cfg.quantisation_decimals ∧
    resolveGateSymbols (cfg.allowed_gates.getD (supportedGates.map Gate.name)) =
      .ok s.gates ∧
    buildOperations cfg.num_qubits s.gates = .ok s.operations ∧
    s.operations_by_gate = buildOpsByGate s.operations ∧
    s.identity_operation =
      (match (buildOpsByGate s.operations).lookup "I" with
       | some (op :: _) => some op
       | _ => none) ∧
    s.fixed_operations = cfg.fixed_operations.getD [] ∧
    checkFixedOperations cfg.num_qubits s.fixed_operations = .ok () ∧
    s.fixed_layers = sortInts (s.fixed_operations.map Prod.fst) ∧
    buildLayerSpecific (s.gates.map Gate.name) (buildOpsByGate s.operations)
      (cfg.layer_gate_allowlists.getD []) = .ok s.layer_specific_operations ∧
    (match cfg.default_layer_gate_allowlist with
     | none => s.default_layer_operations = none
     | some allowed => ∃ dops,
         buildAllowlistOps (s.gates.map Gate.name) (buildOpsByGate s.operations)
           allowed = .ok dops ∧
         s.default_layer_operations = some dops) := by
  unfold mkGateSequenceSolver at h
  by_cases h0 : cfg.num_qubits = 0
  · rw [if_pos h0] at h
    exact Except.noConfusion h
  · rw [if_neg h0] at h
    dsimp only [] at h
    match hg : resolveGateSymbols (cfg.allowed_gates.getD (supportedGates.map Gate.name)) with
    | .error e =>
        rw [hg] at h
        exact Except.noConfusion h
    | .ok gates =>
        rw [hg] at h
        rw [exceptBind_ok] at h
        match hops : buildOperations cfg.num_qubits gates with
        | .error e =>
            rw [hops] at h
            exact Except.noConfusion h
        | .ok operations =>
            rw [hops] at h
            rw [exceptBind_ok] at h
            match hck : checkFixedOperations cfg.num_qubits (cfg.fixed_operations.getD []) with
            | .error e =>
                rw [hck] at h
                exact Except.noConfusion h
            | .ok u =>
                cases u
                rw [hck] at h
                rw [exceptBind_ok] at h
                match hls : buildLayerSpecific (gates.map Gate.name)
                    (buildOpsByGate operations) (cfg.layer_gate_allowlists.getD []) with
                | .error e =>
                    rw [hls] at h
                    exact Except.noConfusion h
                | .ok layerSpecific =>
                    rw [hls] at h
                    rw [exceptBind_ok] at h
                    match hd : cfg.default_layer_gate_allowlist with
                    | none =>
                        rw [hd] at h
                        simp only [] at h
                        rw [show (pure (f := Except PyErr)
                          (none : Option (List GateOperation))) = Except.ok none from rfl,
                          exceptBind_ok] at h
                        match hcc : checkConflicts layerSpecific (cfg.fixed_operations.getD []) with
                        | .error e =>
                            rw [hcc] at h
                            exact Except.noConfusion h
                        | .ok u2 =>
                            cases u2
                            rw [hcc] at h
                            rw [exceptBind_ok] at h
                            injection h with h
                            rw [← h]
                            exact ⟨h0, rfl, rfl, rfl, rfl, rfl, hops, rfl, rfl, rfl,
                              hck, rfl, hls, rfl⟩
                    | some allowed =>
                        rw [hd] at h
                        simp only [] at h
                        match hda : buildAllowlistOps (gates.map Gate.name)
                            (buildOpsByGate operations) allowed with
                        | .error e =>
                            rw [hda] at h
                            exact Except.noConfusion h
                        | .ok dops =>
                            rw [hda] at h
                            simp only [Except.map_ok] at h
                            rw [exceptBind_ok] at h
                            match hcc : checkConflicts layerSpecific (cfg.fixed_operations.getD []) with
                            | .error e =>
                                rw [hcc] at h
                                exact Except.noConfusion h
                            | .ok u2 =>
                                cases u2
                                rw [hcc] at h
                                rw [exceptBind_ok] at h
                                injection h with h
                                rw [← h]
                                exact ⟨h0, rfl, rfl, rfl, rfl, rfl, hops, rfl, rfl, rfl,
                                  hck, rfl, hls, ⟨dops, hda, rfl⟩⟩

/-! ### Claim C2 -/

/-- C2: for each depth d the admissible operation set follows
first-match-wins priority — the pinned operation as a singleton, else
the per-layer allowlist resolved to all table operations of the listed
gate names in de-duplicated allowlist order, else the default allowlist
with the same semantics, else the full operation table. -/
theorem c2_admissible_priority (cfg : SolverConfig) (s : GateSequenceSolver)
    (h : mkGateSequenceSolver cfg = .ok s) (d : ℕ) :
    s.operations_for_depth d =
      match (cfg.fixed_operations.getD []).lookup (d : ℤ) with
      | some op => [op]
      | none =>
        match (cfg.layer_gate_allowlists.getD []).lookup (d : ℤ) with
        | some allowed =>
            (dedupKeepFirst allowed).flatMap
              (fun nm => s.operations.filter (fun op => op.gate.name = nm))
        | none =>
          match cfg.default_layer_gate_allowlist with
          | some allowed =>
              (dedupKeepFirst allowed).flatMap
                (fun nm => s.operations.filter (fun op => op.gate.name = nm))
          | none => s.operations := by
  obtain ⟨-, -, -, -, -, -, -, -, -, hfix, -, -, hls, hdef⟩ :=
    mkGateSequenceSolver_inv cfg s h
  unfold GateSequenceSolver.operations_for_depth
  rw [hfix]
  match h1 : (cfg.fixed_operations.getD []).lookup (d : ℤ) with
  | some op => rfl
  | none =>
      have hlk := buildLayerSpecific_lookup s.operations (s.gates.map Gate.name)
        (cfg.layer_gate_allowlists.getD []) s.layer_specific_operations hls (d : ℤ)
      rw [hlk]
      match h2 : (cfg.layer_gate_allowlists.getD []).lookup (d : ℤ) with
      | some allowed => rfl
      | none =>
          simp only [Option.map_none']
          rcases h3 : cfg.default_layer_gate_allowlist with _ | allowed
          · rw [h3] at hdef
            simp only [] at hdef
            rw [hdef]
          · rw [h3] at hdef
            simp only [] at hdef
            obtain ⟨dops, hda, hsome⟩ := hdef
            rw [hsome]
            exact buildAllowlistOps_ok s.operations _ allowed dops hda

/-- A concrete configuration with a per-layer allowlist at layer 0. -/
noncomputable def c2Cfg : SolverConfig :=
  ⟨1, some ["X", "I"], 1e-6, 8, none, some [(0, ["I", "X"])], none⟩

noncomputable def c2Solver : GateSequenceSolver :=
  ⟨1, 1e-6, 8, (10:ℝ) ^ (8:ℤ), [X_GATE, ID_GATE],
   [⟨X_GATE, [0]⟩, ⟨ID_GATE, [0]⟩],
   [("X", [⟨X_GATE, [0]⟩]), ("I", [⟨ID_GATE, [0]⟩])],
   some ⟨ID_GATE, [0]⟩, [], [],
   [(0, [⟨ID_GATE, [0]⟩, ⟨X_GATE, [0]⟩])], none⟩

/-- Witness for C2 at layer 0 of the concrete solver: the allowlist
["I", "X"] resolves to the I operation then the X operation, in
allowlist order. -/
theorem c2_admissible_priority_witness :
    c2Solver.operations_for_depth 0 =
      [⟨ID_GATE, [0]⟩, ⟨X_GATE, [0]⟩] := by
  rw [c2_admissible_priority c2Cfg c2Solver rfl 0]
  rfl

/-! ### Claim C3 -/

/-- C3 (amended): at a padding layer with no fixed operation and no
per-layer allowlist, when the default allowlist holds no I-gate
operation the selection does NOT stop; it falls through to the solver's
global identity operation (which lies outside the default allowlist),
and padding stops at that layer only when the solver's operation table
holds no I operation at all (in which case `identity_operation` is
`none` and so is the final table scan). -/
theorem c3_default_allowlist_fallthrough (cfg : SolverConfig)
    (s : GateSequenceSolver) (h : mkGateSequenceSolver cfg = .ok s) (d : ℕ)
    (dops : List GateOperation)
    (hfix : s.fixed_operations.lookup (d : ℤ) = none)
    (hlay : s.layer_specific_operations.lookup (d : ℤ) = none)
    (hdef : s.default_layer_operations = some dops)
    (hnoI : dops.find? (fun op => op.gate.name = "I") = none) :
    s.select_identity_for_layer d = s.identity_operation ∧
    (s.identity_operation = none →
      s.operations.filter (fun op => op.gate.name = "I") = []) := by
  obtain ⟨-, -, -, -, -, -, -, -, hid, -, -, -, -, -⟩ :=
    mkGateSequenceSolver_inv cfg s h
  have hfilter : s.identity_operation = none →
      s.operations.filter (fun op => op.gate.name = "I") = [] := by
    intro hnone
    rw [hnone] at hid
    rw [lookup_buildOpsByGate] at hid
    by_cases he : (s.operations.filter (fun op => op.gate.name = "I")).isEmpty
    · exact List.isEmpty_iff.mp he
    · rw [if_neg he] at hid
      rcases hm : s.operations.filter (fun op => op.gate.name = "I") with _ | ⟨op, rest⟩
      · exact hm
      · rw [hm] at hid
        simp only [] at hid
        exact Option.noConfusion hid
  refine ⟨?_, hfilter⟩
  unfold GateSequenceSolver.select_identity_for_layer
  rw [hfix, hlay, hdef]
  simp only [hnoI]
  match hio : s.identity_operation with
  | some op => rfl
  | none =>
      rw [find?_eq_head?_filter, hfilter hio]
      rfl

/-- Configuration exhibiting the C3 counterexample: default allowlist
["X"] (no I), with I present in the alphabet. -/
noncomputable def c3Cfg : SolverConfig :=
  ⟨1, some ["X", "I"], 1e-6, 8, none, none, some ["X"]⟩

noncomputable def c3Solver : GateSequenceSolver :=
  ⟨1, 1e-6, 8, (10:ℝ) ^ (8:ℤ), [X_GATE, ID_GATE],
   [⟨X_GATE, [0]⟩, ⟨ID_GATE, [0]⟩],
   [("X", [⟨X_GATE, [0]⟩]), ("I", [⟨ID_GATE, [0]⟩])],
   some ⟨ID_GATE, [0]⟩, [], [], [], some [⟨X_GATE, [0]⟩]⟩

/-- Counterexample to C3 as stated: at layer 0 the solver has no fixed
operation and no per-layer allowlist and its default allowlist ["X"]
holds no I operation, yet padding an empty sequence to one layer does
not stop — it appends the global `I q0` operation, which is not in the
default allowlist. -/
theorem c3_counterexample :
    mkGateSequenceSolver c3Cfg = .ok c3Solver ∧
    c3Solver.fixed_operations.lookup (0 : ℤ) = none ∧
    c3Solver.layer_specific_operations.lookup (0 : ℤ) = none ∧
    c3Solver.default_layer_operations = some [⟨X_GATE, [0]⟩] ∧
    ([(⟨X_GATE, [0]⟩ : GateOperation)]).find?
      (fun op => op.gate.name = "I") = none ∧
    c3Solver.pad_sequence_to_layers [] 1 = [⟨ID_GATE, [0]⟩] ∧
    (⟨ID_GATE, [0]⟩ : GateOperation) ∉ [(⟨X_GATE, [0]⟩ : GateOperation)] := by
  refine ⟨rfl, rfl, rfl, rfl, rfl, rfl, ?_⟩
  intro hmem
  rcases List.mem_cons.mp hmem with he | hm
  · have : ID_GATE = X_GATE := congrArg GateOperation.gate he
    have hn : ID_GATE.name = X_GATE.name := congrArg Gate.name this
    simp [ID_GATE, X_GATE] at hn
  · exact absurd hm (List.not_mem_nil _)

/-- Witness for the amended C3 at the concrete solver: selection at
layer 0 returns the global identity operation. -/
theorem c3_default_allowlist_fallthrough_witness :
    c3Solver.select_identity_for_layer 0 = c3Solver.identity_operation ∧
    (c3Solver.identity_operation = none →
      c3Solver.operations.filter (fun op => op.gate.name = "I") = []) :=
  c3_default_allowlist_fallthrough c3Cfg c3Solver rfl 0 [⟨X_GATE, [0]⟩]
    rfl rfl rfl rfl

/-! ### Claim C10 -/

theorem supportedGates_arity (g : Gate) (h : g ∈ supportedGates) :
    g.num_qubits = 1 ∨ g.num_qubits = 2 := by
  unfold supportedGates at h
  simp only [List.mem_cons, List.not_mem_nil, or_false] at h
  rcases h with h | h | h | h | h | h | h | h
  · left; rw [h]; rfl
  · left; rw [h]; rfl
  · left; rw [h]; rfl
  · left; rw [h]; rfl
  · left; rw [h]; rfl
  · left; rw [h]; rfl
  · left; rw [h]; rfl
  · right; rw [h]; rfl

theorem buildOperations_isOk (n : ℕ) (gates : List Gate)
    (h : ∀ g ∈ gates, g.num_qubits = 1 ∨ g.num_qubits = 2) :
    ∃ ops, buildOperations n gates = .ok ops := by
  induction gates with
  | nil => exact ⟨[], rfl⟩
  | cons g rest ih =>
      obtain ⟨ops, hops⟩ := ih (fun g' hm => h g' (List.mem_cons_of_mem _ hm))
      rcases h g (List.mem_cons_self _ _) with h1 | h2
      · refine ⟨((List.range n).map (fun t => GateOperation.mk g [t])) ++ ops, ?_⟩
        unfold buildOperations
        rw [if_pos h1, hops]
        rfl
      · by_cases hn2 : n < 2
        · refine ⟨ops, ?_⟩
          unfold buildOperations
          rw [if_neg (by rw [h2]; norm_num), if_pos h2, if_pos hn2, hops]
        · refine ⟨((List.range n).flatMap (fun c =>
            ((List.range n).filter (fun t => t ≠ c)).map
              (fun t => GateOperation.mk g [c, t]))) ++ ops, ?_⟩
          unfold buildOperations
          rw [if_neg (by rw [h2]; norm_num), if_pos h2, if_neg hn2, hops]
          rfl

theorem checkFixedOperations_ok (n : ℕ) (l : List (ℤ × GateOperation))
    (hvalid : ∀ p ∈ l, 0 ≤ p.1 ∧ ∀ t ∈ p.2.targets, t < n) :
    checkFixedOperations n l = .ok () := by
  induction l with
  | nil => rfl
  | cons p rest ih =>
      match p with
      | (layer, op) =>
          unfold checkFixedOperations
          have hp := hvalid (layer, op) (List.mem_cons_self _ _)
          rw [if_neg (by omega)]
          rw [if_neg (by
            simp only [List.any_eq_true, not_exists, not_and, Bool.not_eq_true]
            intro t ht
            simp [Nat.not_le.mpr (hp.2 t ht)])]
          exact ih (fun p' hm => hvalid p' (List.mem_cons_of_mem _ hm))

theorem checkConflicts_nil_layers (l : List (ℤ × GateOperation)) :
    checkConflicts [] l = .ok () := by
  induction l with
  | nil => rfl
  | cons p rest ih =>
      match p with
      | (layer, op) =>
          unfold checkConflicts
          rw [show List.lookup layer ([] : List (ℤ × List GateOperation)) = none
            from rfl]
          exact ih

/-- C10: a fixed operation whose gate is NOT in the solver alphabet but
whose layer and targets pass validation is accepted by construction,
and the admissible set at its layer is the singleton of that operation
(so a returned sequence may contain a gate outside the alphabet). -/
theorem c10_fixed_gate_outside_alphabet (n : ℕ) (hn : n ≠ 0)
    (alphabet : List String) (gates : List Gate)
    (hg : resolveGateSymbols alphabet = .ok gates)
    (tol : ℝ) (q : ℤ) (fixedList : List (ℤ × GateOperation))
    (hvalid : ∀ p ∈ fixedList, 0 ≤ p.1 ∧ (∀ t ∈ p.2.targets, t < n) ∧ p.2.WF)
    (d : ℤ) (op : GateOperation) (hmem : fixedList.lookup d = some op)
    (hd0 : 0 ≤ d)
    (_houtside : op.gate.name ∉ gates.map Gate.name) :
    ∃ s, mkGateSequenceSolver
        ⟨n, some alphabet, tol, q, some fixedList, none, none⟩ = .ok s ∧
      s.operations_for_depth d.toNat = [op] := by
  have harity : ∀ g ∈ gates, g.num_qubits = 1 ∨ g.num_qubits = 2 := fun g hgm =>
    supportedGates_arity g (resolveGateSymbols_mem alphabet gates hg g hgm)
  obtain ⟨ops, hops⟩ := buildOperations_isOk n gates harity
  have hchk : checkFixedOperations n fixedList = .ok () :=
    checkFixedOperations_ok n fixedList
      (fun p hp => ⟨(hvalid p hp).1, (hvalid p hp).2.1⟩)
  refine ⟨⟨n, tol, q, (10:ℝ) ^ q, gates, ops, buildOpsByGate ops,
    (match (buildOpsByGate ops).lookup "I" with
     | some (op0 :: _) => some op0
     | _ => none),
    fixedList, sortInts (fixedList.map Prod.fst), [], none⟩, ?_, ?_⟩
  · unfold mkGateSequenceSolver
    dsimp only []
    simp only [Option.getD_some, Option.getD_none]
    rw [if_neg hn, hg, exceptBind_ok, hops, exceptBind_ok, hchk, exceptBind_ok]
    rw [show buildLayerSpecific (gates.map Gate.name) (buildOpsByGate ops) [] =
      .ok [] from rfl, exceptBind_ok]
    rw [show (pure (f := Except PyErr)
      (none : Option (List GateOperation))) = Except.ok none from rfl,
      exceptBind_ok]
    rw [checkConflicts_nil_layers, exceptBind_ok]
  · unfold GateSequenceSolver.operations_for_depth
    dsimp only []
    rw [Int.toNat_of_nonneg hd0, hmem]

/-- Witness for C10: pinning `H q0` at layer 0 of an X-only solver is
accepted, and layer 0 admits exactly that H operation. -/
theorem c10_fixed_gate_outside_alphabet_witness :
    ∃ s, mkGateSequenceSolver
        ⟨1, some ["X"], 1e-6, 8, some [((0:ℤ), ⟨H_GATE, [0]⟩)], none, none⟩ =
        .ok s ∧
      s.operations_for_depth (0:ℤ).toNat = [⟨H_GATE, [0]⟩] :=
  c10_fixed_gate_outside_alphabet 1 (by norm_num) ["X"] [X_GATE] rfl
    (1e-6) 8 [((0:ℤ), ⟨H_GATE, [0]⟩)]
    (by
      intro p hp
      rcases List.mem_cons.mp hp with he | hm
      · rw [he]
        refine ⟨by norm_num, ?_, rfl, by simp⟩
        intro t ht
        rcases List.mem_cons.mp ht with he' | hm'
        · rw [he']; norm_num
        · exact absurd hm' (List.not_mem_nil _)
      · exact absurd hm (List.not_mem_nil _))
    0 ⟨H_GATE, [0]⟩ rfl (by norm_num)
    (by
      intro hmem
      rcases List.mem_cons.mp hmem with he | hm
      · have : (GateOperation.mk H_GATE [0]).gate.name = "H" := rfl
        rw [this] at he
        have : X_GATE.name = "X" := rfl
        rw [this] at he
        exact absurd he (by decide)
      · exact absurd hm (List.not_mem_nil _))

/-! ### Claim C5 -/

theorem le_foldl_max (l : List ℤ) (b : ℤ) : b ≤ l.foldl max b := by
  induction l generalizing b with
  | nil => exact le_refl b
  | cons a rest ih => exact le_trans (le_max_left b a) (ih (max b a))

theorem mem_le_foldl_max (l : List ℤ) (b x : ℤ) (h : x ∈ l) :
    x ≤ l.foldl max b := by
  induction l generalizing b with
  | nil => exact absurd h (List.not_mem_nil x)
  | cons a rest ih =>
      rcases List.mem_cons.mp h with he | hm
      · rw [he]
        exact le_trans (le_max_right b a) (le_foldl_max rest (max b a))
      · exact ih (max b a) hm

theorem listMax_ge (l : List ℤ) (x : ℤ) (h : x ∈ l) :
    x ≤ GateSequenceSolver.listMax l :=
  mem_le_foldl_max l (l.headD 0) x h

theorem isEmpty_false_of_mem {α : Type} {l : List α} {x : α} (h : x ∈ l) :
    l.isEmpty = false := by
  cases l with
  | nil => exact absurd h (List.not_mem_nil x)
  | cons a rest => rfl

/-- C5: if any fixed-operation layer index or any per-layer-allowlist
layer index is at least `max_layers`, `solve` fails with the
out-of-range-layer error — before any search, and in particular even
when the start state already satisfies the target. -/
theorem c5_out_of_range_layer (s : GateSequenceSolver)
    (start target : QuantumState) (maxLayers fuel : ℕ)
    (hs : start.num_qubits = s.num_qubits)
    (ht : target.num_qubits = s.num_qubits)
    (hbad : (∃ l ∈ s.fixed_layers, (maxLayers : ℤ) ≤ l) ∨
      (∃ p ∈ s.layer_specific_operations, (maxLayers : ℤ) ≤ p.1)) :
    s.solve start target maxLayers fuel = .error .outOfRangeLayer := by
  unfold GateSequenceSolver.solve
  rw [if_neg (by push_neg; exact ⟨hs, ht⟩)]
  split_ifs with h1 h2
  · rfl
  · rfl
  · exfalso
    rcases hbad with ⟨l, hl, hle⟩ | ⟨p, hp, hle⟩
    · exact h1 ⟨by simp [isEmpty_false_of_mem hl],
        le_trans hle (listMax_ge _ _ hl)⟩
    · have hmem : p.1 ∈ s.layer_specific_operations.map Prod.fst :=
        List.mem_map_of_mem Prod.fst hp
      exact h2 ⟨by simp [isEmpty_false_of_mem hp],
        le_trans hle (listMax_ge _ _ hmem)⟩

/-- The spec scenario S5: a 1-qubit X-only solver with a fixed
X operation pinned at layer 2. -/
noncomputable def c5Cfg : SolverConfig :=
  ⟨1, some ["X"], 1e-6, 8, some [((2 : ℤ), ⟨X_GATE, [0]⟩)], none, none⟩

noncomputable def c5Solver : GateSequenceSolver :=
  ⟨1, 1e-6, 8, (10 : ℝ) ^ (8 : ℤ), [X_GATE], [⟨X_GATE, [0]⟩],
   [("X", [⟨X_GATE, [0]⟩])], none, [((2 : ℤ), ⟨X_GATE, [0]⟩)], [(2 : ℤ)],
   [], none⟩

/-- Witness for C5: the S5 solver (fixed X at layer 2, max_layers 2)
raises the out-of-range-layer error. -/
theorem c5_out_of_range_layer_witness :
    mkGateSequenceSolver c5Cfg = .ok c5Solver ∧
    c5Solver.solve ⟨[1, 0], 1⟩ ⟨[0, 1], 1⟩ 2 5 = .error .outOfRangeLayer :=
  ⟨rfl,
    c5_out_of_range_layer c5Solver ⟨[1, 0], 1⟩ ⟨[0, 1], 1⟩ 2 5 rfl rfl
      (Or.inl ⟨2, by simp [c5Solver], by norm_num⟩)⟩

/-! ### Claim C4 -/

theorem finishFailure_success (start : QuantumState)
    (best : GateSequenceSolver.BestSoFar) (r : SolverResult)
    (h : GateSequenceSolver.finishFailure start best = .ok r) :
    r.success = false := by
  unfold GateSequenceSolver.finishFailure at h
  rcases he : GateSequenceSolver.evolve_states start best.sequence with e | sts
  · rw [he, exceptBind_error] at h
    exact Except.noConfusion h
  · rw [he, exceptBind_ok] at h
    dsimp only [] at h
    have hr := (Except.ok.injEq _ _).mp h
    rw [← hr]

theorem processOps_inl_shape (s : GateSequenceSolver)
    (target start : QuantumState) (maxLayers : ℕ) (stateVector : List ℂ)
    (sequence : List GateOperation) (r : SolverResult) :
    ∀ (ops : List GateOperation) (visited : ℕ → List (List ℤ))
      (best : GateSequenceSolver.BestSoFar)
      (frontier : List GateSequenceSolver.FrontierEntry),
      GateSequenceSolver.processOps s target start maxLayers stateVector
        sequence visited best frontier ops = .ok (.inl r) →
      ∃ op, r.success = true ∧
        r.sequence = s.pad_sequence_to_layers (sequence ++ [op]) maxLayers ∧
        r.layers_used = sequence.length + 1 := by
  intro ops
  induction ops with
  | nil =>
      intro visited best frontier h
      unfold GateSequenceSolver.processOps at h
      exact Sum.noConfusion ((Except.ok.injEq _ _).mp h)
  | cons op rest ih =>
      intro visited best frontier h
      unfold GateSequenceSolver.processOps at h
      rcases ha : GateOperation.apply op stateVector s.num_qubits with e | nv
      · rw [ha, exceptBind_error] at h
        exact Except.noConfusion h
      · rw [ha, exceptBind_ok] at h
        rcases hfa : QuantumState.from_amplitudes nv true with e | ns
        · rw [hfa, exceptBind_error] at h
          exact Except.noConfusion h
        · rw [hfa, exceptBind_ok] at h
          rcases hd : ns.distance target with e | nd
          · rw [hd, exceptBind_error] at h
            exact Except.noConfusion h
          · rw [hd, exceptBind_ok] at h
            dsimp only [] at h
            split at h
            · rcases he : GateSequenceSolver.evolve_states start
                  (s.pad_sequence_to_layers (sequence ++ [op]) maxLayers) with e | sts
              · rw [he, exceptBind_error] at h
                exact Except.noConfusion h
              · rw [he, exceptBind_ok] at h
                rcases hfd : QuantumState.distance (sts.getLastD start.copy) target
                    with e | fd
                · rw [hfd, exceptBind_error] at h
                  exact Except.noConfusion h
                · rw [hfd, exceptBind_ok] at h
                  have hr := Sum.inl.inj ((Except.ok.injEq _ _).mp h)
                  refine ⟨op, ?_, ?_, ?_⟩
                  · rw [← hr]
                  · rw [← hr]
                  · rw [← hr]
                    simp
            · split at h
              · exact ih _ _ _ h
              · exact ih _ _ _ h

theorem solveLoop_ok_success_shape (s : GateSequenceSolver)
    (target start : QuantumState) (maxLayers : ℕ) (r : SolverResult) :
    ∀ (fuel : ℕ) (frontier : List GateSequenceSolver.FrontierEntry)
      (visited : ℕ → List (List ℤ)) (best : GateSequenceSolver.BestSoFar),
      GateSequenceSolver.solveLoop s target start maxLayers frontier visited
        best fuel = .ok r →
      r.success = true →
      ∃ ns : List GateOperation, ns ≠ [] ∧ ns.length ≤ maxLayers ∧
        r.sequence = s.pad_sequence_to_layers ns maxLayers ∧
        r.layers_used = ns.length := by
  intro fuel
  induction fuel with
  | zero =>
      intro frontier visited best h hsucc
      cases frontier with
      | nil =>
          rw [finishFailure_success start best r h] at hsucc
          exact Bool.noConfusion hsucc
      | cons entry rest =>
          rw [finishFailure_success start best r h] at hsucc
          exact Bool.noConfusion hsucc
  | succ fuel ih =>
      intro frontier visited best h hsucc
      cases frontier with
      | nil =>
          rw [finishFailure_success start best r h] at hsucc
          exact Bool.noConfusion hsucc
      | cons entry rest =>
          obtain ⟨sv, seq⟩ := entry
          unfold GateSequenceSolver.solveLoop at h
          dsimp only [] at h
          split at h
          · exact ih rest visited best h hsucc
          · rcases hp : GateSequenceSolver.processOps s target start maxLayers
                sv seq visited best rest (s.operations_for_depth seq.length)
                with e | pres
            · rw [hp, exceptBind_error] at h
              exact Except.noConfusion h
            · rw [hp, exceptBind_ok] at h
              cases pres with
              | inl result =>
                  simp only [] at h
                  obtain ⟨op, _, hseq, hlen⟩ := processOps_inl_shape s target
                    start maxLayers sv seq result _ _ _ _ hp
                  have hr := (Except.ok.injEq _ _).mp h
                  subst hr
                  refine ⟨seq ++ [op], by simp, ?_, hseq, by rw [hlen]; simp⟩
                  simp only [List.length_append, List.length_cons,
                    List.length_nil]
                  omega
              | inr triple =>
                  obtain ⟨v2, b2, f2⟩ := triple
                  simp only [] at h
                  exact ih f2 v2 b2 h hsucc

theorem padLoop_length (s : GateSequenceSolver) :
    ∀ (remaining : ℕ) (padded : List GateOperation) (depth : ℕ),
      (∀ d, depth ≤ d → d < depth + remaining →
        (s.select_identity_for_layer d).isSome = true) →
      (GateSequenceSolver.padLoop s padded depth remaining).length =
        padded.length + remaining := by
  intro remaining
  induction remaining with
  | zero => intro padded depth _; rfl
  | succ rem ih =>
      intro padded depth hid
      rcases hsel : s.select_identity_for_layer depth with _ | op
      · exfalso
        have := hid depth (le_refl depth) (by omega)
        rw [hsel] at this
        simp at this
      · unfold GateSequenceSolver.padLoop
        rw [hsel]
        show (GateSequenceSolver.padLoop s (padded ++ [op]) (depth + 1) rem).length =
          padded.length + (rem + 1)
        rw [ih (padded ++ [op]) (depth + 1) (fun d h1 h2 => hid d (by omega) (by omega))]
        simp only [List.length_append, List.length_cons, List.length_nil]
        omega

theorem pad_sequence_to_layers_length (s : GateSequenceSolver)
    (seq : List GateOperation) (maxLayers : ℕ)
    (hid : ∀ d, seq.length ≤ d → d < maxLayers →
      (s.select_identity_for_layer d).isSome = true) :
    (s.pad_sequence_to_layers seq maxLayers).length = max seq.length maxLayers := by
  unfold GateSequenceSolver.pad_sequence_to_layers
  split
  · next h => omega
  · next h =>
      rw [padLoop_length s (maxLayers - seq.length) seq seq.length
        (fun d h1 h2 => hid d h1 (by omega))]
      omega

theorem distance_self (st : QuantumState) : st.distance st = .ok 0 := by
  unfold QuantumState.distance
  rw [if_neg (by simp), if_neg (by simp)]
  dsimp only []
  simp [sub_self]

/-- C4 (amended): on a successful solve with an identity-like operation
available at every padding layer (the depths from `layers_used` up to
`max_layers`), a result reached through the search loop
(`layers_used ≥ 1`) is padded to exactly `max_layers` operations; but a
zero-step success (start already within tolerance, no fixed layers)
returns the EMPTY sequence without padding, so the original claim fails
in the zero-step case. -/
theorem c4_success_padding (s : GateSequenceSolver) (start target : QuantumState)
    (maxLayers fuel : ℕ) (r : SolverResult)
    (hsolve : s.solve start target maxLayers fuel = .ok r)
    (hsucc : r.success = true)
    (hid : ∀ d, r.layers_used ≤ d → d < maxLayers →
      (s.select_identity_for_layer d).isSome = true) :
    (0 < r.layers_used → r.sequence.length = maxLayers) ∧
    (r.layers_used = 0 → r.sequence = []) := by
  unfold GateSequenceSolver.solve at hsolve
  split at hsolve
  · exact Except.noConfusion hsolve
  · split at hsolve
    · exact Except.noConfusion hsolve
    · split at hsolve
      · exact Except.noConfusion hsolve
      · rcases hd : start.distance target with e | d0
        · rw [hd, exceptBind_error] at hsolve
          exact Except.noConfusion hsolve
        · rw [hd, exceptBind_ok] at hsolve
          split at hsolve
          · have hr := (Except.ok.injEq _ _).mp hsolve
            constructor
            · intro hpos
              rw [← hr] at hpos
              exact absurd hpos (Nat.lt_irrefl 0)
            · intro _
              rw [← hr]
          · obtain ⟨ns, hne, hle, hseq, hlen⟩ :=
              solveLoop_ok_success_shape s target start maxLayers r fuel _ _ _
                hsolve hsucc
            constructor
            · intro _
              rw [hseq, pad_sequence_to_layers_length s ns maxLayers
                (fun d h1 h2 => hid d (by rw [hlen]; exact h1) h2)]
              omega
            · intro h0
              rw [hlen] at h0
              exact absurd (List.length_eq_zero.mp h0) hne

/-- A 1-qubit solver over the alphabet ["X", "I"], no constraints. -/
noncomputable def c4Cfg : SolverConfig :=
  ⟨1, some ["X", "I"], 1e-6, 8, none, none, none⟩

noncomputable def c4Solver : GateSequenceSolver :=
  ⟨1, 1e-6, 8, (10 : ℝ) ^ (8 : ℤ), [X_GATE, ID_GATE],
   [⟨X_GATE, [0]⟩, ⟨ID_GATE, [0]⟩],
   [("X", [⟨X_GATE, [0]⟩]), ("I", [⟨ID_GATE, [0]⟩])],
   some ⟨ID_GATE, [0]⟩, [], [], [], none⟩

/-- Counterexample to C4 as stated: start already equals the target, an
identity operation is available at layer 0 and `max_layers = 1 > 0 =
layers_used`, yet the zero-step early return yields the empty sequence,
not a length-1 padded one. -/
theorem c4_counterexample :
    mkGateSequenceSolver c4Cfg = .ok c4Solver ∧
    ∃ r, c4Solver.solve ⟨[1, 0], 1⟩ ⟨[1, 0], 1⟩ 1 1 = .ok r ∧
      r.success = true ∧ r.layers_used < 1 ∧
      (∀ d, d < 1 → (c4Solver.select_identity_for_layer d).isSome = true) ∧
      r.sequence.length ≠ 1 := by
  refine ⟨rfl, ⟨true, [], 0, ⟨[1, 0], 1⟩, 0, []⟩, ?_, rfl, by norm_num,
    ?_, by norm_num⟩
  · unfold GateSequenceSolver.solve
    rw [if_neg (by push_neg; exact ⟨rfl, rfl⟩), if_neg (fun hh => hh.1 rfl),
      if_neg (fun hh => hh.1 rfl), distance_self, exceptBind_ok,
      if_pos ⟨show (0 : ℝ) ≤ 1e-6 by norm_num, rfl⟩]
    rfl
  · intro d hd
    interval_cases d
    rfl

theorem solveLoop_step (s : GateSequenceSolver) (target start : QuantumState)
    (maxLayers : ℕ) (sv : List ℂ) (seq : List GateOperation)
    (rest : List GateSequenceSolver.FrontierEntry)
    (visited : ℕ → List (List ℤ)) (best : GateSequenceSolver.BestSoFar)
    (fuel : ℕ) (result : SolverResult)
    (hlt : ¬ (maxLayers ≤ seq.length))
    (hp : GateSequenceSolver.processOps s target start maxLayers sv seq visited
      best rest (s.operations_for_depth seq.length) = .ok (.inl result)) :
    GateSequenceSolver.solveLoop s target start maxLayers ((sv, seq) :: rest)
      visited best (fuel + 1) = .ok result := by
  unfold GateSequenceSolver.solveLoop
  dsimp only []
  rw [if_neg hlt, hp, exceptBind_ok]

theorem processOps_step_success (s : GateSequenceSolver)
    (target start : QuantumState) (maxLayers : ℕ) (sv : List ℂ)
    (seq : List GateOperation) (visited : ℕ → List (List ℤ))
    (best : GateSequenceSolver.BestSoFar)
    (frontier : List GateSequenceSolver.FrontierEntry)
    (op : GateOperation) (restOps : List GateOperation) (nv : List ℂ)
    (ns : QuantumState) (nd : ℝ) (sts : List QuantumState) (fd : ℝ)
    (ha : GateOperation.apply op sv s.num_qubits = .ok nv)
    (hfa : QuantumState.from_amplitudes nv true = .ok ns)
    (hd : ns.distance target = .ok nd)
    (hcond : nd ≤ s.tolerance ∧
      s.fixed_layers_satisfied (seq ++ [op]).length = true)
    (he : GateSequenceSolver.evolve_states start
      (s.pad_sequence_to_layers (seq ++ [op]) maxLayers) = .ok sts)
    (hfd : QuantumState.distance (sts.getLastD start.copy) target = .ok fd) :
    GateSequenceSolver.processOps s target start maxLayers sv seq visited best
      frontier (op :: restOps) =
      .ok (.inl ⟨true, s.pad_sequence_to_layers (seq ++ [op]) maxLayers,
        (seq ++ [op]).length, sts.getLastD start.copy, fd, sts⟩) := by
  unfold GateSequenceSolver.processOps
  rw [ha, exceptBind_ok, hfa, exceptBind_ok, hd, exceptBind_ok]
  dsimp only []
  rw [if_pos hcond, he, exceptBind_ok, hfd, exceptBind_ok]

theorem c4_run_eval :
    c4Solver.solve ⟨[1, 0], 1⟩ ⟨[0, 1], 1⟩ 2 1 =
      .ok ⟨true, [⟨X_GATE, [0]⟩, ⟨ID_GATE, [0]⟩], 1, ⟨[0, 1], 1⟩, 0,
        [⟨[0, 1], 1⟩, ⟨[0, 1], 1⟩]⟩ := by
  have happX : GateOperation.apply ⟨X_GATE, [0]⟩ ([1, 0] : List ℂ) 1 =
      .ok [0, 1] := by
    unfold GateOperation.apply
    rw [if_neg (by simp)]
    simp [applyGateMatrix, kernelWrite, maskOf, spreadIdx, dotRow, matVec,
      X_GATE, List.range_succ]
    norm_num [List.set]
  have happI : GateOperation.apply ⟨ID_GATE, [0]⟩ ([0, 1] : List ℂ) 1 =
      .ok [0, 1] := by
    unfold GateOperation.apply
    rw [if_neg (by simp)]
    simp [applyGateMatrix, kernelWrite, maskOf, spreadIdx, dotRow, matVec,
      ID_GATE, List.range_succ]
    norm_num [List.set]
  have hlog : Nat.log2 2 = 1 := by simp [Nat.log2]
  have hval2 : validateDimension 2 = .ok 1 := by
    simp [validateDimension, hlog]
  have hnormsq : normSquaredOf ([0, 1] : List ℂ) = 1 := by
    simp [normSquaredOf]
  have hnorm : pyNormalise ([0, 1] : List ℂ) = .ok [0, 1] := by
    unfold pyNormalise
    rw [hnormsq, if_pos (by unfold pyIsClose; norm_num [max_def])]
  have hfrom : QuantumState.from_amplitudes ([0, 1] : List ℂ) true =
      .ok ⟨[0, 1], 1⟩ := by
    unfold QuantumState.from_amplitudes
    rw [show (([0, 1] : List ℂ)).length = 2 from rfl, hval2, exceptBind_ok,
      if_pos rfl, hnorm, exceptBind_ok]
  have hd0 : QuantumState.distance ⟨([1, 0] : List ℂ), 1⟩ ⟨[0, 1], 1⟩ =
      .ok (Real.sqrt 2) := by
    unfold QuantumState.distance
    rw [if_neg (by simp), if_neg (by simp)]
    dsimp only []
    norm_num [List.range_succ, AbsoluteValue.map_neg, map_one]
  have hsqrt2 : ¬ (Real.sqrt 2 ≤ (1e-6 : ℝ)) := by
    have h1 : (1 : ℝ) ≤ Real.sqrt 2 := by
      rw [show (1 : ℝ) = Real.sqrt 1 from Real.sqrt_one.symm]
      exact Real.sqrt_le_sqrt (by norm_num)
    intro hc
    linarith
  have happX2 : QuantumState.apply ⟨[1, 0], 1⟩ ⟨X_GATE, [0]⟩ =
      .ok ⟨[0, 1], 1⟩ := by
    unfold QuantumState.apply
    dsimp only []
    rw [happX]
    rfl
  have happI2 : QuantumState.apply ⟨[0, 1], 1⟩ ⟨ID_GATE, [0]⟩ =
      .ok ⟨[0, 1], 1⟩ := by
    unfold QuantumState.apply
    dsimp only []
    rw [happI]
    rfl
  have hev : GateSequenceSolver.evolve_states ⟨[1, 0], 1⟩
      [⟨X_GATE, [0]⟩, ⟨ID_GATE, [0]⟩] =
      .ok [⟨[0, 1], 1⟩, ⟨[0, 1], 1⟩] := by
    unfold GateSequenceSolver.evolve_states
    rw [happX2, exceptBind_ok]
    unfold GateSequenceSolver.evolve_states
    rw [happI2, exceptBind_ok]
    rfl
  unfold GateSequenceSolver.solve
  rw [if_neg (by push_neg; exact ⟨rfl, rfl⟩), if_neg (fun hh => hh.1 rfl),
    if_neg (fun hh => hh.1 rfl), hd0, exceptBind_ok,
    if_neg (fun hh => hsqrt2 hh.1)]
  refine solveLoop_step c4Solver ⟨[0, 1], 1⟩ ⟨[1, 0], 1⟩ 2 _ _ _ _ _ 0 _
    (by simp) ?_
  exact processOps_step_success c4Solver ⟨[0, 1], 1⟩ ⟨[1, 0], 1⟩ 2 _ []
    _ _ _ ⟨X_GATE, [0]⟩ [⟨ID_GATE, [0]⟩] [0, 1] ⟨[0, 1], 1⟩ 0
    [⟨[0, 1], 1⟩, ⟨[0, 1], 1⟩] 0 happX hfrom (distance_self _)
    ⟨show (0 : ℝ) ≤ 1e-6 by norm_num, rfl⟩ hev (distance_self _)

/-- Witness for the amended C4: a run over the ["X", "I"] alphabet from
`[1, 0]` to `[0, 1]` with `max_layers = 2` succeeds after one search
layer and is padded to exactly two operations. -/
theorem c4_success_padding_witness :
    (0 < (1 : ℕ) →
      ([(⟨X_GATE, [0]⟩ : GateOperation), ⟨ID_GATE, [0]⟩]).length = 2) ∧
    ((1 : ℕ) = 0 →
      ([(⟨X_GATE, [0]⟩ : GateOperation), ⟨ID_GATE, [0]⟩]) = []) :=
  c4_success_padding c4Solver ⟨[1, 0], 1⟩ ⟨[0, 1], 1⟩ 2 1
    ⟨true, [⟨X_GATE, [0]⟩, ⟨ID_GATE, [0]⟩], 1, ⟨[0, 1], 1⟩, 0,
      [⟨[0, 1], 1⟩, ⟨[0, 1], 1⟩]⟩ c4_run_eval rfl
    (by
      intro d h1 h2
      have h1n : 1 ≤ d := h1
      interval_cases d
      rfl)

/-! ### Claim C1 -/

/-- A 1-qubit solver over the alphabet ["X"], no constraints. -/
noncomputable def c1Cfg : SolverConfig :=
  ⟨1, some ["X"], 1e-6, 8, none, none, none⟩

noncomputable def c1Solver : GateSequenceSolver :=
  ⟨1, 1e-6, 8, (10 : ℝ) ^ (8 : ℤ), [X_GATE], [⟨X_GATE, [0]⟩],
   [("X", [⟨X_GATE, [0]⟩])], none, [], [], [], none⟩

/-- Counterexample to C1 as stated: from the unnormalised start `[2, 0]`
the search succeeds (the success test renormalises each candidate state),
but `final_state` is re-evolved from the raw start without
renormalisation, so the reported distance of the success result is 1,
far above the tolerance 1e-6. -/
theorem c1_counterexample :
    mkGateSequenceSolver c1Cfg = .ok c1Solver ∧
    ∃ r, c1Solver.solve ⟨[2, 0], 1⟩ ⟨[0, 1], 1⟩ 1 1 = .ok r ∧
      r.success = true ∧
      QuantumState.distance r.final_state ⟨[0, 1], 1⟩ = .ok r.distance ∧
      ¬ (r.distance ≤ c1Solver.tolerance) := by
  have happX20 : GateOperation.apply ⟨X_GATE, [0]⟩ ([2, 0] : List ℂ) 1 =
      .ok [0, 2] := by
    unfold GateOperation.apply
    rw [if_neg (by simp)]
    simp [applyGateMatrix, kernelWrite, maskOf, spreadIdx, dotRow, matVec,
      X_GATE, List.range_succ]
  have hlog : Nat.log2 2 = 1 := by simp [Nat.log2]
  have hval2 : validateDimension 2 = .ok 1 := by
    simp [validateDimension, hlog]
  have hnormsq4 : normSquaredOf ([0, 2] : List ℂ) = 4 := by
    simp [normSquaredOf, Complex.abs_two]
    norm_num
  have hsqrt4 : Real.sqrt 4 = 2 := by
    rw [show (4 : ℝ) = 2 ^ 2 by norm_num, Real.sqrt_sq (by norm_num)]
  have hnorm02 : pyNormalise ([0, 2] : List ℂ) = .ok [0, 1] := by
    unfold pyNormalise
    rw [hnormsq4, if_neg (by unfold pyIsClose; norm_num [max_def]),
      if_neg (by unfold pyIsClose; norm_num [max_def]), hsqrt4]
    norm_num
  have hfrom02 : QuantumState.from_amplitudes ([0, 2] : List ℂ) true =
      .ok ⟨[0, 1], 1⟩ := by
    unfold QuantumState.from_amplitudes
    rw [show (([0, 2] : List ℂ)).length = 2 from rfl, hval2, exceptBind_ok,
      if_pos rfl, hnorm02, exceptBind_ok]
  have hfd1 : QuantumState.distance ⟨([0, 2] : List ℂ), 1⟩ ⟨[0, 1], 1⟩ =
      .ok 1 := by
    unfold QuantumState.distance
    rw [if_neg (by simp), if_neg (by simp)]
    dsimp only []
    norm_num [List.range_succ, map_one]
  have hd5 : QuantumState.distance ⟨([2, 0] : List ℂ), 1⟩ ⟨[0, 1], 1⟩ =
      .ok (Real.sqrt 5) := by
    unfold QuantumState.distance
    rw [if_neg (by simp), if_neg (by simp)]
    dsimp only []
    norm_num [List.range_succ, AbsoluteValue.map_neg, map_one,
      Complex.abs_two]
  have hsqrt5 : ¬ (Real.sqrt 5 ≤ (1e-6 : ℝ)) := by
    have h1 : (1 : ℝ) ≤ Real.sqrt 5 := by
      rw [show (1 : ℝ) = Real.sqrt 1 from Real.sqrt_one.symm]
      exact Real.sqrt_le_sqrt (by norm_num)
    intro hc
    linarith
  have happX20q : QuantumState.apply ⟨[2, 0], 1⟩ ⟨X_GATE, [0]⟩ =
      .ok ⟨[0, 2], 1⟩ := by
    unfold QuantumState.apply
    dsimp only []
    rw [happX20]
    rfl
  have hev : GateSequenceSolver.evolve_states ⟨[2, 0], 1⟩ [⟨X_GATE, [0]⟩] =
      .ok [⟨[0, 2], 1⟩] := by
    unfold GateSequenceSolver.evolve_states
    rw [happX20q, exceptBind_ok]
    rfl
  refine ⟨rfl, ⟨true, [⟨X_GATE, [0]⟩], 1, ⟨[0, 2], 1⟩, 1, [⟨[0, 2], 1⟩]⟩,
    ?_, rfl, hfd1, by norm_num [c1Solver]⟩
  unfold GateSequenceSolver.solve
  rw [if_neg (by push_neg; exact ⟨rfl, rfl⟩), if_neg (fun hh => hh.1 rfl),
    if_neg (fun hh => hh.1 rfl), hd5, exceptBind_ok,
    if_neg (fun hh => hsqrt5 hh.1)]
  refine solveLoop_step c1Solver ⟨[0, 1], 1⟩ ⟨[2, 0], 1⟩ 1 _ _ _ _ _ 0 _
    (by simp) ?_
  exact processOps_step_success c1Solver ⟨[0, 1], 1⟩ ⟨[2, 0], 1⟩ 1 _ []
    _ _ _ ⟨X_GATE, [0]⟩ [] [0, 2] ⟨[0, 1], 1⟩ 0 [⟨[0, 2], 1⟩] 1
    happX20 hfrom02 (distance_self _)
    ⟨show (0 : ℝ) ≤ 1e-6 by norm_num, rfl⟩ hev hfd1

theorem lookup_eq_some_mem {α β : Type} [BEq α] [LawfulBEq α]
    (k : α) (l : List (α × β)) (v : β) (h : l.lookup k = some v) :
    (k, v) ∈ l := by
  induction l with
  | nil => exact Option.noConfusion h
  | cons p rest ih =>
      unfold List.lookup at h
      cases hb : k == p.1 with
      | true =>
          rw [hb] at h
          simp only [] at h
          injection h with h
          have hk : k = p.1 := eq_of_beq hb
          rw [hk, ← h]
          exact List.mem_cons_self _ _
      | false =>
          rw [hb] at h
          simp only [] at h
          exact List.mem_cons_of_mem _ (ih h)

theorem getLastD_append {α : Type} (l1 l2 : List α) (d : α) :
    (l1 ++ l2).getLastD d = l2.getLastD (l1.getLastD d) := by
  induction l1 generalizing d with
  | nil => rfl
  | cons a rest ih =>
      rw [List.cons_append, List.getLastD_cons, ih a, List.getLastD_cons]

theorem validateDimension_pow (n : ℕ) : validateDimension (2 ^ n) = .ok n := by
  unfold validateDimension
  rw [if_neg (by positivity)]
  dsimp only []
  rw [Nat.log2_two_pow, if_neg (by simp)]

theorem from_amplitudes_of_norm_one (v : List ℂ) (n : ℕ)
    (hlen : v.length = 2 ^ n) (hn : normSquaredOf v = 1) :
    QuantumState.from_amplitudes v true = .ok ⟨v, n⟩ := by
  have hnorm : pyNormalise v = .ok v := by
    unfold pyNormalise
    rw [hn, if_pos (by unfold pyIsClose; norm_num [max_def])]
  unfold QuantumState.from_amplitudes
  rw [hlen, validateDimension_pow, exceptBind_ok, if_pos rfl, hnorm,
    exceptBind_ok]

/-- An operation whose targets are valid for `n` qubits and whose gate
matrix is a square of the operation arity's dimension with exactly
orthonormal rows (the exact-real counterpart of what the Python
`Gate`/`GateOperation` constructors enforce). -/
def UnitaryOp (n : ℕ) (op : GateOperation) : Prop :=
  op.targets.Nodup ∧ (∀ q ∈ op.targets, q < n) ∧
  op.gate.matrix.length = 2 ^ op.targets.length ∧
  (∀ row ∈ op.gate.matrix, row.length = 2 ^ op.targets.length) ∧
  ∀ a b, a < 2 ^ op.targets.length → b < 2 ^ op.targets.length →
    (∑ c ∈ Finset.range (2 ^ op.targets.length),
      (op.gate.matrix.getD a []).getD c 0 *
        (starRingEnd ℂ) ((op.gate.matrix.getD b []).getD c 0)) =
    if a = b then 1 else 0

theorem unitaryOp_apply (n : ℕ) (op : GateOperation) (v : List ℂ)
    (hg : UnitaryOp n op) (hlen : v.length = 2 ^ n) :
    ∃ out, GateOperation.apply op v n = .ok out ∧ out.length = 2 ^ n ∧
      normSquaredOf out = normSquaredOf v := by
  obtain ⟨hnd, hlt, hM, hrows, hU⟩ := hg
  have happ : applyGateMatrix v op.gate.matrix op.targets n =
      .ok ((List.range (2 ^ n)).map (kernelEntry v op.gate.matrix op.targets)) :=
    applyGateMatrix_char v _ _ n hnd hlt hM hrows
  refine ⟨_, ?_, by simp, normSquaredOf_applyGateMatrix v _ _ n hnd hlt hM
    hrows hlen hU _ happ⟩
  unfold GateOperation.apply
  rw [if_neg (by rw [hlen]; exact fun hh => hh rfl)]
  exact happ

theorem supported_op_unitary (n : ℕ) (gates : List Gate)
    (ops : List GateOperation)
    (hg : ∀ g ∈ gates, g ∈ supportedGates)
    (hb : buildOperations n gates = .ok ops) :
    ∀ op ∈ ops, UnitaryOp n op := by
  intro op hop
  obtain ⟨hgate, hshape⟩ := buildOperations_mem n gates ops hb op hop
  have hsup := hg _ hgate
  have h1 : ∀ g : Gate, op.gate = g → g.num_qubits = 1 →
      g.matrix.length = 2 → (∀ row ∈ g.matrix, row.length = 2) →
      (∀ a b, a < 2 → b < 2 →
        (∑ c ∈ Finset.range 2, (g.matrix.getD a []).getD c 0 *
          (starRingEnd ℂ) ((g.matrix.getD b []).getD c 0)) =
        if a = b then 1 else 0) →
      UnitaryOp n op := by
    intro g hge har hlen2 hrows hU
    rcases hshape with ⟨ha1, t, ht, hts⟩ | ⟨ha2, _⟩
    · refine ⟨by rw [hts]; simp, ?_, ?_, ?_, ?_⟩
      · intro q hq
        rw [hts] at hq
        rcases List.mem_cons.mp hq with he | hm
        · rw [he]; exact ht
        · exact absurd hm (List.not_mem_nil _)
      · rw [hts, hge]
        exact hlen2
      · rw [hts, hge]
        intro row hr
        exact hrows row hr
      · rw [hts, hge]
        intro a b ha hb2
        exact hU a b ha hb2
    · rw [hge, har] at ha2
      exact absurd ha2 (by norm_num)
  have h2 : ∀ g : Gate, op.gate = g → g.num_qubits = 2 →
      g.matrix.length = 4 → (∀ row ∈ g.matrix, row.length = 4) →
      (∀ a b, a < 4 → b < 4 →
        (∑ c ∈ Finset.range 4, (g.matrix.getD a []).getD c 0 *
          (starRingEnd ℂ) ((g.matrix.getD b []).getD c 0)) =
        if a = b then 1 else 0) →
      UnitaryOp n op := by
    intro g hge har hlen4 hrows hU
    rcases hshape with ⟨ha1, _⟩ | ⟨ha2, c, t, hc, ht, hne, hts⟩
    · rw [hge, har] at ha1
      exact absurd ha1 (by norm_num)
    · refine ⟨by rw [hts]; simp [hne], ?_, ?_, ?_, ?_⟩
      · intro q hq
        rw [hts] at hq
        rcases List.mem_cons.mp hq with he | hm
        · rw [he]; exact hc
        · rcases List.mem_cons.mp hm with he2 | hm2
          · rw [he2]; exact ht
          · exact absurd hm2 (List.not_mem_nil _)
      · rw [hts, hge]
        exact hlen4
      · rw [hts, hge]
        intro row hr
        exact hrows row hr
      · rw [hts, hge]
        intro a b ha hb2
        exact hU a b ha hb2
  simp only [supportedGates, List.mem_cons, List.not_mem_nil, or_false] at hsup
  rcases hsup with h|h|h|h|h|h|h|h
  · exact h1 X_GATE h rfl rfl (by intro row hr; fin_cases hr <;> rfl)
      xGate_unitary
  · exact h1 Y_GATE h rfl rfl (by intro row hr; fin_cases hr <;> rfl)
      yGate_unitary
  · exact h1 Z_GATE h rfl rfl (by intro row hr; fin_cases hr <;> rfl)
      zGate_unitary
  · exact h1 H_GATE h rfl rfl (by intro row hr; fin_cases hr <;> rfl)
      hGate_unitary
  · exact h1 S_GATE h rfl rfl (by intro row hr; fin_cases hr <;> rfl)
      sGate_unitary
  · exact h1 T_GATE h rfl rfl (by intro row hr; fin_cases hr <;> rfl)
      tGate_unitary
  · exact h1 ID_GATE h rfl rfl (by intro row hr; fin_cases hr <;> rfl)
      idGate_unitary
  · exact h2 CNOT_GATE h rfl rfl (by intro row hr; fin_cases hr <;> rfl)
      cnotGate_unitary

theorem supported_name_I (g : Gate) (hg : g ∈ supportedGates)
    (hn : g.name = "I") : g = ID_GATE := by
  simp only [supportedGates, List.mem_cons, List.not_mem_nil, or_false] at hg
  rcases hg with h|h|h|h|h|h|h|h
  · rw [h] at hn; simp [X_GATE] at hn
  · rw [h] at hn; simp [Y_GATE] at hn
  · rw [h] at hn; simp [Z_GATE] at hn
  · rw [h] at hn; simp [H_GATE] at hn
  · rw [h] at hn; simp [S_GATE] at hn
  · rw [h] at hn; simp [T_GATE] at hn
  · exact h
  · rw [h] at hn; simp [CNOT_GATE] at hn

theorem idOp_apply (n t : ℕ) (ht : t < n) (st : QuantumState)
    (hq : st.num_qubits = n) (hlen : st.amplitudes.length = 2 ^ n) :
    QuantumState.apply st ⟨ID_GATE, [t]⟩ = .ok st := by
  have happ : applyGateMatrix st.amplitudes ID_GATE.matrix [t] n =
      .ok st.amplitudes :=
    applyGateMatrix_identity st.amplitudes ID_GATE.matrix [t] n (by simp)
      (by intro q hq'
          rcases List.mem_cons.mp hq' with he | hm
          · rw [he]; exact ht
          · exact absurd hm (List.not_mem_nil _))
      rfl (by intro row hr; fin_cases hr <;> rfl) hlen
      (fun a b ha hb => idGate_entries a b (by simpa using ha)
        (by simpa using hb))
  have happ' : applyGateMatrix st.amplitudes ID_GATE.matrix [t]
      st.num_qubits = .ok st.amplitudes := by
    rw [hq]; exact happ
  unfold QuantumState.apply
  unfold GateOperation.apply
  rw [if_neg (by rw [hlen, hq]; exact fun hh => hh rfl)]
  rw [happ', exceptBind_ok]

theorem mk_operations_unitary (cfg : SolverConfig) (s : GateSequenceSolver)
    (hmk : mkGateSequenceSolver cfg = .ok s) :
    ∀ op ∈ s.operations, UnitaryOp s.num_qubits op := by
  obtain ⟨_, hnq, _, _, _, hres, hbuild, _⟩ := mkGateSequenceSolver_inv cfg s hmk
  intro op hop
  have := supported_op_unitary cfg.num_qubits s.gates s.operations
    (resolveGateSymbols_mem _ _ hres) hbuild op hop
  rwa [hnq]

theorem mk_layer_bucket_sub (cfg : SolverConfig) (s : GateSequenceSolver)
    (hmk : mkGateSequenceSolver cfg = .ok s) (key : ℤ)
    (cs : List GateOperation)
    (h : s.layer_specific_operations.lookup key = some cs) :
    ∀ o ∈ cs, o ∈ s.operations := by
  obtain ⟨_, _, _, _, _, _, _, _, _, _, _, _, hlayer, _⟩ :=
    mkGateSequenceSolver_inv cfg s hmk
  have hch := buildLayerSpecific_lookup s.operations _ _ _ hlayer key
  rw [h] at hch
  rcases he : ((cfg.layer_gate_allowlists.getD []).lookup key) with _ | allowed
  · rw [he] at hch
    exact Option.noConfusion hch
  · rw [he, Option.map_some'] at hch
    injection hch with hch
    intro o ho
    rw [hch] at ho
    obtain ⟨nm, _, hmem2⟩ := List.mem_flatMap.mp ho
    exact (List.mem_filter.mp hmem2).1

theorem mk_default_sub (cfg : SolverConfig) (s : GateSequenceSolver)
    (hmk : mkGateSequenceSolver cfg = .ok s) (dops : List GateOperation)
    (h : s.default_layer_operations = some dops) :
    ∀ o ∈ dops, o ∈ s.operations := by
  obtain ⟨_, _, _, _, _, _, _, _, _, _, _, _, _, hdef⟩ :=
    mkGateSequenceSolver_inv cfg s hmk
  rcases hcd : cfg.default_layer_gate_allowlist with _ | allowed
  · rw [hcd] at hdef
    simp only [] at hdef
    rw [h] at hdef
    exact Option.noConfusion hdef
  · rw [hcd] at hdef
    simp only [] at hdef
    obtain ⟨dops2, hball, hdeq⟩ := hdef
    rw [h] at hdeq
    injection hdeq with hdeq
    have hflat := buildAllowlistOps_ok s.operations _ allowed dops2 hball
    intro o ho
    rw [hdeq, hflat] at ho
    obtain ⟨nm, _, hmem2⟩ := List.mem_flatMap.mp ho
    exact (List.mem_filter.mp hmem2).1

theorem mk_operations_for_depth_sources (cfg : SolverConfig)
    (s : GateSequenceSolver) (hmk : mkGateSequenceSolver cfg = .ok s)
    (d : ℕ) :
    ∀ op ∈ s.operations_for_depth d,
      op ∈ s.operations ∨ ∃ p ∈ s.fixed_operations, p.2 = op := by
  intro op hop
  unfold GateSequenceSolver.operations_for_depth at hop
  rcases hf : s.fixed_operations.lookup (d : ℤ) with _ | fo
  · rw [hf] at hop
    simp only [] at hop
    rcases hl : s.layer_specific_operations.lookup (d : ℤ) with _ | cs
    · rw [hl] at hop
      simp only [] at hop
      rcases hdo : s.default_layer_operations with _ | dops
      · rw [hdo] at hop
        simp only [] at hop
        exact Or.inl hop
      · rw [hdo] at hop
        simp only [] at hop
        exact Or.inl (mk_default_sub cfg s hmk dops hdo op hop)
    · rw [hl] at hop
      simp only [] at hop
      exact Or.inl (mk_layer_bucket_sub cfg s hmk _ cs hl op hop)
  · rw [hf] at hop
    simp only [] at hop
    rcases List.mem_cons.mp hop with he | hm
    · exact Or.inr ⟨((d : ℤ), fo), lookup_eq_some_mem _ _ _ hf, he.symm⟩
    · exact absurd hm (List.not_mem_nil _)

theorem mk_select_identity_sources (cfg : SolverConfig)
    (s : GateSequenceSolver) (hmk : mkGateSequenceSolver cfg = .ok s)
    (d : ℕ) (op : GateOperation)
    (hnofix : s.fixed_operations.lookup (d : ℤ) = none)
    (hsel : s.select_identity_for_layer d = some op) :
    op ∈ s.operations ∧ op.gate.name = "I" := by
  obtain ⟨_, _, _, _, _, _, _, _, hidop, _, _, _, _, _⟩ :=
    mkGateSequenceSolver_inv cfg s hmk
  have hfind_ops : ∀ op1 : GateOperation,
      s.operations.find? (fun o => o.gate.name = "I") = some op1 →
      op1 ∈ s.operations ∧ op1.gate.name = "I" := by
    intro op1 h
    exact ⟨List.mem_of_find?_eq_some h, by simpa using List.find?_some h⟩
  have hfallback : ∀ op1 : GateOperation, s.identity_operation = some op1 →
      op1 ∈ s.operations ∧ op1.gate.name = "I" := by
    intro op1 h
    rw [h, lookup_buildOpsByGate] at hidop
    by_cases hfe : (s.operations.filter (fun o => o.gate.name = "I")).isEmpty
    · rw [if_pos hfe] at hidop
      simp only [] at hidop
      exact Option.noConfusion hidop
    · rw [if_neg hfe] at hidop
      rcases hfl : s.operations.filter (fun o => o.gate.name = "I")
          with _ | ⟨op0, rest⟩
      · rw [hfl] at hfe
        exact absurd rfl hfe
      · rw [hfl] at hidop
        simp only [] at hidop
        injection hidop with hidop
        have hop0 : op0 ∈ s.operations.filter (fun o => o.gate.name = "I") := by
          rw [hfl]
          exact List.mem_cons_self _ _
        have hsplit := List.mem_filter.mp hop0
        rw [hidop]
        exact ⟨hsplit.1, by simpa using hsplit.2⟩
  have hid_branch : ∀ op1 : GateOperation,
      (match s.identity_operation with
       | some op0 => some op0
       | none => s.operations.find? (fun o => o.gate.name = "I")) = some op1 →
      op1 ∈ s.operations ∧ op1.gate.name = "I" := by
    intro op1 h
    rcases hio : s.identity_operation with _ | iop
    · rw [hio] at h
      simp only [] at h
      exact hfind_ops op1 h
    · rw [hio] at h
      simp only [] at h
      injection h with h
      rw [← h]
      exact hfallback iop hio
  unfold GateSequenceSolver.select_identity_for_layer at hsel
  rw [hnofix] at hsel
  simp only [] at hsel
  rcases hl : s.layer_specific_operations.lookup (d : ℤ) with _ | cs
  · rw [hl] at hsel
    simp only [] at hsel
    rcases hdo : s.default_layer_operations with _ | dops
    · rw [hdo] at hsel
      simp only [] at hsel
      exact hid_branch op hsel
    · rw [hdo] at hsel
      simp only [] at hsel
      rcases hfind : dops.find? (fun o => o.gate.name = "I") with _ | fop
      · rw [hfind] at hsel
        simp only [] at hsel
        exact hid_branch op hsel
      · rw [hfind] at hsel
        simp only [] at hsel
        injection hsel with hsel
        rw [← hsel]
        refine ⟨mk_default_sub cfg s hmk dops hdo fop
          (List.mem_of_find?_eq_some hfind), ?_⟩
        simpa using List.find?_some hfind
  · rw [hl] at hsel
    simp only [] at hsel
    refine ⟨mk_layer_bucket_sub cfg s hmk _ cs hl op
      (List.mem_of_find?_eq_some hsel), ?_⟩
    simpa using List.find?_some hsel

theorem mk_pad_op_identity (cfg : SolverConfig) (s : GateSequenceSolver)
    (hmk : mkGateSequenceSolver cfg = .ok s) (d : ℕ) (op : GateOperation)
    (hnofix : s.fixed_operations.lookup (d : ℤ) = none)
    (hsel : s.select_identity_for_layer d = some op) :
    op.gate = ID_GATE ∧ ∃ t, t < s.num_qubits ∧ op.targets = [t] := by
  obtain ⟨hmem, hname⟩ := mk_select_identity_sources cfg s hmk d op hnofix hsel
  obtain ⟨_, hnq, _, _, _, hres, hbuild, _⟩ := mkGateSequenceSolver_inv cfg s hmk
  obtain ⟨hgate, hshape⟩ := buildOperations_mem _ _ _ hbuild op hmem
  have hidg : op.gate = ID_GATE :=
    supported_name_I _ (resolveGateSymbols_mem _ _ hres _ hgate) hname
  refine ⟨hidg, ?_⟩
  rcases hshape with ⟨_, t, ht, hts⟩ | ⟨ha2, _⟩
  · exact ⟨t, by rw [hnq]; exact ht, hts⟩
  · rw [hidg] at ha2
    simp [ID_GATE] at ha2

theorem fixed_lookup_none_of_satisfied (s : GateSequenceSolver)
    (hfl : s.fixed_layers = sortInts (s.fixed_operations.map Prod.fst))
    (L : ℕ) (hsat : s.fixed_layers_satisfied L = true)
    (d : ℕ) (hd : L ≤ d) :
    s.fixed_operations.lookup (d : ℤ) = none := by
  rcases hlk : s.fixed_operations.lookup (d : ℤ) with _ | v
  · rfl
  · exfalso
    have hmem := lookup_eq_some_mem _ _ _ hlk
    have hkey : (d : ℤ) ∈ s.fixed_operations.map Prod.fst :=
      List.mem_map_of_mem Prod.fst hmem
    have hinfl : (d : ℤ) ∈ s.fixed_layers := by
      rw [hfl]
      exact (mem_sortInts _ _).mpr hkey
    unfold GateSequenceSolver.fixed_layers_satisfied at hsat
    by_cases hemp : s.fixed_layers.isEmpty
    · have h1 := isEmpty_false_of_mem hinfl
      rw [h1] at hemp
      exact Bool.noConfusion hemp
    · rw [if_neg hemp] at hsat
      dsimp only [] at hsat
      rw [List.all_eq_true] at hsat
      have := hsat _ hinfl
      simp only [decide_eq_true_eq] at this
      omega

theorem fixed_ops_nil_of_layers_empty (s : GateSequenceSolver)
    (hfl : s.fixed_layers = sortInts (s.fixed_operations.map Prod.fst))
    (h : s.fixed_layers.isEmpty = true) : s.fixed_operations = [] := by
  rcases hfo : s.fixed_operations with _ | ⟨p, rest⟩
  · rfl
  · exfalso
    have hm1 : p.1 ∈ s.fixed_operations.map Prod.fst := by
      rw [hfo]
      exact List.mem_map_of_mem Prod.fst (List.mem_cons_self _ _)
    have h2 : p.1 ∈ s.fixed_layers := by
      rw [hfl]
      exact (mem_sortInts _ _).mpr hm1
    rw [isEmpty_false_of_mem h2] at h
    exact Bool.noConfusion h

theorem padLoop_suffix (s : GateSequenceSolver) :
    ∀ (rem : ℕ) (padded : List GateOperation) (depth : ℕ),
      ∃ pads, GateSequenceSolver.padLoop s padded depth rem = padded ++ pads ∧
        ∀ op ∈ pads, ∃ d, depth ≤ d ∧
          s.select_identity_for_layer d = some op := by
  intro rem
  induction rem with
  | zero =>
      intro padded depth
      exact ⟨[], by simp [GateSequenceSolver.padLoop],
        fun op h => absurd h (List.not_mem_nil _)⟩
  | succ rem ih =>
      intro padded depth
      rcases hsel : s.select_identity_for_layer depth with _ | op0
      · refine ⟨[], ?_, fun op h => absurd h (List.not_mem_nil _)⟩
        unfold GateSequenceSolver.padLoop
        rw [hsel]
        simp
      · obtain ⟨pads, heq, hall⟩ := ih (padded ++ [op0]) (depth + 1)
        refine ⟨op0 :: pads, ?_, ?_⟩
        · unfold GateSequenceSolver.padLoop
          rw [hsel]
          show GateSequenceSolver.padLoop s (padded ++ [op0]) (depth + 1) rem =
            padded ++ op0 :: pads
          rw [heq]
          simp
        · intro op h
          rcases List.mem_cons.mp h with he | hm
          · refine ⟨depth, le_refl _, ?_⟩
            rw [← he] at hsel
            exact hsel
          · obtain ⟨d, hd1, hd2⟩ := hall op hm
            exact ⟨d, by omega, hd2⟩

theorem pad_suffix (s : GateSequenceSolver) (seq : List GateOperation)
    (maxLayers : ℕ) :
    ∃ pads, s.pad_sequence_to_layers seq maxLayers = seq ++ pads ∧
      ∀ op ∈ pads, ∃ d, seq.length ≤ d ∧
        s.select_identity_for_layer d = some op := by
  unfold GateSequenceSolver.pad_sequence_to_layers
  split
  · exact ⟨[], by simp, fun op h => absurd h (List.not_mem_nil _)⟩
  · exact padLoop_suffix s _ seq seq.length

theorem evolve_states_append (l1 l2 : List GateOperation)
    (start : QuantumState) (sts1 sts2 : List QuantumState)
    (h1 : GateSequenceSolver.evolve_states start l1 = .ok sts1)
    (h2 : GateSequenceSolver.evolve_states (sts1.getLastD start) l2 = .ok sts2) :
    GateSequenceSolver.evolve_states start (l1 ++ l2) = .ok (sts1 ++ sts2) := by
  induction l1 generalizing start sts1 with
  | nil =>
      injection h1 with h1
      rw [← h1] at h2
      rw [← h1]
      simpa using h2
  | cons op rest ih =>
      rw [List.cons_append]
      unfold GateSequenceSolver.evolve_states at h1 ⊢
      rcases ha : start.apply op with e | next
      · rw [ha, exceptBind_error] at h1
        exact Except.noConfusion h1
      · rw [ha, exceptBind_ok] at h1
        rw [exceptBind_ok]
        rcases hr : GateSequenceSolver.evolve_states next rest with e | stsr
        · rw [hr, exceptBind_error] at h1
          exact Except.noConfusion h1
        · rw [hr, exceptBind_ok] at h1
          injection h1 with h1
          rw [← h1] at h2
          rw [List.getLastD_cons] at h2
          rw [ih next stsr hr h2, exceptBind_ok]
          rw [← h1]
          rfl

theorem evolve_identity_pads (n : ℕ) (st : QuantumState)
    (hq : st.num_qubits = n) (hlen : st.amplitudes.length = 2 ^ n) :
    ∀ (pads : List GateOperation),
      (∀ op ∈ pads, op.gate = ID_GATE ∧ ∃ t, t < n ∧ op.targets = [t]) →
      ∃ sts, GateSequenceSolver.evolve_states st pads = .ok sts ∧
        sts.getLastD st = st := by
  intro pads
  induction pads with
  | nil => exact fun _ => ⟨[], rfl, rfl⟩
  | cons op rest ih =>
      intro hall
      obtain ⟨hgate, t, ht, hts⟩ := hall op (List.mem_cons_self _ _)
      have hop : op = ⟨ID_GATE, [t]⟩ := by
        cases op
        simp only [] at hgate hts
        rw [hgate, hts]
      have happ : st.apply op = .ok st := by
        rw [hop]
        exact idOp_apply n t ht st hq hlen
      obtain ⟨sts, hev, hlast⟩ :=
        ih (fun op2 h2 => hall op2 (List.mem_cons_of_mem _ h2))
      refine ⟨st :: sts, ?_, ?_⟩
      · unfold GateSequenceSolver.evolve_states
        rw [happ, exceptBind_ok, hev, exceptBind_ok]
      · rw [List.getLastD_cons]
        exact hlast

theorem success_final_state (cfg : SolverConfig) (s : GateSequenceSolver)
    (hmk : mkGateSequenceSolver cfg = .ok s)
    (start : QuantumState) (ns : List GateOperation) (maxLayers : ℕ)
    (sts0 : List QuantumState)
    (hev0 : GateSequenceSolver.evolve_states start ns = .ok sts0)
    (hsat : s.fixed_layers_satisfied ns.length = true)
    (hq : (sts0.getLastD start).num_qubits = s.num_qubits)
    (hlen : (sts0.getLastD start).amplitudes.length = 2 ^ s.num_qubits) :
    ∃ sts, GateSequenceSolver.evolve_states start
        (s.pad_sequence_to_layers ns maxLayers) = .ok sts ∧
      sts.getLastD start = sts0.getLastD start ∧
      ns.length ≤ (s.pad_sequence_to_layers ns maxLayers).length := by
  obtain ⟨pads, hpe, hpads⟩ := pad_suffix s ns maxLayers
  obtain ⟨_, _, _, _, _, _, _, _, _, _, _, hfl, _, _⟩ :=
    mkGateSequenceSolver_inv cfg s hmk
  have hpad_id : ∀ op ∈ pads, op.gate = ID_GATE ∧
      ∃ t, t < s.num_qubits ∧ op.targets = [t] := by
    intro op hop
    obtain ⟨d, hd1, hd2⟩ := hpads op hop
    exact mk_pad_op_identity cfg s hmk d op
      (fixed_lookup_none_of_satisfied s hfl ns.length hsat d hd1) hd2
  obtain ⟨stsP, hevP, hlastP⟩ :=
    evolve_identity_pads s.num_qubits (sts0.getLastD start) hq hlen pads hpad_id
  refine ⟨sts0 ++ stsP, ?_, ?_, ?_⟩
  · rw [hpe]
    exact evolve_states_append ns pads start sts0 stsP hev0 hevP
  · rw [getLastD_append]
    exact hlastP
  · rw [hpe]
    simp

/-- Invariant of a search-frontier entry: its vector is exactly the raw
evolution of the start state through its sequence, with unit norm
square and the full state dimension. -/
def EntryInv (start : QuantumState) (n : ℕ)
    (e : GateSequenceSolver.FrontierEntry) : Prop :=
  ∃ sts, GateSequenceSolver.evolve_states start e.2 = .ok sts ∧
    (sts.getLastD start).amplitudes = e.1 ∧
    (sts.getLastD start).num_qubits = n ∧
    e.1.length = 2 ^ n ∧ normSquaredOf e.1 = 1

theorem processOps_c1 (cfg : SolverConfig) (s : GateSequenceSolver)
    (hmk : mkGateSequenceSolver cfg = .ok s)
    (target start : QuantumState) (maxLayers : ℕ) :
    ∀ (ops : List GateOperation) (sv : List ℂ) (seq : List GateOperation)
      (visited : ℕ → List (List ℤ)) (best : GateSequenceSolver.BestSoFar)
      (frontier : List GateSequenceSolver.FrontierEntry)
      (res : SolverResult ⊕ ((ℕ → List (List ℤ)) ×
        GateSequenceSolver.BestSoFar × List GateSequenceSolver.FrontierEntry)),
      (∀ op ∈ ops, UnitaryOp s.num_qubits op) →
      EntryInv start s.num_qubits (sv, seq) →
      (∀ e ∈ frontier, EntryInv start s.num_qubits e) →
      GateSequenceSolver.processOps s target start maxLayers sv seq visited
        best frontier ops = .ok res →
      (∀ r, res = .inl r →
        QuantumState.distance r.final_state target = .ok r.distance ∧
        r.distance ≤ s.tolerance ∧
        s.fixed_layers_satisfied r.layers_used = true ∧
        r.layers_used ≤ r.sequence.length) ∧
      (∀ v b f, res = .inr (v, b, f) →
        ∀ e ∈ f, EntryInv start s.num_qubits e) := by
  intro ops
  induction ops with
  | nil =>
      intro sv seq visited best frontier res hops hentry hfront h
      unfold GateSequenceSolver.processOps at h
      have hres := (Except.ok.injEq _ _).mp h
      constructor
      · intro r hr
        rw [← hres] at hr
        exact Sum.noConfusion hr
      · intro v b f hr
        rw [← hres] at hr
        injection hr with hr
        intro e he
        have hf : frontier = f := congrArg (fun t => t.2.2) hr
        rw [← hf] at he
        exact hfront e he
  | cons op restOps ih =>
      intro sv seq visited best frontier res hops hentry hfront h
      obtain ⟨sts0, hev0, hamp0, hnq0, hlen0, hnorm0⟩ := hentry
      have hgood : UnitaryOp s.num_qubits op := hops op (List.mem_cons_self _ _)
      unfold GateSequenceSolver.processOps at h
      rcases ha : GateOperation.apply op sv s.num_qubits with e0 | nv
      · rw [ha, exceptBind_error] at h
        exact Except.noConfusion h
      · rw [ha, exceptBind_ok] at h
        obtain ⟨out, hout_eq, hout_len, hout_norm⟩ :=
          unitaryOp_apply s.num_qubits op sv hgood hlen0
        rw [ha] at hout_eq
        injection hout_eq with hout_eq
        rw [hout_eq] at h
        have hfa : QuantumState.from_amplitudes out true =
            .ok ⟨out, s.num_qubits⟩ :=
          from_amplitudes_of_norm_one out s.num_qubits hout_len
            (by rw [hout_norm]; exact hnorm0)
        rw [hfa, exceptBind_ok] at h
        rcases hd : QuantumState.distance ⟨out, s.num_qubits⟩ target
            with e2 | nd
        · rw [hd, exceptBind_error] at h
          exact Except.noConfusion h
        · rw [hd, exceptBind_ok] at h
          dsimp only [] at h
          have hq_apply : QuantumState.apply (sts0.getLastD start) op =
              .ok ⟨out, s.num_qubits⟩ := by
            unfold QuantumState.apply
            rw [hamp0, hnq0, ha, exceptBind_ok, hout_eq]
          have hev1 : GateSequenceSolver.evolve_states start (seq ++ [op]) =
              .ok (sts0 ++ [⟨out, s.num_qubits⟩]) := by
            refine evolve_states_append seq [op] start sts0
              [⟨out, s.num_qubits⟩] hev0 ?_
            unfold GateSequenceSolver.evolve_states
            rw [hq_apply, exceptBind_ok]
            rfl
          have hlast1 : (sts0 ++ [(⟨out, s.num_qubits⟩ : QuantumState)]).getLastD start =
              (⟨out, s.num_qubits⟩ : QuantumState) := by
            rw [getLastD_append]
            rfl
          have hnewinv : EntryInv start s.num_qubits (out, seq ++ [op]) :=
            ⟨sts0 ++ [⟨out, s.num_qubits⟩], hev1, by rw [hlast1],
              by rw [hlast1], hout_len, by rw [hout_norm]; exact hnorm0⟩
          split at h
          · rename_i hcond
            obtain ⟨sts2, hev2, hlast2, hlen2⟩ :=
              success_final_state cfg s hmk start (seq ++ [op]) maxLayers
                (sts0 ++ [⟨out, s.num_qubits⟩]) hev1 hcond.2
                (by rw [hlast1]) (by rw [hlast1]; exact hout_len)
            rw [hev2, exceptBind_ok] at h
            have hfinal : sts2.getLastD start.copy =
                (⟨out, s.num_qubits⟩ : QuantumState) := by
              rw [show start.copy = start from rfl, hlast2, hlast1]
            rw [hfinal, hd, exceptBind_ok] at h
            have hres := (Except.ok.injEq _ _).mp h
            constructor
            · intro r hr
              rw [← hres] at hr
              have hr2 := Sum.inl.inj hr
              refine ⟨?_, ?_, ?_, ?_⟩
              · rw [← hr2]
                exact hd
              · rw [← hr2]
                exact hcond.1
              · rw [← hr2]
                exact hcond.2
              · rw [← hr2]
                exact hlen2
            · intro v b f hr
              rw [← hres] at hr
              exact Sum.noConfusion hr
          · have hops2 : ∀ op2 ∈ restOps, UnitaryOp s.num_qubits op2 :=
              fun op2 h2 => hops op2 (List.mem_cons_of_mem _ h2)
            have hentry2 : EntryInv start s.num_qubits (sv, seq) :=
              ⟨sts0, hev0, hamp0, hnq0, hlen0, hnorm0⟩
            have hfront2 : ∀ e ∈ frontier ++ [(out, seq ++ [op])],
                EntryInv start s.num_qubits e := by
              intro e he
              rcases List.mem_append.mp he with hm | hm
              · exact hfront e hm
              · rcases List.mem_cons.mp hm with he2 | hm2
                · rw [he2]
                  exact hnewinv
                · exact absurd hm2 (List.not_mem_nil _)
            split at h
            · exact ih sv seq visited _ frontier res hops2 hentry2 hfront h
            · exact ih sv seq _ _ (frontier ++ [(out, seq ++ [op])]) res
                hops2 hentry2 hfront2 h

theorem solveLoop_c1 (cfg : SolverConfig) (s : GateSequenceSolver)
    (hmk : mkGateSequenceSolver cfg = .ok s)
    (hfix : ∀ p ∈ s.fixed_operations, UnitaryOp s.num_qubits p.2)
    (target start : QuantumState) (maxLayers : ℕ) :
    ∀ (fuel : ℕ) (frontier : List GateSequenceSolver.FrontierEntry)
      (visited : ℕ → List (List ℤ)) (best : GateSequenceSolver.BestSoFar)
      (r : SolverResult),
      (∀ e ∈ frontier, EntryInv start s.num_qubits e) →
      GateSequenceSolver.solveLoop s target start maxLayers frontier visited
        best fuel = .ok r →
      r.success = true →
      QuantumState.distance r.final_state target = .ok r.distance ∧
      r.distance ≤ s.tolerance ∧
      s.fixed_layers_satisfied r.layers_used = true ∧
      r.layers_used ≤ r.sequence.length := by
  intro fuel
  induction fuel with
  | zero =>
      intro frontier visited best r hfront h hsucc
      cases frontier with
      | nil =>
          rw [finishFailure_success start best r h] at hsucc
          exact Bool.noConfusion hsucc
      | cons e rest =>
          rw [finishFailure_success start best r h] at hsucc
          exact Bool.noConfusion hsucc
  | succ fuel ih =>
      intro frontier visited best r hfront h hsucc
      cases frontier with
      | nil =>
          rw [finishFailure_success start best r h] at hsucc
          exact Bool.noConfusion hsucc
      | cons entry rest =>
          obtain ⟨sv, seq⟩ := entry
          unfold GateSequenceSolver.solveLoop at h
          dsimp only [] at h
          split at h
          · exact ih rest visited best r
              (fun e he => hfront e (List.mem_cons_of_mem _ he)) h hsucc
          · rcases hp : GateSequenceSolver.processOps s target start maxLayers
                sv seq visited best rest (s.operations_for_depth seq.length)
                with e0 | pres
            · rw [hp, exceptBind_error] at h
              exact Except.noConfusion h
            · rw [hp, exceptBind_ok] at h
              have hops : ∀ op ∈ s.operations_for_depth seq.length,
                  UnitaryOp s.num_qubits op := by
                intro op hop
                rcases mk_operations_for_depth_sources cfg s hmk seq.length op
                    hop with hm | ⟨p, hpmem, hpeq⟩
                · exact mk_operations_unitary cfg s hmk op hm
                · rw [← hpeq]
                  exact hfix p hpmem
              obtain ⟨hinl, hinr⟩ := processOps_c1 cfg s hmk target start
                maxLayers (s.operations_for_depth seq.length) sv seq visited
                best rest pres hops (hfront _ (List.mem_cons_self _ _))
                (fun e he => hfront e (List.mem_cons_of_mem _ he)) hp
              cases pres with
              | inl result =>
                  simp only [] at h
                  have hres := (Except.ok.injEq _ _).mp h
                  have hout := hinl result rfl
                  rwa [hres] at hout
              | inr triple =>
                  obtain ⟨v2, b2, f2⟩ := triple
                  simp only [] at h
                  exact ih f2 v2 b2 r (hinr v2 b2 f2 rfl) h hsucc

/-- C1 (amended): for a constructor-built solver, a normalised start
state of the full dimension and exactly-unitary well-formed fixed
operations, every success result reports the true distance of its final
state to the target, that distance is within tolerance, and every fixed
layer index is strictly below the returned sequence length.  (For an
unnormalised start the distance bound is false — see the
counterexample — because the success test renormalises candidate states
while `final_state` is re-evolved from the raw start.) -/
theorem c1_success_guarantees (cfg : SolverConfig) (s : GateSequenceSolver)
    (start target : QuantumState) (maxLayers fuel : ℕ) (r : SolverResult)
    (hmk : mkGateSequenceSolver cfg = .ok s)
    (hfix : ∀ p ∈ s.fixed_operations, UnitaryOp s.num_qubits p.2)
    (hlen : start.amplitudes.length = 2 ^ s.num_qubits)
    (hnorm1 : normSquaredOf start.amplitudes = 1)
    (hsolve : s.solve start target maxLayers fuel = .ok r)
    (hsucc : r.success = true) :
    QuantumState.distance r.final_state target = .ok r.distance ∧
    r.distance ≤ s.tolerance ∧
    ∀ p ∈ s.fixed_operations, p.1 < (r.sequence.length : ℤ) := by
  obtain ⟨_, _, _, _, _, _, _, _, _, _, _, hfl, _, _⟩ :=
    mkGateSequenceSolver_inv cfg s hmk
  unfold GateSequenceSolver.solve at hsolve
  split at hsolve
  · exact Except.noConfusion hsolve
  · rename_i hq
    rw [not_or] at hq
    obtain ⟨hq1, hq2⟩ := hq
    rw [not_ne_iff] at hq1
    split at hsolve
    · exact Except.noConfusion hsolve
    · split at hsolve
      · exact Except.noConfusion hsolve
      · rcases hd : start.distance target with e0 | d0
        · rw [hd, exceptBind_error] at hsolve
          exact Except.noConfusion hsolve
        · rw [hd, exceptBind_ok] at hsolve
          split at hsolve
          · rename_i hzero
            have hres := (Except.ok.injEq _ _).mp hsolve
            have hfe : s.fixed_operations = [] :=
              fixed_ops_nil_of_layers_empty s hfl hzero.2
            refine ⟨?_, ?_, ?_⟩
            · rw [← hres]
              exact hd
            · rw [← hres]
              exact hzero.1
            · intro p hp
              rw [hfe] at hp
              exact absurd hp (List.not_mem_nil _)
          · have hfront : ∀ e ∈ [(start.amplitudes,
                ([] : List GateOperation))], EntryInv start s.num_qubits e := by
              intro e he
              rcases List.mem_cons.mp he with he2 | hm
              · rw [he2]
                exact ⟨[], rfl, rfl, hq1, hlen, hnorm1⟩
              · exact absurd hm (List.not_mem_nil _)
            obtain ⟨hdist, htol, hsat, hle⟩ := solveLoop_c1 cfg s hmk hfix
              target start maxLayers fuel _ _ _ r hfront hsolve hsucc
            refine ⟨hdist, htol, ?_⟩
            intro p hp
            have hkey : p.1 ∈ s.fixed_layers := by
              rw [hfl]
              exact (mem_sortInts _ _).mpr (List.mem_map_of_mem Prod.fst hp)
            unfold GateSequenceSolver.fixed_layers_satisfied at hsat
            by_cases hemp : s.fixed_layers.isEmpty
            · rw [isEmpty_false_of_mem hkey] at hemp
              exact absurd hemp (by simp)
            · rw [if_neg hemp] at hsat
              dsimp only [] at hsat
              rw [List.all_eq_true] at hsat
              have h1 := hsat _ hkey
              simp only [decide_eq_true_eq] at h1
              omega

theorem c1_run_eval :
    c1Solver.solve ⟨[1, 0], 1⟩ ⟨[0, 1], 1⟩ 1 1 =
      .ok ⟨true, [⟨X_GATE, [0]⟩], 1, ⟨[0, 1], 1⟩, 0, [⟨[0, 1], 1⟩]⟩ := by
  have happX : GateOperation.apply ⟨X_GATE, [0]⟩ ([1, 0] : List ℂ) 1 =
      .ok [0, 1] := by
    unfold GateOperation.apply
    rw [if_neg (by simp)]
    simp [applyGateMatrix, kernelWrite, maskOf, spreadIdx, dotRow, matVec,
      X_GATE, List.range_succ]
    norm_num [List.set]
  have hlog : Nat.log2 2 = 1 := by simp [Nat.log2]
  have hval2 : validateDimension 2 = .ok 1 := by
    simp [validateDimension, hlog]
  have hnorm : pyNormalise ([0, 1] : List ℂ) = .ok [0, 1] := by
    unfold pyNormalise
    rw [show normSquaredOf ([0, 1] : List ℂ) = 1 by simp [normSquaredOf],
      if_pos (by unfold pyIsClose; norm_num [max_def])]
  have hfrom : QuantumState.from_amplitudes ([0, 1] : List ℂ) true =
      .ok ⟨[0, 1], 1⟩ := by
    unfold QuantumState.from_amplitudes
    rw [show (([0, 1] : List ℂ)).length = 2 from rfl, hval2, exceptBind_ok,
      if_pos rfl, hnorm, exceptBind_ok]
  have hd0 : QuantumState.distance ⟨([1, 0] : List ℂ), 1⟩ ⟨[0, 1], 1⟩ =
      .ok (Real.sqrt 2) := by
    unfold QuantumState.distance
    rw [if_neg (by simp), if_neg (by simp)]
    dsimp only []
    norm_num [List.range_succ, AbsoluteValue.map_neg, map_one]
  have hsqrt2 : ¬ (Real.sqrt 2 ≤ (1e-6 : ℝ)) := by
    have h1 : (1 : ℝ) ≤ Real.sqrt 2 := by
      rw [show (1 : ℝ) = Real.sqrt 1 from Real.sqrt_one.symm]
      exact Real.sqrt_le_sqrt (by norm_num)
    intro hc
    linarith
  have happX2 : QuantumState.apply ⟨[1, 0], 1⟩ ⟨X_GATE, [0]⟩ =
      .ok ⟨[0, 1], 1⟩ := by
    unfold QuantumState.apply
    dsimp only []
    rw [happX]
    rfl
  have hev : GateSequenceSolver.evolve_states ⟨[1, 0], 1⟩ [⟨X_GATE, [0]⟩] =
      .ok [⟨[0, 1], 1⟩] := by
    unfold GateSequenceSolver.evolve_states
    rw [happX2, exceptBind_ok]
    rfl
  unfold GateSequenceSolver.solve
  rw [if_neg (by push_neg; exact ⟨rfl, rfl⟩), if_neg (fun hh => hh.1 rfl),
    if_neg (fun hh => hh.1 rfl), hd0, exceptBind_ok,
    if_neg (fun hh => hsqrt2 hh.1)]
  refine solveLoop_step c1Solver ⟨[0, 1], 1⟩ ⟨[1, 0], 1⟩ 1 _ _ _ _ _ 0 _
    (by simp) ?_
  exact processOps_step_success c1Solver ⟨[0, 1], 1⟩ ⟨[1, 0], 1⟩ 1 _ []
    _ _ _ ⟨X_GATE, [0]⟩ [] [0, 1] ⟨[0, 1], 1⟩ 0 [⟨[0, 1], 1⟩] 0
    happX hfrom (distance_self _)
    ⟨show (0 : ℝ) ≤ 1e-6 by norm_num, rfl⟩ hev (distance_self _)

/-- Witness for the amended C1: the X-only solver maps `[1, 0]` to
`[0, 1]` in one layer; the success result reports its final state's
true distance 0, within tolerance, and there are no fixed layers. -/
theorem c1_success_guarantees_witness :
    QuantumState.distance (⟨[0, 1], 1⟩ : QuantumState) ⟨[0, 1], 1⟩ =
      .ok (0 : ℝ) ∧
    (0 : ℝ) ≤ c1Solver.tolerance ∧
    ∀ p ∈ c1Solver.fixed_operations,
      p.1 < (([(⟨X_GATE, [0]⟩ : GateOperation)].length : ℕ) : ℤ) :=
  c1_success_guarantees c1Cfg c1Solver ⟨[1, 0], 1⟩ ⟨[0, 1], 1⟩ 1 1
    ⟨true, [⟨X_GATE, [0]⟩], 1, ⟨[0, 1], 1⟩, 0, [⟨[0, 1], 1⟩]⟩ rfl
    (fun p hp => absurd hp (List.not_mem_nil _)) rfl
    (by simp [normSquaredOf]) c1_run_eval rfl

end QSolver
